import Mathlib

/-!
Verification of the kj multi-index table (Cap'n Proto `kj::Table` and its
index kinds) against its natural-language specification.  The public
implementation header is not part of the source tree here, so the data
model and operations are modelled from the specification (`spec.md`),
with the shipped test suite (`src/c++/src/kj/table-test.c++`) as the
behavioural authority wherever it pins concrete outcomes.
-/

namespace KjTable

/-! ### B-tree node internals (`BTreeImpl::Leaf` / `BTreeImpl::Parent`) -/

namespace BTreeImpl

/-- Modelled from the spec: a B-tree leaf holds an ordered array `rows[R]`
of up to R = 14 row numbers with a zero sentinel for unused slots; the
missing `table.h` defines `size`, `isHalfFull`, `isMostlyFull`, `isFull`
over it.  We represent the 14 slots as a list of naturals (0 = empty). -/
structure Leaf where
  rows : List Nat
deriving DecidableEq

/-- Modelled from the spec: a B-tree parent node with K = 14 separator
keys (zero sentinel for unused slots); `keyCount` and the occupancy
predicates mirror the leaf versions. -/
structure Parent where
  keys : List Nat
deriving DecidableEq

/-- Modelled from the spec: `size()` counts the leading nonzero row
slots of a leaf. -/
def Leaf.size (l : Leaf) : Nat :=
  (l.rows.takeWhile (fun r => r != 0)).length

/-- Modelled from the spec: `isFull()` holds when the last (14th) row
slot is occupied. -/
def Leaf.isFull (l : Leaf) : Bool :=
  l.rows.getD 13 0 != 0

/-- Modelled from the spec and pinned by the test at lines 595-613 of
`table-test.c++`: `isMostlyFull()` holds when strictly more than R/2 = 7
slots are occupied, i.e. slot index 7 is nonzero. -/
def Leaf.isMostlyFull (l : Leaf) : Bool :=
  l.rows.getD 7 0 != 0

/-- Modelled from the spec and pinned by the test: `isHalfFull()` asserts
(debug build) that the node is at least half full, and returns whether it
is *exactly* half full (slot 7 empty while slot 6 is occupied).  `none`
models the debug assertion firing. -/
def Leaf.isHalfFull (l : Leaf) : Option Bool :=
  if l.rows.getD 6 0 == 0 then none
  else some (l.rows.getD 7 0 == 0)

/-- Modelled from the spec: `keyCount()` counts the leading nonzero key
slots of a parent node. -/
def Parent.keyCount (p : Parent) : Nat :=
  (p.keys.takeWhile (fun r => r != 0)).length

/-- Modelled from the spec: parent node full predicate (all 14 key slots
occupied). -/
def Parent.isFull (p : Parent) : Bool :=
  p.keys.getD 13 0 != 0

/-- Modelled from the spec and the test: parent node mostly-full
predicate (strictly more than K/2 keys). -/
def Parent.isMostlyFull (p : Parent) : Bool :=
  p.keys.getD 7 0 != 0

/-- Modelled from the spec and the test: parent node half-full predicate
with its debug assertion (`none` = assertion failure for a node less
than half full). -/
def Parent.isHalfFull (p : Parent) : Option Bool :=
  if p.keys.getD 6 0 == 0 then none
  else some (p.keys.getD 7 0 == 0)

/-- A leaf whose first `i` slots are nonzero (value 1) and whose
remaining slots are zero, as built by the loop in the B-tree internals
test. -/
def mkLeaf (i : Nat) : Leaf :=
  ⟨List.replicate i 1 ++ List.replicate (14 - i) 0⟩

/-- A parent node whose first `i` keys are nonzero and the rest zero. -/
def mkParent (i : Nat) : Parent :=
  ⟨List.replicate i 1 ++ List.replicate (14 - i) 0⟩

end BTreeImpl

/-! ### Hash index (`kj::HashIndex`) -/

/-- Modelled from the spec: a hash slot is empty, a tombstone, or
occupied by a row number. -/
inductive Slot where
  | empty
  | tomb
  | occ (n : Nat)
deriving DecidableEq

/-- Whether a slot is occupied. -/
def Slot.isOcc : Slot → Bool
  | .occ _ => true
  | _ => false

/-- Modelled from the spec: the callback object supplying key extraction
for a row type: a probe key type, decidable key equality, and
`keyForRow`; `matches(row, probe)` is equality between the row's key and
the probe key. -/
structure KeyCb (T : Type) where
  Key : Type
  deq : DecidableEq Key
  keyForRow : T → Key

/-- Boolean key equality from the callback's decidable equality. -/
def KeyCb.keq {T : Type} (cb : KeyCb T) (a b : cb.Key) : Bool :=
  @decide (a = b) (cb.deq a b)

/-- Modelled from the spec: a hash-index callback additionally supplies
`hashCode` on probe keys. -/
structure HashCb (T : Type) extends KeyCb T where
  hashCode : Key → Nat

/-- Whether the row stored at row number `m` matches probe key `k`
(false when `m` is not a live row number). -/
def matchesAt {T : Type} (cb : KeyCb T) (rows : List T) (m : Nat) (k : cb.Key) : Bool :=
  match rows[m]? with
  | some r => cb.keq (cb.keyForRow r) k
  | none => false

/-- Modelled from the spec: linear probing from the initial bucket
`h % len` with wrap-around; the list of slot positions visited, in
order. -/
def probeSeq (h len : Nat) : List Nat :=
  (List.range len).map (fun i => (h + i) % len)

/-- One linear-probe scan for `find`: skip tombstones, stop at the first
empty slot, return the row number of the first occupied slot matching
the probe. -/
def hashFindLoop {T : Type} (cb : KeyCb T) (rows : List T) (k : cb.Key)
    (slots : List Slot) : List Nat → Option Nat
  | [] => none
  | p :: ps =>
    match slots.getD p .empty with
    | .empty => none
    | .tomb => hashFindLoop cb rows k slots ps
    | .occ m => if matchesAt cb rows m k then some m else hashFindLoop cb rows k slots ps

/-- Modelled from the spec: `find(rows, probe)` probes linearly from the
bucket of the probe's hash, skipping tombstones and stopping at the
first empty slot. -/
def hashFind {T : Type} (cb : HashCb T) (rows : List T) (slots : List Slot)
    (k : cb.Key) : Option Nat :=
  hashFindLoop cb.toKeyCb rows k slots (probeSeq (cb.hashCode k) slots.length)

/-- Modelled from the spec: the slot an insert writes to — the first
tombstone seen if any occurs before the first empty slot, else the first
empty slot; equivalently the first non-occupied position in probe
order. -/
def writePos (slots : List Slot) (ps : List Nat) : Option Nat :=
  ps.find? (fun p => !(slots.getD p .empty).isOcc)

/-- Number of occupied slots. -/
def nOcc (slots : List Slot) : Nat :=
  slots.countP Slot.isOcc

/-- Number of tombstone slots. -/
def nTomb (slots : List Slot) : Nat :=
  slots.countP (fun s => decide (s = Slot.tomb))

/-- Doubling loop choosing the new slot-array length on rehash. -/
def chooseLenAux : Nat → Nat → Nat → Nat
  | 0, len, _ => len
  | fuel + 1, len, need => if need ≤ len * 3 / 4 then len else chooseLenAux fuel (len * 2) need

/-- Modelled from the spec: the rehash target size — the smallest power
of two whose three-quarter load bound accommodates the live occupancy
plus one; tombstones are not counted, so the array may stay the same
size or shrink. -/
def chooseLen (load : Nat) : Nat :=
  chooseLenAux (load + 2) 2 (load + 1)

/-- Modelled from the spec: insert without the growth check: report the
existing row on a key duplicate (state unchanged), else place the row
number at the write position. -/
def hashInsertNoGrow {T : Type} (cb : HashCb T) (rows : List T) (slots : List Slot)
    (n : Nat) (k : cb.Key) : Option Nat × List Slot :=
  match hashFind cb rows slots k with
  | some m => (some m, slots)
  | none =>
    match writePos slots (probeSeq (cb.hashCode k) slots.length) with
    | some p => (none, slots.set p (.occ n))
    | none => (none, slots)

/-- Reinsert one old slot's row during rehash (non-occupied slots are
dropped). -/
def hashReinsert {T : Type} (cb : HashCb T) (rows : List T) (acc : List Slot)
    (s : Slot) : List Slot :=
  match s with
  | .occ m =>
    match rows[m]? with
    | some r => (hashInsertNoGrow cb rows acc m (cb.keyForRow r)).2
    | none => acc
  | _ => acc

/-- Modelled from the spec: rehash walks every occupied slot and
reinserts its row into a fresh array of the chosen size; tombstones are
dropped. -/
def hashRehash {T : Type} (cb : HashCb T) (rows : List T) (slots : List Slot) : List Slot :=
  slots.foldl (hashReinsert cb rows) (List.replicate (chooseLen (nOcc slots)) Slot.empty)

/-- Modelled from the spec: `insert` rehashes first when
`occupied + tombstones + 1` would exceed three quarters of the array,
then performs the probe-and-place insert. -/
def hashInsert {T : Type} (cb : HashCb T) (rows : List T) (slots : List Slot)
    (n : Nat) (k : cb.Key) : Option Nat × List Slot :=
  let slots1 :=
    if nOcc slots + nTomb slots + 1 > slots.length * 3 / 4 then hashRehash cb rows slots
    else slots
  hashInsertNoGrow cb rows slots1 n k

/-- Modelled from the spec: `erase` locates the slot holding row number
`n` along the probe path of the row's key and replaces it with a
tombstone. -/
def hashErase {T : Type} (cb : HashCb T) (slots : List Slot) (n : Nat) (k : cb.Key) : List Slot :=
  match (probeSeq (cb.hashCode k) slots.length).find?
      (fun p => decide (slots.getD p .empty = .occ n)) with
  | some p => slots.set p .tomb
  | none => slots

/-- Modelled from the spec: the `move(old, new)` relocation hook updates
the unique slot holding `old` to hold `new`, re-probing from the hash of
the affected row's key. -/
def hashMove {T : Type} (cb : HashCb T) (slots : List Slot) (old new : Nat)
    (k : cb.Key) : List Slot :=
  match (probeSeq (cb.hashCode k) slots.length).find?
      (fun p => decide (slots.getD p .empty = .occ old)) with
  | some p => slots.set p (.occ new)
  | none => slots

/-- Modelled from the spec: `capacity()` is the size of the slot
array. -/
def hashCapacity (slots : List Slot) : Nat :=
  slots.length

/-- Whether some slot holds row number `m` (the observable contents of
the index). -/
def hasRow (slots : List Slot) (m : Nat) : Bool :=
  slots.any (fun s => decide (s = Slot.occ m))

/-- The internal well-formedness invariant of a hash index relative to
the row storage: occupied slots hold live row numbers, no row occupies
two slots and distinct occupied rows have distinct keys, every occupied
slot is reachable from its key's bucket without crossing an empty slot,
and the non-empty slots respect the three-quarter load bound. -/
structure HashInv {T : Type} (cb : HashCb T) (rows : List T) (slots : List Slot) : Prop where
  bounded : ∀ (p m : Nat), slots[p]? = some (Slot.occ m) → m < rows.length
  uniq : ∀ (p q m m' : Nat), slots[p]? = some (Slot.occ m) → slots[q]? = some (Slot.occ m') →
    p ≠ q → ∀ r r', rows[m]? = some r → rows[m']? = some r' →
      cb.keyForRow r ≠ cb.keyForRow r'
  path : ∀ (p m : Nat), slots[p]? = some (Slot.occ m) → ∀ r, rows[m]? = some r →
    ∃ j < slots.length, p = (cb.hashCode (cb.keyForRow r) + j) % slots.length ∧
      ∀ i < j, slots[(cb.hashCode (cb.keyForRow r) + i) % slots.length]? ≠ some Slot.empty
  load : nOcc slots + nTomb slots ≤ slots.length * 3 / 4

/-! ### The workload of the tombstone-shedding regression test (C3) -/

/-- The `IntHasher` callback of the test: the key is the integer itself
and so is its hash code. -/
def intHasher : HashCb Nat :=
  ⟨⟨Nat, inferInstance, id⟩, id⟩

/-- One round of the regression workload: insert row 0 under probe value
`v`, then immediately erase it (the row array is null in the test; no
occupied slot is ever matched against it). -/
def c3Round (v : Nat) (slots : List Slot) : List Slot :=
  hashErase intHasher (hashInsert intHasher [] slots 0 v).2 0 v

/-- Run the insert-then-erase workload over a list of probe values,
starting from an empty index. -/
def c3Run (vs : List Nat) : List Slot :=
  vs.foldl (fun s v => c3Round v s) []

/-- The set of states reachable by the insert-then-erase workload. -/
def c3S : List (List Slot) :=
  [[], [Slot.tomb, Slot.empty], [Slot.empty, Slot.tomb]]

/-! ### Tree index (`kj::TreeIndex`)

The implementation header is absent; per the spec's design notes the
node-arena layout is a free choice ("Implementations free to choose
their own arena layout for tree nodes … provided observable behavior
matches"), so the ordered index is modelled by its observable content:
the list of row numbers in ascending key order, with the operations the
spec prescribes (duplicate-reporting insert, erase, relocation hook,
`find`, half-open `range`, and `seek`). -/

/-- Modelled from the spec: the callback object of an ordered index: a
key type with a linear order (`isBefore` is the strict order on
extracted keys) and `keyForRow`. -/
structure TreeCb (T : Type) where
  Key : Type
  ord : LinearOrder Key
  keyForRow : T → Key

/-- Boolean strict comparison from the callback's order. -/
def TreeCb.klt {T : Type} (cb : TreeCb T) (a b : cb.Key) : Bool :=
  @decide (cb.ord.lt a b) (cb.ord.decidableLT a b)

/-- Boolean key equality from the callback's order. -/
def TreeCb.keq {T : Type} (cb : TreeCb T) (a b : cb.Key) : Bool :=
  @decide (a = b) (cb.ord.decidableEq a b)

/-- Modelled from the spec: `matches(row, probe)` for an ordered index —
equality between the stored row's key and the probe key. -/
def treeMatches {T : Type} (cb : TreeCb T) (rows : List T) (m : Nat) (k : cb.Key) : Bool :=
  match rows[m]? with
  | some r => cb.keq (cb.keyForRow r) k
  | none => false

/-- Modelled from the spec: `isBefore(row, probe)` — whether the stored
row's key is strictly before the probe key. -/
def treeBefore {T : Type} (cb : TreeCb T) (rows : List T) (m : Nat) (k : cb.Key) : Bool :=
  match rows[m]? with
  | some r => cb.klt (cb.keyForRow r) k
  | none => false

/-- Modelled from the spec: `find` returns the row with the matching
key, or none. -/
def treeFind {T : Type} (cb : TreeCb T) (rows : List T) (lst : List Nat) (k : cb.Key) :
    Option Nat :=
  lst.find? (fun m => treeMatches cb rows m k)

/-- Ordered insertion position: the new row goes before the first stored
row whose key is not before the probe key. -/
def treeInsertSorted {T : Type} (cb : TreeCb T) (rows : List T) (n : Nat) (k : cb.Key) :
    List Nat → List Nat
  | [] => [n]
  | m :: ms =>
    if treeBefore cb rows m k then m :: treeInsertSorted cb rows n k ms
    else n :: m :: ms

/-- Modelled from the spec: duplicate keys are reported with the
existing row number and nothing is inserted; otherwise the row number is
inserted at its ordered position. -/
def treeInsert {T : Type} (cb : TreeCb T) (rows : List T) (lst : List Nat) (n : Nat)
    (k : cb.Key) : Option Nat × List Nat :=
  match treeFind cb rows lst k with
  | some m => (some m, lst)
  | none => (none, treeInsertSorted cb rows n k lst)

/-- Modelled from the spec: `erase` removes the row number from the
ordered list. -/
def treeErase (lst : List Nat) (n : Nat) : List Nat :=
  lst.erase n

/-- Modelled from the spec: the `move(old, new)` relocation hook
replaces the old row number with the new one; the structure does not
change. -/
def treeMove (lst : List Nat) (old nw : Nat) : List Nat :=
  lst.map (fun m => if m = old then nw else m)

/-- Modelled from the spec: `range(lower, upper)` yields, in ascending
key order, the rows from the first key not before `lower` until a key
not before `upper` is reached (half-open interval). -/
def treeRange {T : Type} (cb : TreeCb T) (rows : List T) (lst : List Nat)
    (lower upper : cb.Key) : List Nat :=
  (lst.dropWhile (fun m => treeBefore cb rows m lower)).takeWhile
    (fun m => treeBefore cb rows m upper)

/-- Modelled from the spec: `seek(probe)` iterates from the first key
not before the probe to the maximum. -/
def treeSeek {T : Type} (cb : TreeCb T) (rows : List T) (lst : List Nat) (k : cb.Key) :
    List Nat :=
  lst.dropWhile (fun m => treeBefore cb rows m k)

/-- The well-formedness invariant of the ordered index: row numbers are
live and listed in strictly ascending key order. -/
structure TreeInv {T : Type} (cb : TreeCb T) (rows : List T) (lst : List Nat) : Prop where
  bounded : ∀ m ∈ lst, m < rows.length
  sorted : List.Pairwise (fun a b => ∀ ra rb, rows[a]? = some ra → rows[b]? = some rb →
    cb.ord.lt (cb.keyForRow ra) (cb.keyForRow rb)) lst

/-- The pairwise distinctness relation among occupied slots of the old
array during rehash: distinct row numbers with distinct keys. -/
def OccDistinct {T : Type} (cb : HashCb T) (rows : List T) (s s' : Slot) : Prop :=
  ∀ (m m' : Nat), s = Slot.occ m → s' = Slot.occ m' →
    m ≠ m' ∧ ∀ r r', rows[m]? = some r → rows[m']? = some r' →
      cb.keyForRow r ≠ cb.keyForRow r'

/-! ### The Table coordinator (`kj::Table`)

Modelled from the spec: a Table owns row storage (a growable list
addressed by dense row numbers) and an ordered list of indexes; it fans
every operation out to all indexes and rolls an insert back when a later
index reports a duplicate. -/

/-- An index of a table: a hash index or an ordered (tree) index, each
with its callback object and its internal state. -/
inductive Index (T : Type) where
  | hash (cb : HashCb T) (slots : List Slot)
  | tree (cb : TreeCb T) (lst : List Nat)

/-- The probe key type of an index. -/
def Index.Key {T : Type} : Index T → Type
  | .hash cb _ => cb.Key
  | .tree cb _ => cb.Key

/-- Modelled from the spec: `find<I>(probe)` delegates to the index. -/
def Index.findKey {T : Type} : (idx : Index T) → List T → Index.Key idx → Option Nat
  | .hash cb slots, rows, k => hashFind cb rows slots k
  | .tree cb lst, rows, k => treeFind cb rows lst k

/-- Register row number `n` with the index; `some m` reports a duplicate
with the existing row `m` and leaves the contents unchanged. -/
def Index.insertRow {T : Type} (rows : List T) (n : Nat) : Index T → Option Nat × Index T
  | .hash cb slots =>
    match rows[n]? with
    | some r => ((hashInsert cb rows slots n (cb.keyForRow r)).1,
        .hash cb (hashInsert cb rows slots n (cb.keyForRow r)).2)
    | none => (none, .hash cb slots)
  | .tree cb lst =>
    match rows[n]? with
    | some r => ((treeInsert cb rows lst n (cb.keyForRow r)).1,
        .tree cb (treeInsert cb rows lst n (cb.keyForRow r)).2)
    | none => (none, .tree cb lst)

/-- Remove row number `n` from the index (keyed by the row's own key). -/
def Index.eraseRow {T : Type} (rows : List T) (n : Nat) : Index T → Index T
  | .hash cb slots =>
    match rows[n]? with
    | some r => .hash cb (hashErase cb slots n (cb.keyForRow r))
    | none => .hash cb slots
  | .tree cb lst => .tree cb (treeErase lst n)

/-- The `move(old, new)` relocation hook, keyed by the relocated row's
key in the updated row storage. -/
def Index.moveRow {T : Type} (rowsNew : List T) (old nw : Nat) : Index T → Index T
  | .hash cb slots =>
    match rowsNew[nw]? with
    | some r => .hash cb (hashMove cb slots old nw (cb.keyForRow r))
    | none => .hash cb slots
  | .tree cb lst => .tree cb (treeMove lst old nw)

/-- The observable contents of an index: whether it holds row number
`m`. -/
def Index.memRow {T : Type} : Index T → Nat → Bool
  | .hash _ slots, m => hasRow slots m
  | .tree _ lst, m => decide (m ∈ lst)

/-- Modelled from the spec: `clear()` frees the index's internal
storage. -/
def Index.clear {T : Type} : Index T → Index T
  | .hash cb _ => .hash cb []
  | .tree cb _ => .tree cb []

/-- Look up a stored row by its own key through the index. -/
def Index.findOwnRow {T : Type} (rows : List T) (n : Nat) : Index T → Option Nat
  | .hash cb slots =>
    match rows[n]? with
    | some r => hashFind cb rows slots (cb.keyForRow r)
    | none => none
  | .tree cb lst =>
    match rows[n]? with
    | some r => treeFind cb rows lst (cb.keyForRow r)
    | none => none

/-- Per-index well-formedness relative to the row storage: the internal
invariant plus completeness (the index holds exactly the live row
numbers). -/
def Index.Wf {T : Type} (rows : List T) : Index T → Prop
  | .hash cb slots => HashInv cb rows slots ∧ ∀ m : Nat, hasRow slots m = true ↔ m < rows.length
  | .tree cb lst => TreeInv cb rows lst ∧ ∀ m : Nat, m ∈ lst ↔ m < rows.length

/-- A table: row storage plus the declared list of indexes. -/
structure Table (T : Type) where
  rows : List T
  idxs : List (Index T)

/-- Modelled from the spec: register the new row with each index in
declaration order; on a duplicate, erase it from the
previously-successful indexes (the rollback) and report the duplicate. -/
def insertAllIdx {T : Type} (rows : List T) (n : Nat) :
    List (Index T) → List (Index T) × Option Nat
  | [] => ([], none)
  | idx :: rest =>
    match Index.insertRow rows n idx with
    | (some m, idx') => (idx' :: rest, some m)
    | (none, idx') =>
      match insertAllIdx rows n rest with
      | (rest', some m) => (Index.eraseRow rows n idx' :: rest', some m)
      | (rest', none) => (idx' :: rest', none)

/-- Modelled from the spec: `insert(row)` appends the row, registers it
with every index, and on a duplicate rolls back and reports the existing
row number. -/
def Table.insert {T : Type} (t : Table T) (r : T) : Table T × Option Nat :=
  match insertAllIdx (t.rows ++ [r]) t.rows.length t.idxs with
  | (idxs', some m) => (⟨t.rows, idxs'⟩, some m)
  | (idxs', none) => (⟨t.rows ++ [r], idxs'⟩, none)

/-- `size()` of the table. -/
def Table.size {T : Type} (t : Table T) : Nat :=
  t.rows.length

/-- Modelled from the spec: `erase(n)` removes the row from every index,
swap-removes it from row storage (relocating the last row into slot `n`)
and broadcasts the relocation to every index. -/
def Table.erase {T : Type} (t : Table T) (n : Nat) : Table T :=
  if n < t.rows.length then
    let idxs1 := t.idxs.map (Index.eraseRow t.rows n)
    if n = t.rows.length - 1 then ⟨t.rows.dropLast, idxs1⟩
    else
      match t.rows[t.rows.length - 1]? with
      | some lastRow =>
        ⟨(t.rows.set n lastRow).dropLast,
          idxs1.map (Index.moveRow ((t.rows.set n lastRow).dropLast) (t.rows.length - 1) n)⟩
      | none => t
  else t

/-- The observable outcome of `upsert`: a fresh insertion, or the
invocation of the update callback with the existing row number and the
incoming value. -/
inductive UpsertResult (T : Type) where
  | inserted (n : Nat)
  | updated (existing : Nat) (param : T)
deriving DecidableEq

/-- Modelled from the spec: `upsert(row, cb)` inserts, converting a
duplicate into a callback invocation on the existing row. -/
def Table.upsert {T : Type} (t : Table T) (r : T) : Table T × UpsertResult T :=
  match t.insert r with
  | (t', none) => (t', .inserted (t'.rows.length - 1))
  | (t', some m) => (t', .updated m r)

/-- `find` through the index at a declared position. -/
def Table.findAt {T : Type} (t : Table T) (i : Fin t.idxs.length)
    (k : (t.idxs.get i).Key) : Option Nat :=
  (t.idxs.get i).findKey t.rows k

/-- Modelled from the spec: `eraseMatch<I>(probe)` finds then erases,
returning whether a row was removed. -/
def Table.eraseMatch {T : Type} (t : Table T) (i : Fin t.idxs.length)
    (k : (t.idxs.get i).Key) : Table T × Bool :=
  match (t.idxs.get i).findKey t.rows k with
  | some n => (t.erase n, true)
  | none => (t, false)

/-- Modelled from the spec: `findOrCreate<I>(probe, lazyCtor)` returns
the hit, or appends the constructed row and registers it with every
index, rolling back on a duplicate (`Except.error m` is the duplicate
error). -/
def Table.findOrCreate {T : Type} (t : Table T) (i : Fin t.idxs.length)
    (k : (t.idxs.get i).Key) (ctor : Unit → T) : Table T × Except Nat Nat :=
  match (t.idxs.get i).findKey t.rows k with
  | some n => (t, .ok n)
  | none =>
    match t.insert (ctor ()) with
    | (t', none) => (t', .ok (t'.rows.length - 1))
    | (t', some m) => (t', .error m)

/-- Modelled from the spec: the `eraseAll(predicate)` scan; after a
successful erase the same slot is re-examined because the last row was
relocated into it.  Fuel bounds the iteration count (one unit per
step). -/
def Table.eraseAllLoop {T : Type} (p : T → Bool) :
    Nat → Table T → Nat → Nat → Table T × Nat
  | 0, t, _, cnt => (t, cnt)
  | fuel + 1, t, i, cnt =>
    match t.rows[i]? with
    | some r =>
      if p r then Table.eraseAllLoop p fuel (t.erase i) i (cnt + 1)
      else Table.eraseAllLoop p fuel t (i + 1) cnt
    | none => (t, cnt)

/-- Modelled from the spec: `eraseAll(predicate)` erases every matching
row and returns the number removed. -/
def Table.eraseAll {T : Type} (t : Table T) (p : T → Bool) : Table T × Nat :=
  Table.eraseAllLoop p (t.rows.length + 1) t 0 0

/-- Modelled from the spec: `clear()` empties row storage and every
index. -/
def Table.clear {T : Type} (t : Table T) : Table T :=
  ⟨[], t.idxs.map Index.clear⟩

/-- `insertAll(range)` inserts each element in order (duplicates would
throw in the source; here the rolled-back table simply carries on). -/
def Table.insertAll {T : Type} (t : Table T) (rs : List T) : Table T :=
  rs.foldl (fun acc r => (acc.insert r).1) t

/-- Modelled from the spec: moving a Table transfers ownership of row
storage and every index; the moved-from table is left empty and usable.
The pair is (moved-to, moved-from). -/
def Table.move {T : Type} (t : Table T) : Table T × Table T :=
  (⟨t.rows, t.idxs⟩, ⟨[], t.idxs.map Index.clear⟩)

/-- Table-level well-formedness: every index is well-formed against the
row storage. -/
def Table.Wf {T : Type} (t : Table T) : Prop :=
  ∀ idx ∈ t.idxs, Index.Wf t.rows idx

/-- One mutation of a table, as enumerated by the specification's
invariant section: insert, upsert, erase, eraseMatch, eraseAll,
findOrCreate, clear. -/
inductive Mutation {T : Type} (t : Table T) where
  | ins (r : T)
  | ups (r : T)
  | ers (n : Nat)
  | ersMatch (i : Fin t.idxs.length) (k : (t.idxs.get i).Key)
  | ersAll (p : T → Bool)
  | fOrC (i : Fin t.idxs.length) (k : (t.idxs.get i).Key) (ctor : Unit → T)
  | clr

/-- Apply a mutation to its table. -/
def Mutation.apply {T : Type} {t : Table T} : Mutation t → Table T
  | .ins r => (t.insert r).1
  | .ups r => (t.upsert r).1
  | .ers n => t.erase n
  | .ersMatch i k => (t.eraseMatch i k).1
  | .ersAll p => (t.eraseAll p).1
  | .fOrC i k ctor => (t.findOrCreate i k ctor).1
  | .clr => t.clear

/-- A tiny concrete table (a single integer hash index over the row
value itself) used to exercise the table-level theorems. -/
def tEx : Table Nat :=
  ⟨[], [Index.hash intHasher []]⟩

/-- Modelled from the spec: `begin()/end()` walk row storage directly,
yielding rows in row-number order. -/
def Table.iter {T : Type} (t : Table T) : List T :=
  t.rows

/-- The string hash callback of the end-to-end scenarios: the key is the
whole string. -/
def strHasher : HashCb String :=
  ⟨⟨String, inferInstance, id⟩, String.length⟩

/-- The empty one-hash-index string table of scenario 1. -/
def c6T0 : Table String :=
  ⟨[], [Index.hash strHasher []]⟩

/-- Scenario 1 after inserting "foo", "bar", "baz". -/
def c6T : Table String :=
  (((c6T0.insert "foo").1.insert "bar").1.insert "baz").1

/-- The string-length hash callback of scenario C2: the key is the
string's length. -/
def lenHasher : HashCb String :=
  ⟨⟨Nat, inferInstance, String.length⟩, id⟩

/-- The empty two-index table of the upsert-collision scenario: a
full-string hash index (index 0) and a string-length hash index
(index 1). -/
def c2T0 : Table String :=
  ⟨[], [Index.hash strHasher [], Index.hash lenHasher []]⟩

/-- The upsert-collision table holding "a", "ab", "abc". -/
def c2T : Table String :=
  (((c2T0.insert "a").1.insert "ab").1.insert "abc").1

/-- The upsert-collision table's state after the rejected upsert,
written out explicitly (the full-string index grew and kept a tombstone
from the rollback; its contents are unchanged). -/
def c2TA : Table String :=
  ⟨["a", "ab", "abc"],
    [Index.hash strHasher
      [.empty, .occ 0, .occ 1, .occ 2, .tomb, .empty, .empty, .empty],
     Index.hash lenHasher
      [.empty, .occ 0, .occ 1, .occ 2, .empty, .empty, .empty, .empty]]⟩

/-- The string-side hash callback of the findOrCreate scenario over
(string, uint) pairs: key is the first component. -/
def siStrCb : HashCb (String × Nat) :=
  ⟨⟨String, inferInstance, Prod.fst⟩, String.length⟩

/-- The uint-side hash callback of the findOrCreate scenario: key is the
second component. -/
def siUintCb : HashCb (String × Nat) :=
  ⟨⟨Nat, inferInstance, Prod.snd⟩, id⟩

/-- The empty two-index pair table of the findOrCreate scenario. -/
def siT0 : Table (String × Nat) :=
  ⟨[], [Index.hash siStrCb [], Index.hash siUintCb []]⟩

/-- The pair table after findOrCreate created ("foo", 123). -/
def siTA : Table (String × Nat) :=
  ⟨[("foo", 123)],
    [Index.hash siStrCb [.empty, .occ 0], Index.hash siUintCb [.empty, .occ 0]]⟩

/-- The pair table after the rejected findOrCreate of ("bar", 123): rows
and contents unchanged, the indexes merely grew during the rolled-back
attempt. -/
def siTB : Table (String × Nat) :=
  ⟨[("foo", 123)],
    [Index.hash siStrCb [.tomb, .empty, .empty, .occ 0],
     Index.hash siUintCb [.empty, .empty, .empty, .occ 0]]⟩

/-- The ordered-index callback over strings: the key is the string's
character list, compared lexicographically. -/
def strTreeCb : TreeCb String :=
  ⟨List Char, inferInstance, String.data⟩

/-- The empty one-tree-index string table of the ordered-range
scenario. -/
def c5T0 : Table String :=
  ⟨[], [Index.tree strTreeCb []]⟩

/-- The ordered-range table holding the key set
corge, garply, grault, qux. -/
def c5T : Table String :=
  c5T0.insertAll ["qux", "corge", "grault", "garply"]

/-- The predicate of the eraseAll scenario: the string starts with
"ba". -/
def c8P : String → Bool :=
  fun s => "ba".data.isPrefixOf s.data

/-- The seven-row eraseAll table. -/
def c8T : Table String :=
  c6T0.insertAll ["baz", "bar", "qux", "corge", "grault", "garply", "baa"]

/-- Modelled from the spec: one node of the InsertionOrderIndex links
array; entry n+1 holds (prev, next) for row n and entry 0 is the head
sentinel. -/
structure IoLink where
  prev : Nat
  next : Nat
deriving DecidableEq

/-- The links array of an empty InsertionOrderIndex: just the
sentinel. -/
def ioEmptyLinks : List IoLink :=
  [⟨0, 0⟩]

/-- Modelled from the spec: append row `n` at the tail of the linked
list (the sentinel's prev pointer holds the current tail node), growing
the array to cover entry n+1. -/
def ioInsert (links : List IoLink) (n : Nat) : List IoLink :=
  let tailPtr := (links.getD 0 ⟨0, 0⟩).prev
  let padded := links ++ List.replicate (n + 2 - links.length) (⟨0, 0⟩ : IoLink)
  let p1 := padded.set (n + 1) ⟨tailPtr, 0⟩
  let p2 := p1.set tailPtr ⟨(p1.getD tailPtr ⟨0, 0⟩).prev, n + 1⟩
  p2.set 0 ⟨n + 1, (p2.getD 0 ⟨0, 0⟩).next⟩

/-- Walk the next pointers from a node; fuel bounds the walk. -/
def ioIterLoop (links : List IoLink) : Nat → Nat → List Nat
  | 0, _ => []
  | fuel + 1, ptr =>
    if (links.getD ptr ⟨0, 0⟩).next = 0 then []
    else ((links.getD ptr ⟨0, 0⟩).next - 1) ::
      ioIterLoop links fuel (links.getD ptr ⟨0, 0⟩).next

/-- Ordered iteration of the linked list, starting at the sentinel. -/
def ioIter (links : List IoLink) : List Nat :=
  ioIterLoop links links.length 0

/-- A table with a single InsertionOrderIndex: row storage plus the
links array (the index offers only ordered iteration). -/
structure IoTable (T : Type) where
  rows : List T
  links : List IoLink

/-- Insert: append the row and link its row number at the tail. -/
def IoTable.insert {T : Type} (t : IoTable T) (r : T) : IoTable T :=
  ⟨t.rows ++ [r], ioInsert t.links t.rows.length⟩

/-- size() of the insertion-ordered table. -/
def IoTable.size {T : Type} (t : IoTable T) : Nat :=
  t.rows.length

/-- Iteration through the InsertionOrderIndex: walk the linked list and
read each row. -/
def IoTable.iter {T : Type} (t : IoTable T) : List T :=
  (ioIter t.links).filterMap (fun n => t.rows[n]?)

/-- The empty insertion-ordered table. -/
def ioEmpty (T : Type) : IoTable T :=
  ⟨[], ioEmptyLinks⟩

/-- Modelled from the spec: moving transfers ownership of row storage
and the links array; the moved-from table nulls its pointer, leaving it
empty and usable.  The pair is (moved-to, moved-from). -/
def IoTable.move {T : Type} (t : IoTable T) : IoTable T × IoTable T :=
  (⟨t.rows, t.links⟩, ⟨[], ioEmptyLinks⟩)

/-- Build an insertion-ordered table by inserting the rows in order. -/
def ioOfList {T : Type} (rs : List T) : IoTable T :=
  rs.foldl IoTable.insert (ioEmpty T)

/-- The links array after inserting rows 0..n-1 in order, in closed
form. -/
def mkLinks (n : Nat) : List IoLink :=
  if n = 0 then [⟨0, 0⟩]
  else ⟨n, 1⟩ :: (List.range n).map (fun i => ⟨i, if i + 1 = n then 0 else i + 2⟩)

/-- Canonical key lookup among the live rows: the unique row (if any)
whose key matches.  It depends only on the key callback, never on the
hash function. -/
def keyLookup {T : Type} (cb : KeyCb T) (rows : List T) (k : cb.Key) : Option Nat :=
  (List.range rows.length).find? (fun m => matchesAt cb rows m k)

/-- One operation of the hash-observability experiment (the BadHasher
test): insert, find, eraseMatch, upsert. -/
inductive HOp (T K : Type) where
  | ins (r : T)
  | find (k : K)
  | ersM (k : K)
  | ups (r : T)

/-- The observable outcome of one operation. -/
inductive HOut (T : Type) where
  | insRes (d : Option Nat)
  | findRes (d : Option Nat)
  | ersRes (b : Bool)
  | upsRes (u : UpsertResult T)
deriving DecidableEq

/-- Package a single-hash-index state (rows, slots) as a Table. -/
def tOf {T : Type} (cb : HashCb T) (st : List T × List Slot) : Table T :=
  ⟨st.1, [Index.hash cb st.2]⟩

/-- The slot array of the leading hash index. -/
def slots0 {T : Type} (t : Table T) : List Slot :=
  match t.idxs with
  | Index.hash _ s :: _ => s
  | _ => []

/-- Project a single-hash-index table back to its (rows, slots) state. -/
def stOf {T : Type} (t : Table T) : List T × List Slot :=
  (t.rows, slots0 t)

/-- Run one operation on a single-hash-index state, through the Table
operations. -/
def hRun1 {T : Type} (cb : HashCb T) (st : List T × List Slot) :
    HOp T cb.Key → (List T × List Slot) × HOut T
  | .ins r => (stOf ((tOf cb st).insert r).1, .insRes ((tOf cb st).insert r).2)
  | .find k => (st, .findRes (Table.findAt (tOf cb st) ⟨0, Nat.zero_lt_one⟩ k))
  | .ersM k => (stOf ((tOf cb st).eraseMatch ⟨0, Nat.zero_lt_one⟩ k).1,
      .ersRes ((tOf cb st).eraseMatch ⟨0, Nat.zero_lt_one⟩ k).2)
  | .ups r => (stOf ((tOf cb st).upsert r).1, .upsRes ((tOf cb st).upsert r).2)

/-- Run a whole operation sequence, collecting the outputs. -/
def hRun {T : Type} (cb : HashCb T) : (List T × List Slot) → List (HOp T cb.Key) →
    (List T × List Slot) × List (HOut T)
  | st, [] => (st, [])
  | st, op :: ops =>
    ((hRun cb (hRun1 cb st op).1 ops).1,
      (hRun1 cb st op).2 :: (hRun cb (hRun1 cb st op).1 ops).2)

/-- The integer key callback shared by the good and bad hashers of the
BadHasher scenario. -/
def natKeyCb : KeyCb Nat :=
  ⟨Nat, inferInstance, id⟩

/-- The operation sequence of the hash-independence scenario. -/
def c10ops : List (HOp Nat Nat) :=
  [.ins 12, .find 12, .ins 12, .ins 34, .ersM 12, .find 12, .ups 34, .find 34, .ups 75]

end KjTable

/-- The two-slot probe sequence, explicitly. -/
theorem probeSeq_two (v : Nat) : KjTable.probeSeq v 2 = [v % 2, (v + 1) % 2] := by
  simp [KjTable.probeSeq, List.range_succ]

/-- One workload round maps every reachable state to the two-slot state
with a tombstone at the probe value's bucket. -/
theorem c3Round_result (v : Nat) (s : List KjTable.Slot) (hs : s ∈ KjTable.c3S) :
    KjTable.c3Round v s =
      if v % 2 = 0 then [KjTable.Slot.tomb, KjTable.Slot.empty]
      else [KjTable.Slot.empty, KjTable.Slot.tomb] := by
  simp only [KjTable.c3S, List.mem_cons, List.mem_singleton, List.not_mem_nil, or_false] at hs
  have h1 : (v + 1) % 2 = 1 - v % 2 := by omega
  rcases Nat.mod_two_eq_zero_or_one v with h | h <;>
    rcases hs with rfl | rfl | rfl <;>
    simp [KjTable.c3Round, KjTable.hashInsert, KjTable.hashErase, KjTable.hashFind,
      KjTable.hashInsertNoGrow, KjTable.hashRehash, KjTable.hashReinsert, KjTable.nOcc,
      KjTable.nTomb, KjTable.chooseLen, KjTable.chooseLenAux, probeSeq_two,
      KjTable.writePos, KjTable.hashFindLoop, KjTable.matchesAt, KjTable.intHasher,
      KjTable.Slot.isOcc, h, h1]

/-- Every workload state is one of the three states of `c3S`. -/
theorem c3Run_mem (vs : List Nat) : KjTable.c3Run vs ∈ KjTable.c3S := by
  have step : ∀ s ∈ KjTable.c3S, ∀ v : Nat, KjTable.c3Round v s ∈ KjTable.c3S := by
    intro s hs v
    rw [c3Round_result v s hs]
    rcases Nat.mod_two_eq_zero_or_one v with h | h <;> simp [KjTable.c3S, h]
  have start : ([] : List KjTable.Slot) ∈ KjTable.c3S := by simp [KjTable.c3S]
  unfold KjTable.c3Run
  generalize ([] : List KjTable.Slot) = s at start ⊢
  induction vs generalizing s with
  | nil => exact start
  | cons v vs ih => exact ih _ (step s start v)

/-- In every reachable workload state an insert reports no duplicate. -/
theorem c3_insert_none (v : Nat) (s : List KjTable.Slot) (hs : s ∈ KjTable.c3S) :
    (KjTable.hashInsert KjTable.intHasher [] s 0 v).1 = none := by
  simp only [KjTable.c3S, List.mem_cons, List.mem_singleton, List.not_mem_nil, or_false] at hs
  have h1 : (v + 1) % 2 = 1 - v % 2 := by omega
  rcases Nat.mod_two_eq_zero_or_one v with h | h <;>
    rcases hs with rfl | rfl | rfl <;>
    simp [KjTable.hashInsert, KjTable.hashFind, KjTable.hashInsertNoGrow, KjTable.hashRehash,
      KjTable.hashReinsert, KjTable.nOcc, KjTable.nTomb, KjTable.chooseLen, KjTable.chooseLenAux,
      probeSeq_two, KjTable.writePos, KjTable.hashFindLoop, KjTable.matchesAt, KjTable.intHasher,
      KjTable.Slot.isOcc, h, h1]

/-- C3: starting from an empty `HashIndex`, any number of rounds of
insert(row 0, probe v) immediately followed by erase(row 0, probe v) —
in particular the one million distinct-value rounds of the regression
test — leaves `capacity()` strictly below 10, and every insert along the
way reports no duplicate: tombstone-shedding rehash keeps the slot array
from growing under this workload. -/
theorem C3_capacity_stays_small :
    ∀ vs : List Nat,
      KjTable.hashCapacity (KjTable.c3Run vs) < 10 ∧
        ∀ v : Nat, (KjTable.hashInsert KjTable.intHasher [] (KjTable.c3Run vs) 0 v).1 = none := by
  intro vs
  have hmem := c3Run_mem vs
  constructor
  · simp only [KjTable.c3S, List.mem_cons, List.mem_singleton, List.not_mem_nil, or_false] at hmem
    rcases hmem with h | h | h <;> rw [h] <;> simp [KjTable.hashCapacity]
  · intro v
    exact c3_insert_none v _ hmem

/-- C1: the claim as stated is false: for a leaf with i = 8 ≥ R/2 = 7
occupied slots, `isHalfFull()` returns false (the test at lines 600-602
of `table-test.c++` expects `!leaf.isHalfFull()` for i > R/2), whereas
the claim asserts it is true whenever i ≥ R/2. -/
theorem C1_counterexample :
    14 / 2 ≤ 8 ∧ (KjTable.BTreeImpl.mkLeaf 8).isHalfFull = some false ∧
      (KjTable.BTreeImpl.mkParent 8).isHalfFull = some false := by
  decide

/-- C1 (amended): for a leaf (resp. parent) with the first i slots
nonzero and the rest zero, `size()` (resp. `keyCount()`) equals i;
`isHalfFull()` is true iff i is exactly R/2 = 7 (for i ≥ R/2);
in debug builds calling `isHalfFull()` with i < R/2 raises an assertion;
`isMostlyFull()` is true iff i > R/2; and `isFull()` is true iff
i = R = 14. -/
theorem C1_leaf_parent_occupancy :
    ∀ i : Fin 15,
      (KjTable.BTreeImpl.mkLeaf i).size = i.val ∧
      (KjTable.BTreeImpl.mkParent i).keyCount = i.val ∧
      ((KjTable.BTreeImpl.mkLeaf i).isHalfFull = none ↔ i.val < 7) ∧
      ((KjTable.BTreeImpl.mkParent i).isHalfFull = none ↔ i.val < 7) ∧
      ((KjTable.BTreeImpl.mkLeaf i).isHalfFull = some true ↔ i.val = 7) ∧
      ((KjTable.BTreeImpl.mkParent i).isHalfFull = some true ↔ i.val = 7) ∧
      ((KjTable.BTreeImpl.mkLeaf i).isMostlyFull = true ↔ 7 < i.val) ∧
      ((KjTable.BTreeImpl.mkParent i).isMostlyFull = true ↔ 7 < i.val) ∧
      ((KjTable.BTreeImpl.mkLeaf i).isFull = true ↔ i.val = 14) ∧
      ((KjTable.BTreeImpl.mkParent i).isFull = true ↔ i.val = 14) := by
  decide

namespace KjTable

/-! ### Probe sequence infrastructure -/

theorem length_probeSeq (h len : Nat) : (probeSeq h len).length = len := by
  simp [probeSeq]

theorem mem_probeSeq_lt {h len q : Nat} (hq : q ∈ probeSeq h len) : q < len := by
  simp only [probeSeq, List.mem_map, List.mem_range] at hq
  obtain ⟨i, hi, rfl⟩ := hq
  exact Nat.mod_lt _ (by omega)

theorem posAt_inj (h len : Nat) {i j : Nat} (hi : i < len) (hj : j < len)
    (he : (h + i) % len = (h + j) % len) : i = j := by
  have hm : Nat.ModEq len (h + i) (h + j) := he
  have hij : i % len = j % len := Nat.ModEq.add_left_cancel' h hm
  rw [Nat.mod_eq_of_lt hi, Nat.mod_eq_of_lt hj] at hij
  exact hij

theorem mem_probeSeq_of_lt (h len q : Nat) (hq : q < len) : q ∈ probeSeq h len := by
  have hlen : 0 < len := by omega
  have hinj : Function.Injective (fun i : Fin len => (⟨(h + i) % len, Nat.mod_lt _ hlen⟩ : Fin len)) := by
    intro i j hij
    exact Fin.ext (posAt_inj h len i.isLt j.isLt (congrArg Fin.val hij))
  have hsurj := Finite.surjective_of_injective hinj
  obtain ⟨i, hi⟩ := hsurj ⟨q, hq⟩
  simp only [probeSeq, List.mem_map, List.mem_range]
  exact ⟨i, i.isLt, congrArg Fin.val hi⟩

theorem probeSeq_split (h len j : Nat) (hj : j < len) :
    probeSeq h len =
      (probeSeq h len).take j ++ ((h + j) % len) :: (probeSeq h len).drop (j + 1) := by
  have hlen : j < (probeSeq h len).length := by simpa [length_probeSeq] using hj
  conv_lhs => rw [← List.take_append_drop j (probeSeq h len)]
  rw [List.drop_eq_getElem_cons hlen]
  congr 2
  simp [probeSeq, hj]

theorem mem_take_probeSeq {h len j q : Nat} (hq : q ∈ (probeSeq h len).take j) :
    ∃ i < j, q = (h + i) % len := by
  simp only [probeSeq, ← List.map_take, List.take_range, List.mem_map, List.mem_range] at hq
  obtain ⟨i, hi, rfl⟩ := hq
  exact ⟨i, lt_of_lt_of_le (Nat.lt_min.mp hi).1 (le_refl j), rfl⟩

/-! ### Slot and contents infrastructure -/

theorem getD_of_getElem? {l : List Slot} {p : Nat} {s : Slot} (h : l[p]? = some s) :
    l.getD p .empty = s := by
  simp [List.getD_eq_getElem?_getD, h]

theorem getElem?_of_lt_length {l : List Slot} {p : Nat} (hp : p < l.length) :
    l[p]? = some (l.getD p .empty) := by
  rw [List.getD_eq_getElem?_getD, List.getElem?_eq_getElem hp]
  rfl

theorem keq_eq_true_iff {T : Type} (cb : KeyCb T) (a b : cb.Key) :
    cb.keq a b = true ↔ a = b := by
  unfold KeyCb.keq
  exact @decide_eq_true_iff _ (cb.deq a b)

theorem hasRow_iff {slots : List Slot} {m : Nat} :
    hasRow slots m = true ↔ ∃ p : Nat, slots[p]? = some (Slot.occ m) := by
  simp only [hasRow, List.any_eq_true, decide_eq_true_eq]
  constructor
  · rintro ⟨s, hs, rfl⟩
    exact List.mem_iff_getElem?.mp hs
  · rintro ⟨p, hp⟩
    exact ⟨Slot.occ m, List.mem_iff_getElem?.mpr ⟨p, hp⟩, rfl⟩

theorem matchesAt_true {T : Type} {cb : KeyCb T} {rows : List T} {m : Nat} {k : cb.Key} :
    matchesAt cb rows m k = true ↔ ∃ r, rows[m]? = some r ∧ cb.keyForRow r = k := by
  unfold matchesAt
  cases hr : rows[m]? with
  | none => simp
  | some r => simp [keq_eq_true_iff]

end KjTable

namespace KjTable

/-! ### Characterization of `hashFind` -/

theorem hashFindLoop_sound {T : Type} (cb : KeyCb T) (rows : List T) (k : cb.Key)
    (slots : List Slot) {m : Nat} :
    ∀ ps : List Nat, hashFindLoop cb rows k slots ps = some m →
      ∃ p ∈ ps, slots.getD p .empty = .occ m ∧ matchesAt cb rows m k = true := by
  intro ps
  induction ps with
  | nil => simp [hashFindLoop]
  | cons p ps ih =>
    simp only [hashFindLoop]
    cases hslot : slots.getD p .empty with
    | empty => simp
    | tomb =>
      intro hh
      obtain ⟨q, hq, hrest⟩ := ih hh
      exact ⟨q, List.mem_cons_of_mem p hq, hrest⟩
    | occ m' =>
      by_cases hm : matchesAt cb rows m' k
      · simp only [hm, if_true, Option.some.injEq]
        rintro rfl
        exact ⟨p, List.mem_cons_self p ps, hslot, hm⟩
      · simp only [hm, if_false]
        intro hh
        obtain ⟨q, hq, hrest⟩ := ih hh
        exact ⟨q, List.mem_cons_of_mem p hq, hrest⟩

theorem hashFindLoop_complete {T : Type} (cb : KeyCb T) (rows : List T) (k : cb.Key)
    (slots : List Slot) (m : Nat) :
    ∀ (ps₁ : List Nat) (p : Nat) (ps₂ : List Nat),
      slots.getD p .empty = .occ m → matchesAt cb rows m k = true →
      (∀ q ∈ ps₁, slots.getD q .empty ≠ .empty ∧
        ∀ m' : Nat, slots.getD q .empty = .occ m' → matchesAt cb rows m' k = false) →
      hashFindLoop cb rows k slots (ps₁ ++ p :: ps₂) = some m := by
  intro ps₁
  induction ps₁ with
  | nil =>
    intro p ps₂ hp hm _
    have hp' : slots[p]?.getD Slot.empty = Slot.occ m := by
      rw [← List.getD_eq_getElem?_getD]
      exact hp
    simp [hashFindLoop, hp', hm]
  | cons q ps₁ ih =>
    intro p ps₂ hp hm hqs
    obtain ⟨hne, hnomatch⟩ := hqs q (List.mem_cons_self q ps₁)
    have htail : ∀ x ∈ ps₁, slots.getD x .empty ≠ .empty ∧
        ∀ m' : Nat, slots.getD x .empty = .occ m' → matchesAt cb rows m' k = false :=
      fun x hx => hqs x (List.mem_cons_of_mem q hx)
    simp only [List.cons_append, hashFindLoop]
    cases hsq : slots.getD q .empty with
    | empty => exact absurd hsq hne
    | tomb => exact ih p ps₂ hp hm htail
    | occ m' =>
      have := hnomatch m' hsq
      simp only [this, if_false]
      exact ih p ps₂ hp hm htail

theorem hashFind_eq_some {T : Type} {cb : HashCb T} {rows : List T} {slots : List Slot}
    (inv : HashInv cb rows slots) {m : Nat} {k : cb.Key}
    (hm : hasRow slots m = true) (hmk : matchesAt cb.toKeyCb rows m k = true) :
    hashFind cb rows slots k = some m := by
  obtain ⟨p, hp⟩ := hasRow_iff.mp hm
  obtain ⟨r, hr, hkey⟩ := matchesAt_true.mp hmk
  obtain ⟨j, hj, hpj, hpath⟩ := inv.path p m hp r hr
  have hlen0 : 0 < slots.length := by omega
  unfold hashFind
  rw [hkey] at hpath hpj
  rw [probeSeq_split (cb.hashCode k) slots.length j hj]
  have hgd : slots.getD p .empty = .occ m := getD_of_getElem? hp
  rw [hpj] at hgd
  refine hashFindLoop_complete cb.toKeyCb rows k slots m _ _ _ hgd hmk ?_
  intro q hq
  obtain ⟨i, hi, rfl⟩ := mem_take_probeSeq hq
  have hqlt : (cb.hashCode k + i) % slots.length < slots.length := Nat.mod_lt _ hlen0
  have hqe := getElem?_of_lt_length hqlt
  constructor
  · intro habs
    exact hpath i hi (by rw [habs] at hqe; exact hqe)
  · intro m' hm'
    rw [hm'] at hqe
    by_contra hmatch
    rw [Bool.not_eq_false] at hmatch
    obtain ⟨r', hr', hkey'⟩ := matchesAt_true.mp hmatch
    have hilt : i < slots.length := lt_trans hi hj
    have hne : (cb.hashCode k + i) % slots.length ≠ p := by
      rw [hpj]
      intro habs
      have := posAt_inj (cb.hashCode k) slots.length hilt hj habs
      omega
    exact inv.uniq _ p m' m hqe hp hne r' r hr' hr (by rw [hkey', hkey])

end KjTable


namespace KjTable

theorem matchesAt_false {T : Type} {cb : KeyCb T} {rows : List T} {m : Nat} {k : cb.Key}
    {r : T} (hr : rows[m]? = some r) :
    matchesAt cb rows m k = false ↔ cb.keyForRow r ≠ k := by
  simp only [matchesAt, hr]
  constructor
  · intro hfalse habs
    rw [← keq_eq_true_iff cb (cb.keyForRow r) k] at habs
    rw [habs] at hfalse
    cases hfalse
  · intro hne
    cases hkeq : cb.keq (cb.keyForRow r) k
    · rfl
    · exact absurd ((keq_eq_true_iff cb _ _).mp hkeq) hne

theorem hashFind_eq_none {T : Type} {cb : HashCb T} {rows : List T} {slots : List Slot}
    {k : cb.Key}
    (h : ∀ m : Nat, hasRow slots m = true → matchesAt cb.toKeyCb rows m k = false) :
    hashFind cb rows slots k = none := by
  cases hf : hashFind cb rows slots k with
  | none => rfl
  | some m =>
    obtain ⟨p, hp, hgd, hmk⟩ := hashFindLoop_sound cb.toKeyCb rows k slots _ hf
    have hplt : p < slots.length := mem_probeSeq_lt hp
    have hpe := getElem?_of_lt_length hplt
    rw [hgd] at hpe
    have hhas : hasRow slots m = true := hasRow_iff.mpr ⟨p, hpe⟩
    rw [h m hhas] at hmk
    cases hmk

theorem hashFind_iff {T : Type} {cb : HashCb T} {rows : List T} {slots : List Slot}
    (inv : HashInv cb rows slots) (k : cb.Key) (m : Nat) :
    hashFind cb rows slots k = some m ↔
      hasRow slots m = true ∧ matchesAt cb.toKeyCb rows m k = true := by
  constructor
  · intro hf
    obtain ⟨p, hp, hgd, hmk⟩ := hashFindLoop_sound cb.toKeyCb rows k slots _ hf
    have hplt : p < slots.length := mem_probeSeq_lt hp
    have hpe := getElem?_of_lt_length hplt
    rw [hgd] at hpe
    exact ⟨hasRow_iff.mpr ⟨p, hpe⟩, hmk⟩
  · rintro ⟨hm, hmk⟩
    exact hashFind_eq_some inv hm hmk

theorem exists_empty_slot {s : List Slot} (h : nOcc s + nTomb s < s.length) :
    ∃ p : Nat, s[p]? = some Slot.empty := by
  induction s with
  | nil => simp at h
  | cons a s ih =>
    cases a with
    | empty => exact ⟨0, by simp⟩
    | tomb =>
      have h' : nOcc s + nTomb s < s.length := by
        have hocc : nOcc (Slot.tomb :: s) = nOcc s := by
          simp [nOcc, List.countP_cons, Slot.isOcc]
        have htmb : nTomb (Slot.tomb :: s) = nTomb s + 1 := by
          simp [nTomb, List.countP_cons]
        rw [hocc, htmb, List.length_cons] at h
        omega
      obtain ⟨p, hp⟩ := ih h'
      exact ⟨p + 1, by simpa using hp⟩
    | occ m =>
      have h' : nOcc s + nTomb s < s.length := by
        have hocc : nOcc (Slot.occ m :: s) = nOcc s + 1 := by
          simp [nOcc, List.countP_cons, Slot.isOcc]
        have htmb : nTomb (Slot.occ m :: s) = nTomb s := by
          simp [nTomb, List.countP_cons]
        rw [hocc, htmb, List.length_cons] at h
        omega
      obtain ⟨p, hp⟩ := ih h'
      exact ⟨p + 1, by simpa using hp⟩

theorem find?_split {α : Type} {l : List α} {pfn : α → Bool} {a : α}
    (h : l.find? pfn = some a) :
    pfn a = true ∧ ∃ l₁ l₂, l = l₁ ++ a :: l₂ ∧ ∀ x ∈ l₁, pfn x = false := by
  rw [List.find?_eq_some] at h
  obtain ⟨hpa, l₁, l₂, rfl, hall⟩ := h
  refine ⟨hpa, l₁, l₂, rfl, fun x hx => ?_⟩
  have := hall x hx
  simpa using this

theorem writePos_probeSeq_spec {slots : List Slot} {hsh : Nat} {p : Nat}
    (h : writePos slots (probeSeq hsh slots.length) = some p) :
    ∃ j < slots.length, p = (hsh + j) % slots.length ∧
      (slots.getD p .empty).isOcc = false ∧
      ∀ i < j, (slots.getD ((hsh + i) % slots.length) .empty).isOcc = true := by
  obtain ⟨hpa, l₁, l₂, heq, hall⟩ := find?_split h
  have hnotocc : (slots.getD p .empty).isOcc = false := by simpa using hpa
  have hjlen : l₁.length < slots.length := by
    have := congrArg List.length heq
    simp only [length_probeSeq, List.length_append, List.length_cons] at this
    omega
  have htake : (probeSeq hsh slots.length).take l₁.length = l₁ := by
    rw [heq]
    exact List.take_left l₁ _
  refine ⟨l₁.length, hjlen, ?_, hnotocc, ?_⟩
  · have hd : (probeSeq hsh slots.length)[l₁.length]? = some p := by
      rw [heq, List.getElem?_append_right (le_refl l₁.length)]
      simp
    have hd2 : (probeSeq hsh slots.length)[l₁.length]? =
        some ((hsh + l₁.length) % slots.length) := by
      simp [probeSeq, hjlen]
    rw [hd] at hd2
    exact Option.some_inj.mp hd2
  · intro i hi
    have hilen : i < slots.length := lt_trans hi hjlen
    have hmem : (hsh + i) % slots.length ∈ l₁ := by
      rw [← htake]
      have htk : ((probeSeq hsh slots.length).take l₁.length)[i]? =
          some ((hsh + i) % slots.length) := by
        rw [List.getElem?_take_of_lt hi]
        simp [probeSeq, hilen]
      exact List.mem_iff_getElem?.mpr ⟨i, htk⟩
    have := hall _ hmem
    cases hocc : (slots.getD ((hsh + i) % slots.length) .empty).isOcc
    · rw [hocc] at this
      simp at this
    · rfl

end KjTable

namespace KjTable

theorem getElem_eq_getD {l : List Slot} {p : Nat} (hp : p < l.length) :
    l[p] = l.getD p .empty := by
  have h := getElem?_of_lt_length hp
  rw [List.getElem?_eq_getElem hp] at h
  exact Option.some_inj.mp h

theorem hasRow_set_of_not_occ {slots : List Slot} {p n : Nat}
    (hp : p < slots.length) (hnotocc : (slots.getD p .empty).isOcc = false) (x : Nat) :
    hasRow (slots.set p (Slot.occ n)) x = (hasRow slots x || decide (x = n)) := by
  rw [Bool.eq_iff_iff]
  simp only [Bool.or_eq_true, decide_eq_true_eq, hasRow_iff]
  constructor
  · rintro ⟨q, hq⟩
    by_cases hqp : q = p
    · subst hqp
      have hself : (slots.set q (Slot.occ n))[q]? = some (Slot.occ n) := by
        simp [List.getElem?_set_self, hp]
      rw [hself] at hq
      have := Option.some_inj.mp hq
      right
      exact ((Slot.occ.injEq _ _).mp this).symm
    · rw [List.getElem?_set_ne (Ne.symm hqp)] at hq
      exact Or.inl ⟨q, hq⟩
  · rintro (⟨q, hq⟩ | rfl)
    · have hqp : q ≠ p := by
        rintro rfl
        rw [getD_of_getElem? hq] at hnotocc
        simp [Slot.isOcc] at hnotocc
      exact ⟨q, by rw [List.getElem?_set_ne (Ne.symm hqp)]; exact hq⟩
    · exact ⟨p, by simp [List.getElem?_set_self, hp]⟩

theorem hasRow_set_tomb {slots : List Slot} {p n : Nat}
    (hp : slots[p]? = some (Slot.occ n))
    (huniq : ∀ q : Nat, slots[q]? = some (Slot.occ n) → q = p) (x : Nat) :
    hasRow (slots.set p Slot.tomb) x = (hasRow slots x && !decide (x = n)) := by
  obtain ⟨hplt, _⟩ := List.getElem?_eq_some.mp hp
  rw [Bool.eq_iff_iff]
  simp only [Bool.and_eq_true, Bool.not_eq_true', decide_eq_false_iff_not, hasRow_iff]
  constructor
  · rintro ⟨q, hq⟩
    have hqp : q ≠ p := by
      rintro rfl
      have hself : (slots.set q Slot.tomb)[q]? = some Slot.tomb := by
        simp [List.getElem?_set_self, hplt]
      rw [hself] at hq
      cases Option.some_inj.mp hq
    rw [List.getElem?_set_ne (Ne.symm hqp)] at hq
    refine ⟨⟨q, hq⟩, ?_⟩
    rintro rfl
    exact hqp (huniq q hq)
  · rintro ⟨⟨q, hq⟩, hxn⟩
    have hqp : q ≠ p := by
      rintro rfl
      rw [hp] at hq
      exact hxn ((Slot.occ.injEq _ _).mp (Option.some_inj.mp hq)).symm
    exact ⟨q, by rw [List.getElem?_set_ne (Ne.symm hqp)]; exact hq⟩

theorem nOcc_set_occ {slots : List Slot} {p n : Nat} (hp : p < slots.length)
    (hnotocc : (slots.getD p .empty).isOcc = false) :
    nOcc (slots.set p (Slot.occ n)) = nOcc slots + 1 := by
  unfold nOcc
  rw [List.countP_set _ _ _ _ hp, getElem_eq_getD hp, hnotocc]
  simp [Slot.isOcc]

theorem nTomb_set_occ_le {slots : List Slot} {p n : Nat} (hp : p < slots.length) :
    nTomb (slots.set p (Slot.occ n)) ≤ nTomb slots := by
  unfold nTomb
  rw [List.countP_set _ _ _ _ hp]
  have h0 : (decide (Slot.occ n = Slot.tomb) : Bool) = false := by simp
  rw [h0]
  simp only [Bool.false_eq_true, if_false, Nat.add_zero]
  split <;> omega

theorem sum_set_tomb {slots : List Slot} {p n : Nat}
    (hp : slots[p]? = some (Slot.occ n)) :
    nOcc (slots.set p Slot.tomb) + nTomb (slots.set p Slot.tomb) =
      nOcc slots + nTomb slots := by
  obtain ⟨hplt, hpval⟩ := List.getElem?_eq_some.mp hp
  have hge : 0 < slots.countP Slot.isOcc := by
    rw [List.countP_pos_iff]
    exact ⟨Slot.occ n, List.mem_iff_getElem?.mpr ⟨p, hp⟩, rfl⟩
  unfold nOcc nTomb
  rw [List.countP_set _ _ _ _ hplt, List.countP_set _ _ _ _ hplt, hpval]
  simp [Slot.isOcc]
  omega

end KjTable

namespace KjTable

theorem hashInsertNoGrow_fresh {T : Type} {cb : HashCb T} {rows : List T} {slots : List Slot}
    (inv : HashInv cb rows slots) {n : Nat} {r : T} {k : cb.Key}
    (hn : rows[n]? = some r) (hkey : cb.keyForRow r = k)
    (hnodup : ∀ m : Nat, hasRow slots m = true → matchesAt cb.toKeyCb rows m k = false)
    (hload : nOcc slots + nTomb slots + 1 ≤ slots.length * 3 / 4) :
    ∃ p : Nat, p < slots.length ∧ (slots.getD p .empty).isOcc = false ∧
      hashInsertNoGrow cb rows slots n k = (none, slots.set p (Slot.occ n)) ∧
      HashInv cb rows (slots.set p (Slot.occ n)) ∧
      (∀ x : Nat, hasRow (slots.set p (Slot.occ n)) x = (hasRow slots x || decide (x = n))) ∧
      nOcc (slots.set p (Slot.occ n)) = nOcc slots + 1 ∧
      nTomb (slots.set p (Slot.occ n)) ≤ nTomb slots := by
  have hlenpos : 0 < slots.length := by
    by_contra h0
    have : slots.length = 0 := by omega
    rw [this] at hload
    simp at hload
  have hlen4 : slots.length * 3 / 4 < slots.length := by
    rw [Nat.div_lt_iff_lt_mul (by omega : 0 < 4)]
    omega
  have hroom : nOcc slots + nTomb slots < slots.length := by omega
  have hf : hashFind cb rows slots k = none := hashFind_eq_none hnodup
  obtain ⟨q, hq⟩ := exists_empty_slot hroom
  obtain ⟨hqlt, _⟩ := List.getElem?_eq_some.mp hq
  have hwp : ∃ p : Nat, writePos slots (probeSeq (cb.hashCode k) slots.length) = some p := by
    cases hw : writePos slots (probeSeq (cb.hashCode k) slots.length) with
    | some p => exact ⟨p, rfl⟩
    | none =>
      unfold writePos at hw
      rw [List.find?_eq_none] at hw
      have := hw q (mem_probeSeq_of_lt _ _ _ hqlt)
      rw [getD_of_getElem? hq] at this
      simp [Slot.isOcc] at this
  obtain ⟨p, hwp⟩ := hwp
  obtain ⟨j, hj, hpj, hpocc, hprev⟩ := writePos_probeSeq_spec hwp
  have hplt : p < slots.length := by
    rw [hpj]
    exact Nat.mod_lt _ hlenpos
  have hselfp : (slots.set p (Slot.occ n))[p]? = some (Slot.occ n) := by
    simp [List.getElem?_set_self, hplt]
  have hnlt : n < rows.length := (List.getElem?_eq_some.mp hn).1
  refine ⟨p, hplt, hpocc, ?_, ?_, hasRow_set_of_not_occ hplt hpocc, nOcc_set_occ hplt hpocc,
    nTomb_set_occ_le hplt⟩
  · unfold hashInsertNoGrow
    rw [hf, hwp]
  · constructor
    · intro q' m hq'
      by_cases hq'p : q' = p
      · subst hq'p
        rw [hselfp] at hq'
        have := ((Slot.occ.injEq _ _).mp (Option.some_inj.mp hq')).symm
        subst this
        exact hnlt
      · rw [List.getElem?_set_ne (Ne.symm hq'p)] at hq'
        exact inv.bounded q' m hq'
    · intro q1 q2 m m' h1 h2 hne r1 r2 hr1 hr2
      by_cases e1 : q1 = p <;> by_cases e2 : q2 = p
      · exact absurd (e1.trans e2.symm) hne
      · subst e1
        rw [hselfp] at h1
        have hmn : m = n := ((Slot.occ.injEq _ _).mp (Option.some_inj.mp h1)).symm
        subst hmn
        have hr1r : r1 = r := Option.some_inj.mp (hr1.symm.trans hn)
        subst hr1r
        rw [List.getElem?_set_ne (Ne.symm e2)] at h2
        have hhas : hasRow slots m' = true := hasRow_iff.mpr ⟨q2, h2⟩
        have := (matchesAt_false hr2).mp (hnodup m' hhas)
        rw [hkey]
        exact fun habs => this habs.symm
      · subst e2
        rw [hselfp] at h2
        have hmn : m' = n := ((Slot.occ.injEq _ _).mp (Option.some_inj.mp h2)).symm
        subst hmn
        have hr2r : r2 = r := Option.some_inj.mp (hr2.symm.trans hn)
        subst hr2r
        rw [List.getElem?_set_ne (Ne.symm e1)] at h1
        have hhas : hasRow slots m = true := hasRow_iff.mpr ⟨q1, h1⟩
        have := (matchesAt_false hr1).mp (hnodup m hhas)
        rw [hkey]
        exact this
      · rw [List.getElem?_set_ne (Ne.symm e1)] at h1
        rw [List.getElem?_set_ne (Ne.symm e2)] at h2
        exact inv.uniq q1 q2 m m' h1 h2 hne r1 r2 hr1 hr2
    · intro q' m hq' r'' hr''
      rw [List.length_set]
      by_cases hq'p : q' = p
      · subst hq'p
        rw [hselfp] at hq'
        have hmn : m = n := ((Slot.occ.injEq _ _).mp (Option.some_inj.mp hq')).symm
        subst hmn
        have hr''r : r'' = r := Option.some_inj.mp (hr''.symm.trans hn)
        subst hr''r
        rw [hkey]
        refine ⟨j, hj, hpj, ?_⟩
        intro i hi
        have hipos : (cb.hashCode k + i) % slots.length ≠ q' := by
          rw [hpj]
          intro habs
          have := posAt_inj (cb.hashCode k) slots.length (lt_trans hi hj) hj habs
          omega
        rw [List.getElem?_set_ne (Ne.symm hipos)]
        intro habs
        have := hprev i hi
        rw [getD_of_getElem? habs] at this
        simp [Slot.isOcc] at this
      · rw [List.getElem?_set_ne (Ne.symm hq'p)] at hq'
        obtain ⟨j', hj', hpj', hpath'⟩ := inv.path q' m hq' r'' hr''
        refine ⟨j', hj', hpj', ?_⟩
        intro i hi
        by_cases hip : (cb.hashCode (cb.keyForRow r'') + i) % slots.length = p
        · rw [hip, hselfp]
          intro habs
          cases Option.some_inj.mp habs
        · rw [List.getElem?_set_ne (Ne.symm hip)]
          exact hpath' i hi
    · rw [List.length_set]
      have h1 := nOcc_set_occ (n := n) hplt hpocc
      have h2 := nTomb_set_occ_le (n := n) hplt
      omega

end KjTable

namespace KjTable

theorem occ_unique {T : Type} {cb : HashCb T} {rows : List T} {slots : List Slot}
    (inv : HashInv cb rows slots) {p q n : Nat}
    (h1 : slots[p]? = some (Slot.occ n)) (h2 : slots[q]? = some (Slot.occ n)) : p = q := by
  by_contra hne
  have hnlt := inv.bounded p n h1
  have hr : rows[n]? = some (rows[n]) := List.getElem?_eq_getElem hnlt
  exact inv.uniq p q n n h1 h2 hne _ _ hr hr rfl

theorem HashInv_set_tomb {T : Type} {cb : HashCb T} {rows : List T} {slots : List Slot}
    (inv : HashInv cb rows slots) {q n : Nat} (hq : slots[q]? = some (Slot.occ n)) :
    HashInv cb rows (slots.set q Slot.tomb) := by
  obtain ⟨hqlt, _⟩ := List.getElem?_eq_some.mp hq
  have hselfq : (slots.set q Slot.tomb)[q]? = some Slot.tomb := by
    simp [List.getElem?_set_self, hqlt]
  constructor
  · intro p m hp
    by_cases hpq : p = q
    · subst hpq
      rw [hselfq] at hp
      cases Option.some_inj.mp hp
    · rw [List.getElem?_set_ne (Ne.symm hpq)] at hp
      exact inv.bounded p m hp
  · intro p1 p2 m m' h1 h2 hne r1 r2 hr1 hr2
    by_cases e1 : p1 = q
    · subst e1
      rw [hselfq] at h1
      cases Option.some_inj.mp h1
    · by_cases e2 : p2 = q
      · subst e2
        rw [hselfq] at h2
        cases Option.some_inj.mp h2
      · rw [List.getElem?_set_ne (Ne.symm e1)] at h1
        rw [List.getElem?_set_ne (Ne.symm e2)] at h2
        exact inv.uniq p1 p2 m m' h1 h2 hne r1 r2 hr1 hr2
  · intro p m hp r' hr'
    rw [List.length_set]
    by_cases hpq : p = q
    · subst hpq
      rw [hselfq] at hp
      cases Option.some_inj.mp hp
    · rw [List.getElem?_set_ne (Ne.symm hpq)] at hp
      obtain ⟨j, hj, hpj, hpath⟩ := inv.path p m hp r' hr'
      refine ⟨j, hj, hpj, ?_⟩
      intro i hi
      by_cases hiq : (cb.hashCode (cb.keyForRow r') + i) % slots.length = q
      · rw [hiq, hselfq]
        intro habs
        cases Option.some_inj.mp habs
      · rw [List.getElem?_set_ne (Ne.symm hiq)]
        exact hpath i hi
  · rw [List.length_set, sum_set_tomb hq]
    exact inv.load

theorem hashErase_spec {T : Type} {cb : HashCb T} {rows : List T} {slots : List Slot}
    (inv : HashInv cb rows slots) {q n : Nat} {r : T} {k : cb.Key}
    (hq : slots[q]? = some (Slot.occ n)) (hr : rows[n]? = some r)
    (hkey : cb.keyForRow r = k) :
    hashErase cb slots n k = slots.set q Slot.tomb := by
  obtain ⟨hqlt, _⟩ := List.getElem?_eq_some.mp hq
  unfold hashErase
  cases hw : (probeSeq (cb.hashCode k) slots.length).find?
      (fun p => decide (slots.getD p .empty = .occ n)) with
  | none =>
    rw [List.find?_eq_none] at hw
    exfalso
    have hmem := mem_probeSeq_of_lt (cb.hashCode k) slots.length q hqlt
    have := hw q hmem
    rw [getD_of_getElem? hq] at this
    simp at this
  | some p =>
    have hpred := List.find?_some hw
    have hpmem := List.mem_of_find?_eq_some hw
    have hplt : p < slots.length := mem_probeSeq_lt hpmem
    have hpocc : slots[p]? = some (Slot.occ n) := by
      have := of_decide_eq_true hpred
      rw [← this]
      exact getElem?_of_lt_length hplt
    rw [occ_unique inv hpocc hq]

end KjTable

namespace KjTable

theorem hashMove_spec {T : Type} {cb : HashCb T} {rows rows' : List T} {slots : List Slot}
    (inv : HashInv cb rows slots) {q old nw : Nat} {r : T} {k : cb.Key}
    (hq : slots[q]? = some (Slot.occ old))
    (hrold : rows[old]? = some r) (hkey : cb.keyForRow r = k)
    (hnew : rows'[nw]? = some r)
    (hother : ∀ (m : Nat) (p : Nat), slots[p]? = some (Slot.occ m) → m ≠ old →
      rows'[m]? = rows[m]?)
    (hfresh : hasRow slots nw = false) :
    hashMove cb slots old nw k = slots.set q (Slot.occ nw) ∧
      HashInv cb rows' (slots.set q (Slot.occ nw)) ∧
      (∀ x : Nat, hasRow (slots.set q (Slot.occ nw)) x =
        ((hasRow slots x && !decide (x = old)) || decide (x = nw))) ∧
      nOcc (slots.set q (Slot.occ nw)) = nOcc slots ∧
      nTomb (slots.set q (Slot.occ nw)) = nTomb slots := by
  obtain ⟨hqlt, hqval⟩ := List.getElem?_eq_some.mp hq
  have hselfq : (slots.set q (Slot.occ nw))[q]? = some (Slot.occ nw) := by
    simp [List.getElem?_set_self, hqlt]
  have hnwlt : nw < rows'.length := (List.getElem?_eq_some.mp hnew).1
  have hmain : hashMove cb slots old nw k = slots.set q (Slot.occ nw) := by
    unfold hashMove
    cases hw : (probeSeq (cb.hashCode k) slots.length).find?
        (fun p => decide (slots.getD p .empty = .occ old)) with
    | none =>
      rw [List.find?_eq_none] at hw
      exfalso
      have hmem := mem_probeSeq_of_lt (cb.hashCode k) slots.length q hqlt
      have := hw q hmem
      rw [getD_of_getElem? hq] at this
      simp at this
    | some p =>
      have hpred := List.find?_some hw
      have hpmem := List.mem_of_find?_eq_some hw
      have hplt : p < slots.length := mem_probeSeq_lt hpmem
      have hpocc : slots[p]? = some (Slot.occ old) := by
        have := of_decide_eq_true hpred
        rw [← this]
        exact getElem?_of_lt_length hplt
      rw [occ_unique inv hpocc hq]
  have hposocc : 0 < slots.countP Slot.isOcc := by
    rw [List.countP_pos_iff]
    exact ⟨Slot.occ old, List.mem_iff_getElem?.mpr ⟨q, hq⟩, rfl⟩
  have hocc1 : nOcc (slots.set q (Slot.occ nw)) = nOcc slots := by
    unfold nOcc
    rw [List.countP_set _ _ _ _ hqlt, hqval]
    simp [Slot.isOcc]
    omega
  have htomb1 : nTomb (slots.set q (Slot.occ nw)) = nTomb slots := by
    unfold nTomb
    rw [List.countP_set _ _ _ _ hqlt, hqval]
    simp
  refine ⟨hmain, ?_, ?_, hocc1, htomb1⟩
  · constructor
    · intro p m hp
      by_cases hpq : p = q
      · rw [hpq, hselfq] at hp
        have hmn : m = nw := ((Slot.occ.injEq _ _).mp (Option.some_inj.mp hp)).symm
        rw [hmn]
        exact hnwlt
      · rw [List.getElem?_set_ne (Ne.symm hpq)] at hp
        have hmold : m ≠ old := by
          intro habs
          rw [habs] at hp
          exact hpq (occ_unique inv hp hq)
        have hmlt := inv.bounded p m hp
        have hsome : rows'[m]? = some (rows[m]) := by
          rw [hother m p hp hmold]
          exact List.getElem?_eq_getElem hmlt
        exact (List.getElem?_eq_some.mp hsome).1
    · intro p1 p2 m m' h1 h2 hne r1 r2 hr1 hr2
      by_cases e1 : p1 = q <;> by_cases e2 : p2 = q
      · exact absurd (e1.trans e2.symm) hne
      · rw [e1, hselfq] at h1
        have hmn : m = nw := ((Slot.occ.injEq _ _).mp (Option.some_inj.mp h1)).symm
        rw [hmn] at hr1
        have hr1r : r1 = r := Option.some_inj.mp (hr1.symm.trans hnew)
        rw [List.getElem?_set_ne (Ne.symm e2)] at h2
        have hm'old : m' ≠ old := by
          intro habs
          rw [habs] at h2
          exact e2 (occ_unique inv h2 hq)
        have hlk2 : rows'[m']? = rows[m']? := hother m' p2 h2 hm'old
        rw [hlk2] at hr2
        rw [hr1r]
        exact inv.uniq q p2 old m' hq h2 (fun habs => e2 habs.symm) r r2 hrold hr2
      · rw [e2, hselfq] at h2
        have hmn : m' = nw := ((Slot.occ.injEq _ _).mp (Option.some_inj.mp h2)).symm
        rw [hmn] at hr2
        have hr2r : r2 = r := Option.some_inj.mp (hr2.symm.trans hnew)
        rw [List.getElem?_set_ne (Ne.symm e1)] at h1
        have hmold : m ≠ old := by
          intro habs
          rw [habs] at h1
          exact e1 (occ_unique inv h1 hq)
        have hlk1 : rows'[m]? = rows[m]? := hother m p1 h1 hmold
        rw [hlk1] at hr1
        rw [hr2r]
        exact inv.uniq p1 q m old h1 hq e1 r1 r hr1 hrold
      · rw [List.getElem?_set_ne (Ne.symm e1)] at h1
        rw [List.getElem?_set_ne (Ne.symm e2)] at h2
        have hmold : m ≠ old := by
          intro habs
          rw [habs] at h1
          exact e1 (occ_unique inv h1 hq)
        have hm'old : m' ≠ old := by
          intro habs
          rw [habs] at h2
          exact e2 (occ_unique inv h2 hq)
        rw [hother m p1 h1 hmold] at hr1
        rw [hother m' p2 h2 hm'old] at hr2
        exact inv.uniq p1 p2 m m' h1 h2 hne r1 r2 hr1 hr2
    · intro p m hp r'' hr''
      rw [List.length_set]
      by_cases hpq : p = q
      · rw [hpq, hselfq] at hp
        have hmn : m = nw := ((Slot.occ.injEq _ _).mp (Option.some_inj.mp hp)).symm
        rw [hmn] at hr''
        have hr''r : r'' = r := Option.some_inj.mp (hr''.symm.trans hnew)
        obtain ⟨j, hj, hpj, hpath⟩ := inv.path q old hq r hrold
        rw [hr''r, hpq]
        refine ⟨j, hj, hpj, ?_⟩
        intro i hi
        by_cases hiq : (cb.hashCode (cb.keyForRow r) + i) % slots.length = q
        · rw [hiq, hselfq]
          intro habs
          cases Option.some_inj.mp habs
        · rw [List.getElem?_set_ne (Ne.symm hiq)]
          exact hpath i hi
      · rw [List.getElem?_set_ne (Ne.symm hpq)] at hp
        have hmold : m ≠ old := by
          intro habs
          rw [habs] at hp
          exact hpq (occ_unique inv hp hq)
        have hlk : rows'[m]? = rows[m]? := hother m p hp hmold
        rw [hlk] at hr''
        obtain ⟨j, hj, hpj, hpath⟩ := inv.path p m hp r'' hr''
        refine ⟨j, hj, hpj, ?_⟩
        intro i hi
        by_cases hiq : (cb.hashCode (cb.keyForRow r'') + i) % slots.length = q
        · rw [hiq, hselfq]
          intro habs
          cases Option.some_inj.mp habs
        · rw [List.getElem?_set_ne (Ne.symm hiq)]
          exact hpath i hi
    · rw [List.length_set, hocc1, htomb1]
      exact inv.load
  · intro x
    rw [Bool.eq_iff_iff]
    simp only [Bool.or_eq_true, Bool.and_eq_true, Bool.not_eq_true', decide_eq_false_iff_not,
      decide_eq_true_eq, hasRow_iff]
    constructor
    · rintro ⟨p, hp⟩
      by_cases hpq : p = q
      · rw [hpq, hselfq] at hp
        exact Or.inr ((Slot.occ.injEq _ _).mp (Option.some_inj.mp hp)).symm
      · rw [List.getElem?_set_ne (Ne.symm hpq)] at hp
        refine Or.inl ⟨⟨p, hp⟩, ?_⟩
        rintro rfl
        exact hpq (occ_unique inv hp hq)
    · rintro (⟨⟨p, hp⟩, hxold⟩ | rfl)
      · have hpq : p ≠ q := by
          rintro rfl
          rw [hq] at hp
          exact hxold ((Slot.occ.injEq _ _).mp (Option.some_inj.mp hp)).symm
        exact ⟨p, by rw [List.getElem?_set_ne (Ne.symm hpq)]; exact hp⟩
      · exact ⟨q, hselfq⟩

end KjTable

namespace KjTable

theorem getElem?_append_lt {T : Type} {l1 l2 : List T} {n : Nat} (h : n < l1.length) :
    (l1 ++ l2)[n]? = l1[n]? := by
  rw [List.getElem?_append]
  simp [h]

theorem HashInv_append {T : Type} {cb : HashCb T} {rows : List T} {slots : List Slot}
    (inv : HashInv cb rows slots) (r : T) : HashInv cb (rows ++ [r]) slots := by
  have hlk : ∀ (m : Nat) (p : Nat), slots[p]? = some (Slot.occ m) →
      (rows ++ [r])[m]? = rows[m]? := by
    intro m p hp
    exact getElem?_append_lt (inv.bounded p m hp)
  constructor
  · intro p m hp
    have := inv.bounded p m hp
    rw [List.length_append]
    omega
  · intro p1 p2 m m' h1 h2 hne r1 r2 hr1 hr2
    rw [hlk m p1 h1] at hr1
    rw [hlk m' p2 h2] at hr2
    exact inv.uniq p1 p2 m m' h1 h2 hne r1 r2 hr1 hr2
  · intro p m hp r'' hr''
    rw [hlk m p hp] at hr''
    exact inv.path p m hp r'' hr''
  · exact inv.load

theorem HashInv_unappend {T : Type} {cb : HashCb T} {rows : List T} {r : T} {slots : List Slot}
    (inv : HashInv cb (rows ++ [r]) slots)
    (hbound : ∀ m : Nat, hasRow slots m = true → m < rows.length) :
    HashInv cb rows slots := by
  have hlk : ∀ (m : Nat) (p : Nat), slots[p]? = some (Slot.occ m) →
      (rows ++ [r])[m]? = rows[m]? := by
    intro m p hp
    exact getElem?_append_lt (hbound m (hasRow_iff.mpr ⟨p, hp⟩))
  constructor
  · intro p m hp
    exact hbound m (hasRow_iff.mpr ⟨p, hp⟩)
  · intro p1 p2 m m' h1 h2 hne r1 r2 hr1 hr2
    rw [← hlk m p1 h1] at hr1
    rw [← hlk m' p2 h2] at hr2
    exact inv.uniq p1 p2 m m' h1 h2 hne r1 r2 hr1 hr2
  · intro p m hp r'' hr''
    rw [← hlk m p hp] at hr''
    exact inv.path p m hp r'' hr''
  · exact inv.load

theorem chooseLenAux_spec :
    ∀ (fuel len need : Nat), need ≤ len * 2 ^ fuel * 3 / 4 →
      need ≤ chooseLenAux fuel len need * 3 / 4 := by
  intro fuel
  induction fuel with
  | zero =>
    intro len need h
    simpa using h
  | succ f ih =>
    intro len need h
    unfold chooseLenAux
    split
    · assumption
    · apply ih
      have : len * 2 * 2 ^ f = len * 2 ^ (f + 1) := by ring
      rw [this]
      exact h

theorem chooseLen_spec (load : Nat) : load + 1 ≤ chooseLen load * 3 / 4 := by
  unfold chooseLen
  apply chooseLenAux_spec
  have h2 : load + 1 < 2 ^ (load + 1) := Nat.lt_two_pow _
  have h3 : 2 ^ (load + 1) = 2 * 2 ^ load := by
    rw [pow_succ]
    ring
  have heq : 2 * 2 ^ (load + 2) * 3 = 6 * 2 ^ load * 4 := by
    rw [pow_succ, pow_succ]
    ring
  rw [heq, Nat.mul_div_cancel _ (by omega : 0 < 4)]
  omega

theorem hasRow_replicate_empty (len x : Nat) :
    hasRow (List.replicate len Slot.empty) x = false := by
  simp [hasRow]

theorem nOcc_replicate_empty (len : Nat) : nOcc (List.replicate len Slot.empty) = 0 := by
  simp [nOcc, List.countP_replicate, Slot.isOcc]

theorem nTomb_replicate_empty (len : Nat) : nTomb (List.replicate len Slot.empty) = 0 := by
  simp [nTomb, List.countP_replicate]

theorem HashInv_replicate_empty {T : Type} (cb : HashCb T) (rows : List T) (len : Nat) :
    HashInv cb rows (List.replicate len Slot.empty) := by
  have hocc : ∀ (p m : Nat), (List.replicate len Slot.empty)[p]? = some (Slot.occ m) → False := by
    intro p m hp
    rcases List.getElem?_eq_some.mp hp with ⟨hlt, hval⟩
    rw [List.getElem_replicate] at hval
    cases hval
  constructor
  · intro p m hp
    exact absurd hp (hocc p m)
  · intro p1 p2 m m' h1 h2
    exact absurd h1 (hocc p1 m)
  · intro p m hp
    exact absurd hp (hocc p m)
  · rw [nOcc_replicate_empty, nTomb_replicate_empty]
    simp

theorem hasRow_eq_mem (s : List Slot) (m : Nat) :
    hasRow s m = decide (Slot.occ m ∈ s) := by
  rw [Bool.eq_iff_iff]
  simp only [hasRow, List.any_eq_true, decide_eq_true_eq]
  constructor
  · rintro ⟨x, hx, rfl⟩
    exact hx
  · intro h
    exact ⟨Slot.occ m, h, rfl⟩

end KjTable

namespace KjTable


theorem rehash_fold_spec {T : Type} (cb : HashCb T) (rows : List T) :
    ∀ (olds acc : List Slot),
      HashInv cb rows acc →
      nTomb acc = 0 →
      nOcc acc + olds.countP Slot.isOcc + 1 ≤ acc.length * 3 / 4 →
      (∀ m : Nat, Slot.occ m ∈ olds → m < rows.length) →
      (∀ m : Nat, Slot.occ m ∈ olds → hasRow acc m = false) →
      (∀ (m m' : Nat), Slot.occ m ∈ olds → hasRow acc m' = true →
        ∀ r r', rows[m]? = some r → rows[m']? = some r' →
          cb.keyForRow r ≠ cb.keyForRow r') →
      List.Pairwise (OccDistinct cb rows) olds →
      HashInv cb rows (olds.foldl (hashReinsert cb rows) acc) ∧
        nTomb (olds.foldl (hashReinsert cb rows) acc) = 0 ∧
        nOcc (olds.foldl (hashReinsert cb rows) acc) = nOcc acc + olds.countP Slot.isOcc ∧
        (olds.foldl (hashReinsert cb rows) acc).length = acc.length ∧
        ∀ x : Nat, hasRow (olds.foldl (hashReinsert cb rows) acc) x =
          (hasRow acc x || decide (Slot.occ x ∈ olds)) := by
  intro olds
  induction olds with
  | nil =>
    intro acc hinv htomb hcap hbnd hfr hcross hpw
    refine ⟨hinv, htomb, by simp, rfl, fun x => by simp⟩
  | cons s rest ih =>
    intro acc hinv htomb hcap hbnd hfr hcross hpw
    cases s with
    | empty =>
      have hstep : hashReinsert cb rows acc Slot.empty = acc := rfl
      simp only [List.foldl_cons, hstep]
      have hcap' : nOcc acc + rest.countP Slot.isOcc + 1 ≤ acc.length * 3 / 4 := by
        have : (Slot.empty :: rest).countP Slot.isOcc = rest.countP Slot.isOcc := by
          simp [List.countP_cons, Slot.isOcc]
        rw [this] at hcap
        exact hcap
      obtain ⟨i1, i2, i3, i4, i5⟩ := ih acc hinv htomb hcap'
        (fun m hm => hbnd m (List.mem_cons_of_mem _ hm))
        (fun m hm => hfr m (List.mem_cons_of_mem _ hm))
        (fun m m' hm hm' => hcross m m' (List.mem_cons_of_mem _ hm) hm')
        hpw.of_cons
      refine ⟨i1, i2, ?_, i4, fun x => ?_⟩
      · rw [i3]
        simp [List.countP_cons, Slot.isOcc]
      · rw [i5 x, Bool.eq_iff_iff]
        simp [List.mem_cons]
    | tomb =>
      have hstep : hashReinsert cb rows acc Slot.tomb = acc := rfl
      simp only [List.foldl_cons, hstep]
      have hcap' : nOcc acc + rest.countP Slot.isOcc + 1 ≤ acc.length * 3 / 4 := by
        have : (Slot.tomb :: rest).countP Slot.isOcc = rest.countP Slot.isOcc := by
          simp [List.countP_cons, Slot.isOcc]
        rw [this] at hcap
        exact hcap
      obtain ⟨i1, i2, i3, i4, i5⟩ := ih acc hinv htomb hcap'
        (fun m hm => hbnd m (List.mem_cons_of_mem _ hm))
        (fun m hm => hfr m (List.mem_cons_of_mem _ hm))
        (fun m m' hm hm' => hcross m m' (List.mem_cons_of_mem _ hm) hm')
        hpw.of_cons
      refine ⟨i1, i2, ?_, i4, fun x => ?_⟩
      · rw [i3]
        simp [List.countP_cons, Slot.isOcc]
      · rw [i5 x, Bool.eq_iff_iff]
        simp [List.mem_cons]
    | occ m =>
      have hmlt : m < rows.length := hbnd m (List.mem_cons_self _ _)
      have hr : rows[m]? = some (rows[m]) := List.getElem?_eq_getElem hmlt
      have hnodup : ∀ m' : Nat, hasRow acc m' = true →
          matchesAt cb.toKeyCb rows m' (cb.keyForRow (rows[m])) = false := by
        intro m' hm'
        unfold matchesAt
        cases hr' : rows[m']? with
        | none => simp
        | some r' =>
          have hne := hcross m m' (List.mem_cons_self _ _) hm' _ r' hr hr'
          have hkf : cb.keq (cb.keyForRow r') (cb.keyForRow (rows[m])) = false := by
            cases hkeq : cb.keq (cb.keyForRow r') (cb.keyForRow (rows[m]))
            · rfl
            · exact absurd ((keq_eq_true_iff _ _ _).mp hkeq) (fun habs => hne habs.symm)
          simp [hkf]
      have hload : nOcc acc + nTomb acc + 1 ≤ acc.length * 3 / 4 := by
        have hc : (Slot.occ m :: rest).countP Slot.isOcc = rest.countP Slot.isOcc + 1 := by
          simp [List.countP_cons, Slot.isOcc]
        rw [hc] at hcap
        omega
      obtain ⟨p, hplt, hpocc, heq, inv', hcont, hocc', htomb'⟩ :=
        hashInsertNoGrow_fresh hinv hr rfl hnodup hload
      have hstep : hashReinsert cb rows acc (Slot.occ m) = acc.set p (Slot.occ m) := by
        simp only [hashReinsert, hr]
        rw [heq]
      simp only [List.foldl_cons, hstep]
      have htomb0 : nTomb (acc.set p (Slot.occ m)) = 0 := by omega
      have hcap' : nOcc (acc.set p (Slot.occ m)) + rest.countP Slot.isOcc + 1 ≤
          (acc.set p (Slot.occ m)).length * 3 / 4 := by
        rw [List.length_set, hocc']
        have hc : (Slot.occ m :: rest).countP Slot.isOcc = rest.countP Slot.isOcc + 1 := by
          simp [List.countP_cons, Slot.isOcc]
        rw [hc] at hcap
        omega
      have hbnd' : ∀ m' : Nat, Slot.occ m' ∈ rest → m' < rows.length :=
        fun m' hm' => hbnd m' (List.mem_cons_of_mem _ hm')
      have hfr' : ∀ m' : Nat, Slot.occ m' ∈ rest → hasRow (acc.set p (Slot.occ m)) m' = false := by
        intro m' hm'
        rw [hcont m']
        have h1 : hasRow acc m' = false := hfr m' (List.mem_cons_of_mem _ hm')
        have h2 : m' ≠ m := by
          have := List.rel_of_pairwise_cons hpw hm'
          exact fun habs => ((this m m' rfl rfl).1 habs.symm).elim
        simp [h1, h2]
      have hcross' : ∀ (m1 m2 : Nat), Slot.occ m1 ∈ rest →
          hasRow (acc.set p (Slot.occ m)) m2 = true →
          ∀ r r', rows[m1]? = some r → rows[m2]? = some r' →
            cb.keyForRow r ≠ cb.keyForRow r' := by
        intro m1 m2 hm1 hm2 r1 r2 hr1 hr2
        rw [hcont m2] at hm2
        rcases Bool.or_eq_true_iff.mp hm2 with hacc | heqm
        · exact hcross m1 m2 (List.mem_cons_of_mem _ hm1) hacc r1 r2 hr1 hr2
        · have hm2m : m2 = m := of_decide_eq_true heqm
          subst hm2m
          have hrel := List.rel_of_pairwise_cons hpw hm1
          have := (hrel m2 m1 rfl rfl).2 _ r1 hr hr1
          have hr2r : r2 = rows[m2] := Option.some_inj.mp (hr2.symm.trans hr)
          rw [hr2r]
          exact fun habs => this habs.symm
      obtain ⟨i1, i2, i3, i4, i5⟩ := ih (acc.set p (Slot.occ m)) inv' htomb0 hcap'
        hbnd' hfr' hcross' hpw.of_cons
      refine ⟨i1, i2, ?_, ?_, fun x => ?_⟩
      · rw [i3, hocc']
        simp [List.countP_cons, Slot.isOcc]
        omega
      · rw [i4, List.length_set]
      · rw [i5 x, hcont x, Bool.eq_iff_iff]
        simp only [Bool.or_eq_true, decide_eq_true_eq, List.mem_cons, Slot.occ.injEq]
        tauto

end KjTable

namespace KjTable

theorem pairwise_OccDistinct {T : Type} {cb : HashCb T} {rows : List T} {slots : List Slot}
    (inv : HashInv cb rows slots) : List.Pairwise (OccDistinct cb rows) slots := by
  rw [List.pairwise_iff_getElem]
  intro i j hi hj hij
  intro m m' hsi hsj
  have h1 : slots[i]? = some (Slot.occ m) := by
    rw [List.getElem?_eq_getElem hi, hsi]
  have h2 : slots[j]? = some (Slot.occ m') := by
    rw [List.getElem?_eq_getElem hj, hsj]
  constructor
  · intro habs
    rw [habs] at h1
    have := occ_unique inv h1 h2
    omega
  · intro r r' hr hr'
    exact inv.uniq i j m m' h1 h2 (by omega) r r' hr hr'

theorem hashRehash_spec {T : Type} {cb : HashCb T} {rows : List T} {slots : List Slot}
    (inv : HashInv cb rows slots) :
    HashInv cb rows (hashRehash cb rows slots) ∧
      nTomb (hashRehash cb rows slots) = 0 ∧
      nOcc (hashRehash cb rows slots) = nOcc slots ∧
      (hashRehash cb rows slots).length = chooseLen (nOcc slots) ∧
      ∀ x : Nat, hasRow (hashRehash cb rows slots) x = hasRow slots x := by
  have hrepl := HashInv_replicate_empty cb rows (chooseLen (nOcc slots))
  have hcap : nOcc (List.replicate (chooseLen (nOcc slots)) Slot.empty) +
      slots.countP Slot.isOcc + 1 ≤
      (List.replicate (chooseLen (nOcc slots)) Slot.empty).length * 3 / 4 := by
    rw [nOcc_replicate_empty, List.length_replicate]
    have := chooseLen_spec (nOcc slots)
    unfold nOcc at this ⊢
    omega
  obtain ⟨i1, i2, i3, i4, i5⟩ := rehash_fold_spec cb rows slots
    (List.replicate (chooseLen (nOcc slots)) Slot.empty)
    hrepl (nTomb_replicate_empty _) hcap
    (fun m hm => by
      obtain ⟨p, hp⟩ := List.mem_iff_getElem?.mp hm
      exact inv.bounded p m hp)
    (fun m _ => hasRow_replicate_empty _ m)
    (fun m m' _ hm' => by

      rw [hasRow_replicate_empty] at hm'
      cases hm')
    (pairwise_OccDistinct inv)
  unfold hashRehash
  refine ⟨i1, i2, ?_, ?_, fun x => ?_⟩
  · rw [i3, nOcc_replicate_empty]
    unfold nOcc
    omega
  · rw [i4, List.length_replicate]
  · rw [i5 x, hasRow_replicate_empty, hasRow_eq_mem]
    simp

theorem hashInsert_def {T : Type} (cb : HashCb T) (rows : List T) (slots : List Slot)
    (n : Nat) (k : cb.Key) :
    hashInsert cb rows slots n k =
      hashInsertNoGrow cb rows
        (if nOcc slots + nTomb slots + 1 > slots.length * 3 / 4 then hashRehash cb rows slots
         else slots) n k := rfl

theorem hashInsert_fresh {T : Type} {cb : HashCb T} {rows : List T} {slots : List Slot}
    (inv : HashInv cb rows slots) {n : Nat} {r : T} {k : cb.Key}
    (hn : rows[n]? = some r) (hkey : cb.keyForRow r = k)
    (hnodup : ∀ m : Nat, hasRow slots m = true → matchesAt cb.toKeyCb rows m k = false) :
    ∃ slots', hashInsert cb rows slots n k = (none, slots') ∧ HashInv cb rows slots' ∧
      ∀ x : Nat, hasRow slots' x = (hasRow slots x || decide (x = n)) := by
  rw [hashInsert_def]
  by_cases hcond : nOcc slots + nTomb slots + 1 > slots.length * 3 / 4
  · rw [if_pos hcond]
    obtain ⟨inv2, htomb2, hocc2, hlen2, hcont2⟩ := hashRehash_spec inv
    have hnodup2 : ∀ m : Nat, hasRow (hashRehash cb rows slots) m = true →
        matchesAt cb.toKeyCb rows m k = false := by
      intro m hm
      rw [hcont2 m] at hm
      exact hnodup m hm
    have hload2 : nOcc (hashRehash cb rows slots) + nTomb (hashRehash cb rows slots) + 1 ≤
        (hashRehash cb rows slots).length * 3 / 4 := by
      rw [htomb2, hocc2, hlen2]
      have := chooseLen_spec (nOcc slots)
      omega
    obtain ⟨p, hplt, hpocc, heq, inv', hcont', _, _⟩ :=
      hashInsertNoGrow_fresh inv2 hn hkey hnodup2 hload2
    refine ⟨_, heq, inv', fun x => ?_⟩
    rw [hcont' x, hcont2 x]
  · rw [if_neg hcond]
    have hload : nOcc slots + nTomb slots + 1 ≤ slots.length * 3 / 4 := by omega
    obtain ⟨p, hplt, hpocc, heq, inv', hcont', _, _⟩ :=
      hashInsertNoGrow_fresh inv hn hkey hnodup hload
    exact ⟨_, heq, inv', hcont'⟩

theorem hashInsert_dup {T : Type} {cb : HashCb T} {rows : List T} {slots : List Slot}
    (inv : HashInv cb rows slots) {k : cb.Key} {m0 : Nat}
    (hm : hasRow slots m0 = true) (hmk : matchesAt cb.toKeyCb rows m0 k = true) (n : Nat) :
    ∃ slots', hashInsert cb rows slots n k = (some m0, slots') ∧ HashInv cb rows slots' ∧
      ∀ x : Nat, hasRow slots' x = hasRow slots x := by
  rw [hashInsert_def]
  by_cases hcond : nOcc slots + nTomb slots + 1 > slots.length * 3 / 4
  · rw [if_pos hcond]
    obtain ⟨inv2, htomb2, hocc2, hlen2, hcont2⟩ := hashRehash_spec inv
    have hm2 : hasRow (hashRehash cb rows slots) m0 = true := by
      rw [hcont2 m0]
      exact hm
    have hfind := hashFind_eq_some inv2 hm2 hmk
    refine ⟨_, ?_, inv2, hcont2⟩
    unfold hashInsertNoGrow
    rw [hfind]
  · rw [if_neg hcond]
    have hfind := hashFind_eq_some inv hm hmk
    refine ⟨_, ?_, inv, fun x => rfl⟩
    unfold hashInsertNoGrow
    rw [hfind]

end KjTable

namespace KjTable

theorem tkeq_eq_true_iff {T : Type} (cb : TreeCb T) (a b : cb.Key) :
    cb.keq a b = true ↔ a = b := by
  unfold TreeCb.keq
  exact @decide_eq_true_iff _ (cb.ord.decidableEq a b)

theorem tklt_eq_true_iff {T : Type} (cb : TreeCb T) (a b : cb.Key) :
    cb.klt a b = true ↔ cb.ord.lt a b := by
  unfold TreeCb.klt
  exact @decide_eq_true_iff _ (cb.ord.decidableLT a b)

theorem treeMatches_true {T : Type} {cb : TreeCb T} {rows : List T} {m : Nat} {k : cb.Key} :
    treeMatches cb rows m k = true ↔ ∃ r, rows[m]? = some r ∧ cb.keyForRow r = k := by
  unfold treeMatches
  cases hr : rows[m]? with
  | none => simp
  | some r => simp [tkeq_eq_true_iff]

theorem treeBefore_true {T : Type} {cb : TreeCb T} {rows : List T} {m : Nat} {k : cb.Key} :
    treeBefore cb rows m k = true ↔
      ∃ r, rows[m]? = some r ∧ cb.ord.lt (cb.keyForRow r) k := by
  unfold treeBefore
  cases hr : rows[m]? with
  | none => simp
  | some r => simp [tklt_eq_true_iff]

theorem find?_eq_some_of_unique {α : Type} [DecidableEq α] {l : List α} {p : α → Bool} {x : α}
    (hx : x ∈ l) (hpx : p x = true) (huniq : ∀ y ∈ l, p y = true → y = x) :
    l.find? p = some x := by
  induction l with
  | nil => cases hx
  | cons a l ih =>
    by_cases hpa : p a = true
    · have : a = x := huniq a (List.mem_cons_self a l) hpa
      rw [List.find?_cons_of_pos _ hpa, this]
    · rw [List.find?_cons_of_neg _ (by simpa using hpa)]
      rcases List.mem_cons.mp hx with rfl | hxl
      · exact absurd hpx hpa
      · exact ih hxl (fun y hy hpy => huniq y (List.mem_cons_of_mem a hy) hpy)

theorem treeInv_key_inj {T : Type} {cb : TreeCb T} {rows : List T} {lst : List Nat}
    (inv : TreeInv cb rows lst) {m1 m2 : Nat} (h1 : m1 ∈ lst) (h2 : m2 ∈ lst)
    {r1 r2 : T} (hr1 : rows[m1]? = some r1) (hr2 : rows[m2]? = some r2)
    (hk : cb.keyForRow r1 = cb.keyForRow r2) : m1 = m2 := by
  by_contra hne
  obtain ⟨i, hvi⟩ := List.mem_iff_getElem?.mp h1
  obtain ⟨j, hvj⟩ := List.mem_iff_getElem?.mp h2
  have hij : i ≠ j := by
    intro habs
    rw [habs] at hvi
    rw [hvi] at hvj
    exact hne (Option.some_inj.mp hvj)
  obtain ⟨hi, hgi⟩ := List.getElem?_eq_some.mp hvi
  obtain ⟨hj, hgj⟩ := List.getElem?_eq_some.mp hvj
  have hpw := List.pairwise_iff_getElem.mp inv.sorted
  rcases Nat.lt_or_ge i j with hlt | hge
  · have := hpw i j hi hj hlt
    rw [hgi, hgj] at this
    have hltk := this r1 r2 hr1 hr2
    rw [hk] at hltk
    exact absurd hltk (by letI := cb.ord; exact lt_irrefl _)
  · have hlt : j < i := by omega
    have := hpw j i hj hi hlt
    rw [hgi, hgj] at this
    have hltk := this r2 r1 hr2 hr1
    rw [hk] at hltk
    exact absurd hltk (by letI := cb.ord; exact lt_irrefl _)

theorem treeFind_iff {T : Type} {cb : TreeCb T} {rows : List T} {lst : List Nat}
    (inv : TreeInv cb rows lst) (k : cb.Key) (m : Nat) :
    treeFind cb rows lst k = some m ↔ m ∈ lst ∧ treeMatches cb rows m k = true := by
  constructor
  · intro hf
    unfold treeFind at hf
    refine ⟨List.mem_of_find?_eq_some hf, ?_⟩
    have := List.find?_some hf
    simpa using this
  · rintro ⟨hm, hmk⟩
    refine find?_eq_some_of_unique hm hmk ?_
    intro y hy hpy
    obtain ⟨ry, hry, hky⟩ := treeMatches_true.mp hpy
    obtain ⟨rm, hrm, hkm⟩ := treeMatches_true.mp hmk
    exact treeInv_key_inj inv hy hm hry hrm (hky.trans hkm.symm)

theorem treeFind_eq_none {T : Type} {cb : TreeCb T} {rows : List T} {lst : List Nat}
    {k : cb.Key} (h : ∀ m ∈ lst, treeMatches cb rows m k = false) :
    treeFind cb rows lst k = none := by
  unfold treeFind
  rw [List.find?_eq_none]
  intro x hx
  rw [h x hx]
  simp

end KjTable

namespace KjTable

theorem treeMatches_false {T : Type} {cb : TreeCb T} {rows : List T} {m : Nat} {k : cb.Key}
    {r : T} (hr : rows[m]? = some r) :
    treeMatches cb rows m k = false ↔ cb.keyForRow r ≠ k := by
  rw [← Bool.not_eq_true, treeMatches_true]
  constructor
  · intro h habs
    exact h ⟨r, hr, habs⟩
  · rintro hne ⟨r', hr', habs⟩
    rw [Option.some_inj.mp (hr.symm.trans hr')] at hne
    exact hne habs

theorem treeBefore_false {T : Type} {cb : TreeCb T} {rows : List T} {m : Nat} {k : cb.Key}
    {r : T} (hr : rows[m]? = some r) :
    treeBefore cb rows m k = false ↔ ¬ cb.ord.lt (cb.keyForRow r) k := by
  rw [← Bool.not_eq_true, treeBefore_true]
  constructor
  · intro h habs
    exact h ⟨r, hr, habs⟩
  · rintro hne ⟨r', hr', habs⟩
    rw [Option.some_inj.mp (hr.symm.trans hr')] at hne
    exact hne habs

theorem treeInsertSorted_spec {T : Type} {cb : TreeCb T} {rows : List T} {n : Nat} {r : T}
    {k : cb.Key} (hn : rows[n]? = some r) (hkey : cb.keyForRow r = k) :
    ∀ lst : List Nat, TreeInv cb rows lst →
      (∀ m ∈ lst, treeMatches cb rows m k = false) →
      TreeInv cb rows (treeInsertSorted cb rows n k lst) ∧
        ∀ x : Nat, x ∈ treeInsertSorted cb rows n k lst ↔ x ∈ lst ∨ x = n := by
  have hnlt : n < rows.length := (List.getElem?_eq_some.mp hn).1
  intro lst
  induction lst with
  | nil =>
    intro _ _
    refine ⟨⟨?_, ?_⟩, fun x => ?_⟩
    · intro m hm
      rw [List.mem_singleton.mp hm]
      exact hnlt
    · exact List.pairwise_singleton _ _
    · simp [treeInsertSorted]
  | cons m ms ih =>
    intro inv hnomatch
    have hrelm : ∀ b ∈ ms, ∀ ra rb : T, rows[m]? = some ra → rows[b]? = some rb →
        cb.ord.lt (cb.keyForRow ra) (cb.keyForRow rb) :=
      fun b hb => List.rel_of_pairwise_cons inv.sorted hb
    have invms : TreeInv cb rows ms :=
      ⟨fun x hx => inv.bounded x (List.mem_cons_of_mem _ hx), inv.sorted.of_cons⟩
    have hmlt : m < rows.length := inv.bounded m (List.mem_cons_self _ _)
    have hrm : rows[m]? = some (rows[m]) := List.getElem?_eq_getElem hmlt
    unfold treeInsertSorted
    by_cases hbef : treeBefore cb rows m k = true
    · rw [if_pos hbef]
      obtain ⟨invi, hmemi⟩ := ih invms
        (fun x hx => hnomatch x (List.mem_cons_of_mem _ hx))
      refine ⟨⟨?_, ?_⟩, fun x => ?_⟩
      · intro x hx
        rcases List.mem_cons.mp hx with rfl | hx'
        · exact hmlt
        · exact invi.bounded x hx'
      · rw [List.pairwise_cons]
        refine ⟨?_, invi.sorted⟩
        intro b hb ra rb hra hrb
        rcases (hmemi b).mp hb with hbms | rfl
        · exact hrelm b hbms ra rb hra hrb
        · obtain ⟨rm', hrm', hltm⟩ := treeBefore_true.mp hbef
          have hra' : ra = rm' := Option.some_inj.mp (hra.symm.trans hrm')
          have hrb' : rb = r := Option.some_inj.mp (hrb.symm.trans hn)
          rw [hra', hrb', hkey]
          exact hltm
      · rw [List.mem_cons, hmemi x, List.mem_cons]
        tauto
    · rw [if_neg hbef]
      have hbef' : treeBefore cb rows m k = false := by
        rw [← Bool.not_eq_true]
        exact hbef
      have hnotlt : ¬ cb.ord.lt (cb.keyForRow (rows[m])) k :=
        (treeBefore_false hrm).mp hbef'
      have hkne : cb.keyForRow (rows[m]) ≠ k :=
        (treeMatches_false hrm).mp (hnomatch m (List.mem_cons_self _ _))
      have hklt : cb.ord.lt k (cb.keyForRow (rows[m])) := by
        letI := cb.ord
        rcases lt_trichotomy k (cb.keyForRow (rows[m])) with h | h | h
        · exact h
        · exact absurd h.symm hkne
        · exact absurd h hnotlt
      refine ⟨⟨?_, ?_⟩, fun x => ?_⟩
      · intro x hx
        rcases List.mem_cons.mp hx with rfl | hx'
        · exact hnlt
        · exact inv.bounded x hx'
      · rw [List.pairwise_cons]
        refine ⟨?_, inv.sorted⟩
        intro b hb ra rb hra hrb
        have hra' : ra = r := Option.some_inj.mp (hra.symm.trans hn)
        rw [hra', hkey]
        rcases List.mem_cons.mp hb with rfl | hbms
        · have hrb' : rb = rows[b] := Option.some_inj.mp (hrb.symm.trans hrm)
          rw [hrb']
          exact hklt
        · have hmb := hrelm b hbms (rows[m]) rb hrm hrb
          letI := cb.ord
          exact lt_trans hklt hmb
      · simp only [List.mem_cons]
        tauto
  
theorem treeInsert_fresh {T : Type} {cb : TreeCb T} {rows : List T} {lst : List Nat}
    (inv : TreeInv cb rows lst) {n : Nat} {r : T} {k : cb.Key}
    (hn : rows[n]? = some r) (hkey : cb.keyForRow r = k)
    (hnomatch : ∀ m ∈ lst, treeMatches cb rows m k = false) :
    treeInsert cb rows lst n k = (none, treeInsertSorted cb rows n k lst) ∧
      TreeInv cb rows (treeInsertSorted cb rows n k lst) ∧
      ∀ x : Nat, x ∈ treeInsertSorted cb rows n k lst ↔ x ∈ lst ∨ x = n := by
  obtain ⟨invi, hmem⟩ := treeInsertSorted_spec hn hkey lst inv hnomatch
  refine ⟨?_, invi, hmem⟩
  unfold treeInsert
  rw [treeFind_eq_none hnomatch]

theorem treeInsert_dup {T : Type} {cb : TreeCb T} {rows : List T} {lst : List Nat}
    (inv : TreeInv cb rows lst) {m0 : Nat} {k : cb.Key}
    (hm : m0 ∈ lst) (hmk : treeMatches cb rows m0 k = true) (n : Nat) :
    treeInsert cb rows lst n k = (some m0, lst) := by
  unfold treeInsert
  rw [(treeFind_iff inv k m0).mpr ⟨hm, hmk⟩]

theorem treeInv_nodup {T : Type} {cb : TreeCb T} {rows : List T} {lst : List Nat}
    (inv : TreeInv cb rows lst) : lst.Nodup := by
  refine inv.sorted.imp_of_mem ?_
  intro a b ha hb hrel habs
  have halt : a < rows.length := inv.bounded a ha
  have hra : rows[a]? = some (rows[a]) := List.getElem?_eq_getElem halt
  have hrb : rows[b]? = some (rows[a]) := by
    rw [← habs]
    exact hra
  have := hrel (rows[a]) (rows[a]) hra hrb
  exact absurd this (by letI := cb.ord; exact lt_irrefl _)

theorem treeErase_spec {T : Type} {cb : TreeCb T} {rows : List T} {lst : List Nat}
    (inv : TreeInv cb rows lst) (n : Nat) :
    TreeInv cb rows (treeErase lst n) ∧
      ∀ x : Nat, x ∈ treeErase lst n ↔ x ∈ lst ∧ x ≠ n := by
  have hsub : (treeErase lst n).Sublist lst := List.erase_sublist n lst
  refine ⟨⟨?_, inv.sorted.sublist hsub⟩, fun x => ?_⟩
  · intro x hx
    exact inv.bounded x (hsub.mem hx)
  · unfold treeErase
    rw [(treeInv_nodup inv).mem_erase_iff]
    tauto

end KjTable

namespace KjTable

theorem treeMove_spec {T : Type} {cb : TreeCb T} {rows rows' : List T} {lst : List Nat}
    (inv : TreeInv cb rows lst) {old nw : Nat} {r : T}
    (hold : rows[old]? = some r) (hnew : rows'[nw]? = some r)
    (hother : ∀ m ∈ lst, m ≠ old → rows'[m]? = rows[m]?) :
    TreeInv cb rows' (treeMove lst old nw) ∧
      ∀ x : Nat, x ∈ treeMove lst old nw ↔
        (x ∈ lst ∧ x ≠ old) ∨ (old ∈ lst ∧ x = nw) := by
  have hnwlt : nw < rows'.length := (List.getElem?_eq_some.mp hnew).1
  refine ⟨⟨?_, ?_⟩, fun x => ?_⟩
  · intro x hx
    obtain ⟨m, hm, hfm⟩ := List.mem_map.mp hx
    by_cases hmo : m = old
    · rw [if_pos hmo] at hfm
      rw [← hfm]
      exact hnwlt
    · rw [if_neg hmo] at hfm
      have hlk := hother m hm hmo
      have hmlt := inv.bounded m hm
      have : rows'[m]? = some (rows[m]) := by
        rw [hlk]
        exact List.getElem?_eq_getElem hmlt
      rw [← hfm]
      exact (List.getElem?_eq_some.mp this).1
  · unfold treeMove
    rw [List.pairwise_map]
    refine inv.sorted.imp_of_mem ?_
    intro a b ha hb hrel
    intro ra rb hra hrb
    by_cases hao : a = old <;> by_cases hbo : b = old
    · rw [hao, hbo] at hrel
      have := hrel r r hold hold
      exact absurd this (by letI := cb.ord; exact lt_irrefl _)
    · rw [if_pos hao] at hra
      rw [if_neg hbo] at hrb
      have hra' : ra = r := Option.some_inj.mp (hra.symm.trans hnew)
      rw [hother b hb hbo] at hrb
      rw [hra']
      rw [hao] at hrel
      exact hrel r rb hold hrb
    · rw [if_neg hao] at hra
      rw [if_pos hbo] at hrb
      have hrb' : rb = r := Option.some_inj.mp (hrb.symm.trans hnew)
      rw [hother a ha hao] at hra
      rw [hrb']
      rw [hbo] at hrel
      exact hrel ra r hra hold
    · rw [if_neg hao] at hra
      rw [if_neg hbo] at hrb
      rw [hother a ha hao] at hra
      rw [hother b hb hbo] at hrb
      exact hrel ra rb hra hrb
  · unfold treeMove
    rw [List.mem_map]
    constructor
    · rintro ⟨m, hm, hfm⟩
      by_cases hmo : m = old
      · rw [if_pos hmo] at hfm
        exact Or.inr ⟨hmo ▸ hm, hfm.symm⟩
      · rw [if_neg hmo] at hfm
        exact Or.inl ⟨hfm ▸ hm, hfm ▸ hmo⟩
    · rintro (⟨hx, hneq⟩ | ⟨holdmem, rfl⟩)
      · exact ⟨x, hx, if_neg hneq⟩
      · exact ⟨old, holdmem, if_pos rfl⟩

theorem dropWhile_eq_filter_of_sorted {α : Type} {R : α → α → Prop} {p : α → Bool} :
    ∀ {l : List α}, List.Pairwise R l →
      (∀ a b, a ∈ l → b ∈ l → R a b → p b = true → p a = true) →
      l.dropWhile p = l.filter (fun a => !p a) := by
  intro l
  induction l with
  | nil => intro _ _; rfl
  | cons a l ih =>
    intro hpw hdown
    by_cases hpa : p a = true
    · rw [List.dropWhile_cons_of_pos hpa, List.filter_cons_of_neg (by simp [hpa])]
      exact ih hpw.of_cons (fun x y hx hy => hdown x y (List.mem_cons_of_mem _ hx)
        (List.mem_cons_of_mem _ hy))
    · have hpa' : p a = false := by
        rw [← Bool.not_eq_true]
        exact hpa
      rw [List.dropWhile_cons_of_neg (by simp [hpa']), List.filter_cons_of_pos (by simp [hpa'])]
      have hall : ∀ b ∈ l, p b = false := by
        intro b hb
        by_contra habs
        rw [Bool.not_eq_false] at habs
        have := hdown a b (List.mem_cons_self _ _) (List.mem_cons_of_mem _ hb)
          (List.rel_of_pairwise_cons hpw hb) habs
        rw [this] at hpa'
        cases hpa'
      have : l.filter (fun x => !p x) = l := by
        rw [List.filter_eq_self]
        intro b hb
        simp [hall b hb]
      rw [this]

theorem takeWhile_eq_filter_of_sorted {α : Type} {R : α → α → Prop} {p : α → Bool} :
    ∀ {l : List α}, List.Pairwise R l →
      (∀ a b, a ∈ l → b ∈ l → R a b → p a = false → p b = false) →
      l.takeWhile p = l.filter p := by
  intro l
  induction l with
  | nil => intro _ _; rfl
  | cons a l ih =>
    intro hpw hup
    by_cases hpa : p a = true
    · rw [List.takeWhile_cons_of_pos hpa, List.filter_cons_of_pos hpa]
      rw [ih hpw.of_cons (fun x y hx hy => hup x y (List.mem_cons_of_mem _ hx)
        (List.mem_cons_of_mem _ hy))]
    · have hpa' : p a = false := by
        rw [← Bool.not_eq_true]
        exact hpa
      rw [List.takeWhile_cons_of_neg (by simp [hpa']), List.filter_cons_of_neg (by simp [hpa'])]
      have hall : ∀ b ∈ l, p b = false := fun b hb =>
        hup a b (List.mem_cons_self _ _) (List.mem_cons_of_mem _ hb)
          (List.rel_of_pairwise_cons hpw hb) hpa'
      rw [List.filter_eq_nil_iff.mpr (fun b hb => by simp [hall b hb])]

end KjTable

namespace KjTable

theorem treeSeek_eq_filter {T : Type} {cb : TreeCb T} {rows : List T} {lst : List Nat}
    (inv : TreeInv cb rows lst) (k : cb.Key) :
    treeSeek cb rows lst k = lst.filter (fun m => !treeBefore cb rows m k) := by
  unfold treeSeek
  refine dropWhile_eq_filter_of_sorted inv.sorted ?_
  intro a b ha hb hrel hpb
  obtain ⟨rb, hrb, hltb⟩ := treeBefore_true.mp hpb
  have halt := inv.bounded a ha
  have hra : rows[a]? = some (rows[a]) := List.getElem?_eq_getElem halt
  have hab := hrel _ rb hra hrb
  refine treeBefore_true.mpr ⟨rows[a], hra, ?_⟩
  letI := cb.ord
  exact lt_trans hab hltb

theorem treeRange_eq_filter {T : Type} {cb : TreeCb T} {rows : List T} {lst : List Nat}
    (inv : TreeInv cb rows lst) (lo hi : cb.Key) :
    treeRange cb rows lst lo hi =
      lst.filter (fun m => treeBefore cb rows m hi && !treeBefore cb rows m lo) := by
  unfold treeRange
  have hdrop : lst.dropWhile (fun m => treeBefore cb rows m lo) =
      lst.filter (fun m => !treeBefore cb rows m lo) := by
    refine dropWhile_eq_filter_of_sorted inv.sorted ?_
    intro a b ha hb hrel hpb
    obtain ⟨rb, hrb, hltb⟩ := treeBefore_true.mp hpb
    have halt := inv.bounded a ha
    have hra : rows[a]? = some (rows[a]) := List.getElem?_eq_getElem halt
    have hab := hrel _ rb hra hrb
    refine treeBefore_true.mpr ⟨rows[a], hra, ?_⟩
    letI := cb.ord
    exact lt_trans hab hltb
  rw [hdrop]
  have htake : (lst.filter (fun m => !treeBefore cb rows m lo)).takeWhile
      (fun m => treeBefore cb rows m hi) =
      (lst.filter (fun m => !treeBefore cb rows m lo)).filter
        (fun m => treeBefore cb rows m hi) := by
    refine takeWhile_eq_filter_of_sorted (inv.sorted.filter _) ?_
    intro a b ha hb hrel hpa
    have ha' := List.mem_of_mem_filter ha
    have hb' := List.mem_of_mem_filter hb
    have halt := inv.bounded a ha'
    have hblt := inv.bounded b hb'
    have hra : rows[a]? = some (rows[a]) := List.getElem?_eq_getElem halt
    have hrb : rows[b]? = some (rows[b]) := List.getElem?_eq_getElem hblt
    have hab := hrel _ _ hra hrb
    rw [(treeBefore_false hra)] at hpa
    rw [(treeBefore_false hrb)]
    intro habs
    letI := cb.ord
    exact hpa (lt_trans hab habs)
  rw [htake, List.filter_filter]

end KjTable

namespace KjTable

theorem getElem?_dropLast_lt {T : Type} {l : List T} {n : Nat} (h : n < l.length - 1) :
    l.dropLast[n]? = l[n]? := by
  rw [List.dropLast_eq_take, List.getElem?_take_of_lt h]

theorem TreeInv_rebase {T : Type} {cb : TreeCb T} {rows rowsB : List T} {lst : List Nat}
    (inv : TreeInv cb rows lst)
    (hlk : ∀ m ∈ lst, rowsB[m]? = rows[m]? ∧ m < rowsB.length) :
    TreeInv cb rowsB lst := by
  constructor
  · intro m hm
    exact (hlk m hm).2
  · refine inv.sorted.imp_of_mem ?_
    intro a b ha hb hrel ra rb hra hrb
    rw [(hlk a ha).1] at hra
    rw [(hlk b hb).1] at hrb
    exact hrel ra rb hra hrb

theorem TreeInv_append {T : Type} {cb : TreeCb T} {rows : List T} {lst : List Nat}
    (inv : TreeInv cb rows lst) (r : T) : TreeInv cb (rows ++ [r]) lst := by
  refine TreeInv_rebase inv ?_
  intro m hm
  have := inv.bounded m hm
  refine ⟨getElem?_append_lt this, ?_⟩
  rw [List.length_append]
  omega

theorem matchesAt_append {T : Type} {cb : KeyCb T} {rows : List T} {r : T} {m : Nat}
    {k : cb.Key} (hm : m < rows.length) :
    matchesAt cb (rows ++ [r]) m k = matchesAt cb rows m k := by
  unfold matchesAt
  rw [getElem?_append_lt hm]

theorem Index_insertRow_none {T : Type} {rows : List T} {r : T} {idx idx' : Index T}
    (hwf : Index.Wf rows idx)
    (h : Index.insertRow (rows ++ [r]) rows.length idx = (none, idx')) :
    Index.Wf (rows ++ [r]) idx' ∧
      (∀ x : Nat, Index.memRow idx' x = (Index.memRow idx x || decide (x = rows.length))) ∧
      Index.Wf rows (Index.eraseRow (rows ++ [r]) rows.length idx') ∧
      (∀ x : Nat, Index.memRow (Index.eraseRow (rows ++ [r]) rows.length idx') x =
        Index.memRow idx x) := by
  cases idx with
  | hash cb slots =>
    obtain ⟨inv, hcompl⟩ := hwf
    have hr2n : (rows ++ [r])[rows.length]? = some r := List.getElem?_concat_length _ _
    unfold Index.insertRow at h
    rw [hr2n] at h
    have h1 : (hashInsert cb (rows ++ [r]) slots rows.length (cb.keyForRow r)).1 = none := by
      have := congrArg Prod.fst h
      simpa using this
    have h2 : idx' =
        Index.hash cb (hashInsert cb (rows ++ [r]) slots rows.length (cb.keyForRow r)).2 := by
      have := congrArg Prod.snd h
      simpa using this.symm
    have inv2 := HashInv_append inv r
    have hnodup : ∀ m : Nat, hasRow slots m = true →
        matchesAt cb.toKeyCb (rows ++ [r]) m (cb.keyForRow r) = false := by
      intro m hm
      by_contra habs
      rw [Bool.not_eq_false] at habs
      obtain ⟨s', heq, _, _⟩ := hashInsert_dup inv2 hm habs rows.length
      rw [heq] at h1
      cases h1
    obtain ⟨slots', heq, inv', hcont⟩ := hashInsert_fresh inv2 hr2n rfl hnodup
    rw [heq] at h2
    subst h2
    have hlen2 : (rows ++ [r]).length = rows.length + 1 := by
      simp
    have hwf2 : Index.Wf (rows ++ [r]) (Index.hash cb slots') := by
      refine ⟨inv', fun x => ?_⟩
      rw [hcont x, hlen2]
      have hcx := hcompl x
      simp only [Bool.or_eq_true, decide_eq_true_eq, hcx]
      omega
    have hhasn : hasRow slots' rows.length = true := by
      rw [hcont]
      simp
    obtain ⟨q, hq⟩ := hasRow_iff.mp hhasn
    have herase : Index.eraseRow (rows ++ [r]) rows.length (Index.hash cb slots') =
        Index.hash cb (slots'.set q Slot.tomb) := by
      simp only [Index.eraseRow, hr2n]
      rw [hashErase_spec inv' hq hr2n rfl]
    have hcont2 : ∀ x : Nat, hasRow (slots'.set q Slot.tomb) x = hasRow slots x := by
      intro x
      rw [hasRow_set_tomb hq (fun q' hq' => occ_unique inv' hq' hq) x, hcont x]
      rw [Bool.eq_iff_iff]
      simp only [Bool.and_eq_true, Bool.or_eq_true, decide_eq_true_eq, Bool.not_eq_true',
        decide_eq_false_iff_not]
      constructor
      · rintro ⟨hor, hne⟩
        rcases hor with hx | hx
        · exact hx
        · exact absurd hx hne
      · intro hx
        have := (hcompl x).mp hx
        exact ⟨Or.inl hx, by omega⟩
    have hinvE : HashInv cb rows (slots'.set q Slot.tomb) := by
      refine HashInv_unappend (HashInv_set_tomb inv' hq) ?_
      intro m hm
      rw [hcont2 m] at hm
      exact (hcompl m).mp hm
    refine ⟨hwf2, fun x => hcont x, ?_, fun x => ?_⟩
    · rw [herase]
      exact ⟨hinvE, fun x => by rw [hcont2 x]; exact hcompl x⟩
    · rw [herase]
      exact hcont2 x
  | tree cb lst =>
    obtain ⟨inv, hcompl⟩ := hwf
    have hr2n : (rows ++ [r])[rows.length]? = some r := List.getElem?_concat_length _ _
    unfold Index.insertRow at h
    rw [hr2n] at h
    have h1 : (treeInsert cb (rows ++ [r]) lst rows.length (cb.keyForRow r)).1 = none := by
      have := congrArg Prod.fst h
      simpa using this
    have h2 : idx' =
        Index.tree cb (treeInsert cb (rows ++ [r]) lst rows.length (cb.keyForRow r)).2 := by
      have := congrArg Prod.snd h
      simpa using this.symm
    have inv2 := TreeInv_append inv r
    have hnomatch : ∀ m ∈ lst, treeMatches cb (rows ++ [r]) m (cb.keyForRow r) = false := by
      intro m hm
      by_contra habs
      rw [Bool.not_eq_false] at habs
      have := treeInsert_dup inv2 hm habs rows.length
      rw [this] at h1
      cases h1
    obtain ⟨heq, inv', hmem⟩ := treeInsert_fresh inv2 hr2n rfl hnomatch
    rw [heq] at h2
    subst h2
    have hlen2 : (rows ++ [r]).length = rows.length + 1 := by
      simp
    have hwf2 : Index.Wf (rows ++ [r])
        (Index.tree cb (treeInsertSorted cb (rows ++ [r]) rows.length (cb.keyForRow r) lst)) := by
      refine ⟨inv', fun x => ?_⟩
      rw [hmem x, hlen2]
      have hcx := hcompl x
      rw [hcx]
      omega
    have herase : Index.eraseRow (rows ++ [r]) rows.length
        (Index.tree cb (treeInsertSorted cb (rows ++ [r]) rows.length (cb.keyForRow r) lst)) =
        Index.tree cb
          (treeErase (treeInsertSorted cb (rows ++ [r]) rows.length (cb.keyForRow r) lst)
            rows.length) := rfl
    obtain ⟨invE2, hmemE⟩ := treeErase_spec inv' rows.length
    have hmemE2 : ∀ x : Nat,
        (x ∈ treeErase (treeInsertSorted cb (rows ++ [r]) rows.length (cb.keyForRow r) lst)
          rows.length) ↔ x ∈ lst := by
      intro x
      rw [hmemE x, hmem x]
      constructor
      · rintro ⟨hor, hne⟩
        rcases hor with hx | hx
        · exact hx
        · exact absurd hx hne
      · intro hx
        have := (hcompl x).mp hx
        exact ⟨Or.inl hx, by omega⟩
    have hinvE : TreeInv cb rows
        (treeErase (treeInsertSorted cb (rows ++ [r]) rows.length (cb.keyForRow r) lst)
          rows.length) := by
      refine TreeInv_rebase invE2 ?_
      intro m hm
      have hmlt := (hcompl m).mp ((hmemE2 m).mp hm)
      exact ⟨(getElem?_append_lt hmlt).symm, hmlt⟩
    refine ⟨hwf2, fun x => ?_, ?_, fun x => ?_⟩
    · unfold Index.memRow
      rw [Bool.eq_iff_iff]
      simp only [decide_eq_true_eq, Bool.or_eq_true]
      rw [hmem x]
    · rw [herase]
      exact ⟨hinvE, fun x => (hmemE2 x).trans (hcompl x)⟩
    · rw [herase]
      unfold Index.memRow
      rw [Bool.eq_iff_iff]
      simp only [decide_eq_true_eq]
      exact hmemE2 x

end KjTable

namespace KjTable

theorem Index_insertRow_some {T : Type} {rows : List T} {r : T} {idx idx' : Index T} {m0 : Nat}
    (hwf : Index.Wf rows idx)
    (h : Index.insertRow (rows ++ [r]) rows.length idx = (some m0, idx')) :
    Index.Wf rows idx' ∧ (∀ x : Nat, Index.memRow idx' x = Index.memRow idx x) ∧
      m0 < rows.length := by
  cases idx with
  | hash cb slots =>
    obtain ⟨inv, hcompl⟩ := hwf
    have hr2n : (rows ++ [r])[rows.length]? = some r := List.getElem?_concat_length _ _
    unfold Index.insertRow at h
    rw [hr2n] at h
    have h1 : (hashInsert cb (rows ++ [r]) slots rows.length (cb.keyForRow r)).1 = some m0 := by
      have := congrArg Prod.fst h
      simpa using this
    have h2 : idx' =
        Index.hash cb (hashInsert cb (rows ++ [r]) slots rows.length (cb.keyForRow r)).2 := by
      have := congrArg Prod.snd h
      simpa using this.symm
    have inv2 := HashInv_append inv r
    by_cases hdup : ∃ m1 : Nat, hasRow slots m1 = true ∧
        matchesAt cb.toKeyCb (rows ++ [r]) m1 (cb.keyForRow r) = true
    · obtain ⟨m1, hm1, hk1⟩ := hdup
      obtain ⟨s', heq, inv', hcont⟩ := hashInsert_dup inv2 hm1 hk1 rows.length
      rw [heq] at h1 h2
      have hm01 : m0 = m1 := by
        exact Option.some_inj.mp h1.symm
      subst hm01
      subst h2
      have hwf' : Index.Wf rows (Index.hash cb (some m0, s').2) := by
        refine ⟨?_, fun x => ?_⟩
        · refine HashInv_unappend inv' ?_
          intro m hm
          rw [hcont m] at hm
          exact (hcompl m).mp hm
        · rw [hcont x]
          exact hcompl x
      exact ⟨hwf', fun x => hcont x, (hcompl m0).mp hm1⟩
    · exfalso
      have hnodup : ∀ m : Nat, hasRow slots m = true →
          matchesAt cb.toKeyCb (rows ++ [r]) m (cb.keyForRow r) = false := by
        intro m hm
        by_contra habs
        rw [Bool.not_eq_false] at habs
        exact hdup ⟨m, hm, habs⟩
      obtain ⟨slots', heq, _, _⟩ := hashInsert_fresh inv2 hr2n rfl hnodup
      rw [heq] at h1
      cases h1
  | tree cb lst =>
    obtain ⟨inv, hcompl⟩ := hwf
    have hr2n : (rows ++ [r])[rows.length]? = some r := List.getElem?_concat_length _ _
    unfold Index.insertRow at h
    rw [hr2n] at h
    have h1 : (treeInsert cb (rows ++ [r]) lst rows.length (cb.keyForRow r)).1 = some m0 := by
      have := congrArg Prod.fst h
      simpa using this
    have h2 : idx' =
        Index.tree cb (treeInsert cb (rows ++ [r]) lst rows.length (cb.keyForRow r)).2 := by
      have := congrArg Prod.snd h
      simpa using this.symm
    have inv2 := TreeInv_append inv r
    by_cases hdup : ∃ m1, m1 ∈ lst ∧
        treeMatches cb (rows ++ [r]) m1 (cb.keyForRow r) = true
    · obtain ⟨m1, hm1, hk1⟩ := hdup
      have heq := treeInsert_dup inv2 hm1 hk1 rows.length
      rw [heq] at h1 h2
      have hm01 : m0 = m1 := by
        exact Option.some_inj.mp h1.symm
      subst hm01
      subst h2
      exact ⟨⟨inv, hcompl⟩, fun x => rfl, (hcompl m0).mp hm1⟩
    · exfalso
      have hnomatch : ∀ m ∈ lst, treeMatches cb (rows ++ [r]) m (cb.keyForRow r) = false := by
        intro m hm
        by_contra habs
        rw [Bool.not_eq_false] at habs
        exact hdup ⟨m, hm, habs⟩
      obtain ⟨heq, _, _⟩ := treeInsert_fresh inv2 hr2n rfl hnomatch
      rw [heq] at h1
      cases h1

theorem insertAllIdx_ok {T : Type} {rows : List T} {r : T} :
    ∀ {idxs idxs' : List (Index T)},
      (∀ idx ∈ idxs, Index.Wf rows idx) →
      insertAllIdx (rows ++ [r]) rows.length idxs = (idxs', none) →
      (∀ idx' ∈ idxs', Index.Wf (rows ++ [r]) idx') ∧
        List.Forall₂ (fun idx idx' => ∀ x : Nat,
          Index.memRow idx' x = (Index.memRow idx x || decide (x = rows.length))) idxs idxs' := by
  intro idxs
  induction idxs with
  | nil =>
    intro idxs' _ h
    unfold insertAllIdx at h
    have : idxs' = [] := (Prod.mk.injEq _ _ _ _).mp h.symm |>.1
    subst this
    exact ⟨by simp, List.Forall₂.nil⟩
  | cons idx rest ih =>
    intro idxs' hwf h
    unfold insertAllIdx at h
    cases hins : Index.insertRow (rows ++ [r]) rows.length idx with
    | mk d idx1 =>
      rw [hins] at h
      cases d with
      | some m => simp at h
      | none =>
        cases hrec : insertAllIdx (rows ++ [r]) rows.length rest with
        | mk rest' d2 =>
          rw [hrec] at h
          cases d2 with
          | some m => simp at h
          | none =>
            simp only [Prod.mk.injEq] at h
            obtain ⟨hidxs, _⟩ := h
            subst hidxs
            obtain ⟨hwf1, hcont1, _, _⟩ :=
              Index_insertRow_none (hwf idx (List.mem_cons_self _ _)) hins
            obtain ⟨hwfr, hf2⟩ := ih (fun i hi => hwf i (List.mem_cons_of_mem _ hi)) hrec
            refine ⟨?_, List.Forall₂.cons hcont1 hf2⟩
            intro i hi
            rcases List.mem_cons.mp hi with rfl | hi'
            · exact hwf1
            · exact hwfr i hi'

theorem insertAllIdx_fail {T : Type} {rows : List T} {r : T} {m : Nat} :
    ∀ {idxs idxs' : List (Index T)},
      (∀ idx ∈ idxs, Index.Wf rows idx) →
      insertAllIdx (rows ++ [r]) rows.length idxs = (idxs', some m) →
      (∀ idx' ∈ idxs', Index.Wf rows idx') ∧
        List.Forall₂ (fun idx idx' => ∀ x : Nat,
          Index.memRow idx' x = Index.memRow idx x) idxs idxs' ∧
        m < rows.length := by
  intro idxs
  induction idxs with
  | nil =>
    intro idxs' _ h
    unfold insertAllIdx at h
    simp at h
  | cons idx rest ih =>
    intro idxs' hwf h
    unfold insertAllIdx at h
    cases hins : Index.insertRow (rows ++ [r]) rows.length idx with
    | mk d idx1 =>
      rw [hins] at h
      cases d with
      | some m1 =>
        simp only [Prod.mk.injEq, Option.some.injEq] at h
        obtain ⟨hidxs, hm1⟩ := h
        subst hidxs
        subst hm1
        obtain ⟨hwf1, hcont1, hmlt⟩ :=
          Index_insertRow_some (hwf idx (List.mem_cons_self _ _)) hins
        refine ⟨?_, List.Forall₂.cons hcont1 ?_, hmlt⟩
        · intro i hi
          rcases List.mem_cons.mp hi with rfl | hi'
          · exact hwf1
          · exact hwf i (List.mem_cons_of_mem _ hi')
        · refine List.forall₂_same.mpr ?_
          intro i _ x
          rfl
      | none =>
        cases hrec : insertAllIdx (rows ++ [r]) rows.length rest with
        | mk rest' d2 =>
          rw [hrec] at h
          cases d2 with
          | some m2 =>
            simp only [Prod.mk.injEq, Option.some.injEq] at h
            obtain ⟨hidxs, hm2⟩ := h
            subst hidxs
            subst hm2
            obtain ⟨_, _, hwfE, hcontE⟩ :=
              Index_insertRow_none (hwf idx (List.mem_cons_self _ _)) hins
            obtain ⟨hwfr, hf2, hmlt⟩ := ih (fun i hi => hwf i (List.mem_cons_of_mem _ hi)) hrec
            refine ⟨?_, List.Forall₂.cons hcontE hf2, hmlt⟩
            intro i hi
            rcases List.mem_cons.mp hi with rfl | hi'
            · exact hwfE
            · exact hwfr i hi'
          | none => simp at h

theorem Table_insert_ok {T : Type} {t t' : Table T} {r : T}
    (hwf : t.Wf) (h : t.insert r = (t', none)) :
    t'.Wf ∧ t'.rows = t.rows ++ [r] := by
  unfold Table.insert at h
  cases hall : insertAllIdx (t.rows ++ [r]) t.rows.length t.idxs with
  | mk idxs' d =>
    rw [hall] at h
    cases d with
    | some m => simp at h
    | none =>
      simp only [Prod.mk.injEq] at h
      obtain ⟨ht, _⟩ := h
      subst ht
      obtain ⟨hwf', _⟩ := insertAllIdx_ok hwf hall
      exact ⟨fun i hi => hwf' i hi, rfl⟩

theorem Table_insert_fail {T : Type} {t t' : Table T} {r : T} {m : Nat}
    (hwf : t.Wf) (h : t.insert r = (t', some m)) :
    t'.Wf ∧ t'.rows = t.rows ∧ m < t.rows.length ∧
      List.Forall₂ (fun idx idx' => ∀ x : Nat,
        Index.memRow idx' x = Index.memRow idx x) t.idxs t'.idxs := by
  unfold Table.insert at h
  cases hall : insertAllIdx (t.rows ++ [r]) t.rows.length t.idxs with
  | mk idxs' d =>
    rw [hall] at h
    cases d with
    | none => simp at h
    | some m1 =>
      simp only [Prod.mk.injEq, Option.some.injEq] at h
      obtain ⟨ht, hm⟩ := h
      subst ht
      subst hm
      obtain ⟨hwf', hf2, hmlt⟩ := insertAllIdx_fail hwf hall
      exact ⟨fun i hi => hwf' i hi, rfl, hmlt, hf2⟩

end KjTable

namespace KjTable

theorem HashInv_rebase {T : Type} {cb : HashCb T} {rows rowsB : List T} {slots : List Slot}
    (inv : HashInv cb rows slots)
    (hlk : ∀ (m p : Nat), slots[p]? = some (Slot.occ m) →
      rowsB[m]? = rows[m]? ∧ m < rowsB.length) :
    HashInv cb rowsB slots := by
  constructor
  · intro p m hp
    exact (hlk m p hp).2
  · intro p1 p2 m m' h1 h2 hne r1 r2 hr1 hr2
    rw [(hlk m p1 h1).1] at hr1
    rw [(hlk m' p2 h2).1] at hr2
    exact inv.uniq p1 p2 m m' h1 h2 hne r1 r2 hr1 hr2
  · intro p m hp r'' hr''
    rw [(hlk m p hp).1] at hr''
    exact inv.path p m hp r'' hr''
  · exact inv.load

theorem dropLast_set_last {T : Type} (l : List T) (v : T) :
    (l.set (l.length - 1) v).dropLast = l.dropLast := by
  apply List.ext_getElem?
  intro m
  by_cases hm : m < l.length - 1
  · rw [getElem?_dropLast_lt (by simpa using hm), getElem?_dropLast_lt hm]
    exact List.getElem?_set_ne (by omega)
  · have h1 : (l.set (l.length - 1) v).dropLast.length ≤ m := by
      simp [List.length_dropLast, List.length_set]
      omega
    have h2 : l.dropLast.length ≤ m := by
      simp [List.length_dropLast]
      omega
    rw [List.getElem?_eq_none h1, List.getElem?_eq_none h2]

theorem Index_erase_last {T : Type} {rows : List T} {idx : Index T}
    (hwf : Index.Wf rows idx) (hpos : 0 < rows.length) :
    Index.Wf rows.dropLast (Index.eraseRow rows (rows.length - 1) idx) := by
  have hlenD : rows.dropLast.length = rows.length - 1 := List.length_dropLast rows
  have hlkD : ∀ m : Nat, m < rows.length - 1 → rows.dropLast[m]? = rows[m]? :=
    fun m hm => getElem?_dropLast_lt hm
  cases idx with
  | hash cb slots =>
    obtain ⟨inv, hcompl⟩ := hwf
    have hnlt : rows.length - 1 < rows.length := by omega
    have hrn : rows[rows.length - 1]? = some (rows[rows.length - 1]) :=
      List.getElem?_eq_getElem hnlt
    obtain ⟨q, hq⟩ := hasRow_iff.mp ((hcompl _).mpr hnlt)
    have herase : Index.eraseRow rows (rows.length - 1) (Index.hash cb slots) =
        Index.hash cb (slots.set q Slot.tomb) := by
      simp only [Index.eraseRow, hrn]
      rw [hashErase_spec inv hq hrn rfl]
    rw [herase]
    have hcont : ∀ x : Nat,
        hasRow (slots.set q Slot.tomb) x = (hasRow slots x && !decide (x = rows.length - 1)) :=
      hasRow_set_tomb hq (fun q' hq' => occ_unique inv hq' hq)
    refine ⟨?_, fun x => ?_⟩
    · refine HashInv_rebase (HashInv_set_tomb inv hq) ?_
      intro m p hp
      have hmem : hasRow (slots.set q Slot.tomb) m = true := hasRow_iff.mpr ⟨p, hp⟩
      rw [hcont m] at hmem
      simp only [Bool.and_eq_true, Bool.not_eq_true', decide_eq_false_iff_not] at hmem
      obtain ⟨hmold, hmne⟩ := hmem
      have hmlt := (hcompl m).mp hmold
      have hmlt1 : m < rows.length - 1 := by omega
      rw [hlenD]
      exact ⟨hlkD m hmlt1, hmlt1⟩
    · rw [hcont x, hlenD]
      simp only [Bool.and_eq_true, Bool.not_eq_true', decide_eq_false_iff_not, hcompl x]
      omega
  | tree cb lst =>
    obtain ⟨inv, hcompl⟩ := hwf
    obtain ⟨invE, hmemE⟩ := treeErase_spec inv (rows.length - 1)
    refine ⟨?_, fun x => ?_⟩
    · refine TreeInv_rebase invE ?_
      intro m hm
      rw [hmemE m] at hm
      have hmlt := (hcompl m).mp hm.1
      have hmlt1 : m < rows.length - 1 := by
        have := hm.2
        omega
      rw [hlenD]
      exact ⟨hlkD m hmlt1, hmlt1⟩
    · show x ∈ treeErase lst (rows.length - 1) ↔ x < rows.dropLast.length
      rw [hmemE x, hlenD, hcompl x]
      omega

theorem Index_erase_move {T : Type} {rows : List T} {idx : Index T} {n : Nat} {lastRow : T}
    (hwf : Index.Wf rows idx) (hn : n < rows.length - 1)
    (hlast : rows[rows.length - 1]? = some lastRow) :
    Index.Wf ((rows.set n lastRow).dropLast)
      (Index.moveRow ((rows.set n lastRow).dropLast) (rows.length - 1) n
        (Index.eraseRow rows n idx)) := by
  have hnlt : n < rows.length := by omega
  have hlenS : (rows.set n lastRow).length = rows.length := List.length_set rows n lastRow
  have hlenD : ((rows.set n lastRow).dropLast).length = rows.length - 1 := by
    rw [List.length_dropLast, hlenS]
  have hlkD : ∀ m : Nat, m < rows.length - 1 → m ≠ n →
      ((rows.set n lastRow).dropLast)[m]? = rows[m]? := by
    intro m hm hne
    rw [getElem?_dropLast_lt (by rw [hlenS]; exact hm)]
    exact List.getElem?_set_ne (by omega)
  have hlkN : ((rows.set n lastRow).dropLast)[n]? = some lastRow := by
    rw [getElem?_dropLast_lt (by rw [hlenS]; exact hn)]
    simp [List.getElem?_set_self, hnlt]
  cases idx with
  | hash cb slots =>
    obtain ⟨inv, hcompl⟩ := hwf
    have hrn : rows[n]? = some (rows[n]) := List.getElem?_eq_getElem hnlt
    obtain ⟨q, hq⟩ := hasRow_iff.mp ((hcompl _).mpr hnlt)
    have herase : Index.eraseRow rows n (Index.hash cb slots) =
        Index.hash cb (slots.set q Slot.tomb) := by
      simp only [Index.eraseRow, hrn]
      rw [hashErase_spec inv hq hrn rfl]
    rw [herase]
    have hcont1 : ∀ x : Nat,
        hasRow (slots.set q Slot.tomb) x = (hasRow slots x && !decide (x = n)) :=
      hasRow_set_tomb hq (fun q' hq' => occ_unique inv hq' hq)
    have inv1 : HashInv cb rows (slots.set q Slot.tomb) := HashInv_set_tomb inv hq
    have hlastmem : hasRow (slots.set q Slot.tomb) (rows.length - 1) = true := by
      rw [hcont1]
      have h1 : hasRow slots (rows.length - 1) = true := (hcompl _).mpr (by omega)
      simp [h1]
      omega
    obtain ⟨q2, hq2⟩ := hasRow_iff.mp hlastmem
    have hfresh : hasRow (slots.set q Slot.tomb) n = false := by
      rw [hcont1]
      simp
    obtain ⟨hmove, inv2, hcont2, _, _⟩ :=
      hashMove_spec inv1 hq2 hlast rfl hlkN
        (by
          intro m p hp hmne
          have hmem : hasRow (slots.set q Slot.tomb) m = true := hasRow_iff.mpr ⟨p, hp⟩
          rw [hcont1 m] at hmem
          simp only [Bool.and_eq_true, Bool.not_eq_true', decide_eq_false_iff_not] at hmem
          obtain ⟨hmold, hmnen⟩ := hmem
          have hmlt := (hcompl m).mp hmold
          exact hlkD m (by omega) hmnen)
        hfresh
    have hmoveRow : Index.moveRow ((rows.set n lastRow).dropLast) (rows.length - 1) n
        (Index.hash cb (slots.set q Slot.tomb)) =
        Index.hash cb ((slots.set q Slot.tomb).set q2 (Slot.occ n)) := by
      simp only [Index.moveRow, hlkN]
      rw [hmove]
    rw [hmoveRow]
    refine ⟨inv2, fun x => ?_⟩
    show hasRow ((slots.set q Slot.tomb).set q2 (Slot.occ n)) x = true ↔
      x < ((rows.set n lastRow).dropLast).length
    rw [hcont2 x, hcont1 x, hlenD]
    simp only [Bool.or_eq_true, Bool.and_eq_true, Bool.not_eq_true', decide_eq_false_iff_not,
      decide_eq_true_eq, hcompl x]
    omega
  | tree cb lst =>
    obtain ⟨inv, hcompl⟩ := hwf
    obtain ⟨invE, hmemE⟩ := treeErase_spec inv n
    have hlastmem : (rows.length - 1) ∈ treeErase lst n := by
      rw [hmemE]
      exact ⟨(hcompl _).mpr (by omega), by omega⟩
    obtain ⟨invM, hmemM⟩ :=
      treeMove_spec invE hlast hlkN
        (by
          intro m hm hmne
          rw [hmemE m] at hm
          have hmlt := (hcompl m).mp hm.1
          exact hlkD m (by omega) hm.2)
    refine ⟨invM, fun x => ?_⟩
    show x ∈ treeMove (treeErase lst n) (rows.length - 1) n ↔ _
    rw [hmemM x, hlenD]
    simp only [hmemE]
    constructor
    · rintro (⟨⟨hx1, hx2⟩, hx3⟩ | ⟨_, rfl⟩)
      · have := (hcompl x).mp hx1
        omega
      · omega
    · intro hx
      by_cases hxn : x = n
      · exact Or.inr ⟨(hmemE _).mp hlastmem, hxn⟩
      · refine Or.inl ⟨⟨?_, hxn⟩, by omega⟩
        exact (hcompl x).mpr (by omega)

theorem Table_erase_wf {T : Type} {t : Table T} (hwf : t.Wf) (n : Nat) :
    (t.erase n).Wf := by
  unfold Table.erase
  by_cases hn : n < t.rows.length
  · rw [if_pos hn]
    by_cases hlastc : n = t.rows.length - 1
    · rw [if_pos hlastc]
      intro idx' hidx'
      obtain ⟨i, hi, rfl⟩ := List.mem_map.mp hidx'
      rw [hlastc]
      exact Index_erase_last (hwf i hi) (by omega)
    · rw [if_neg hlastc]
      have hpos : t.rows.length - 1 < t.rows.length := by omega
      have hlast : t.rows[t.rows.length - 1]? = some (t.rows[t.rows.length - 1]) :=
        List.getElem?_eq_getElem hpos
      rw [hlast]
      intro idx' hidx'
      obtain ⟨i1, hi1, rfl⟩ := List.mem_map.mp hidx'
      obtain ⟨i, hi, rfl⟩ := List.mem_map.mp hi1
      exact Index_erase_move (hwf i hi) (by omega) hlast
  · rw [if_neg hn]
    exact hwf

theorem Table_erase_rows {T : Type} {t : Table T} {n : Nat} (hn : n < t.rows.length)
    {lastRow : T} (hlast : t.rows[t.rows.length - 1]? = some lastRow) :
    (t.erase n).rows = (t.rows.set n lastRow).dropLast := by
  unfold Table.erase
  rw [if_pos hn]
  by_cases hlastc : n = t.rows.length - 1
  · rw [if_pos hlastc]
    show t.rows.dropLast = _
    rw [hlastc, dropLast_set_last]
  · rw [if_neg hlastc, hlast]

end KjTable

namespace KjTable

theorem Index_findOwn {T : Type} {rows : List T} {idx : Index T}
    (hwf : Index.Wf rows idx) {n : Nat} (hn : n < rows.length) :
    Index.findOwnRow rows n idx = some n := by
  have hr : rows[n]? = some (rows[n]) := List.getElem?_eq_getElem hn
  cases idx with
  | hash cb slots =>
    obtain ⟨inv, hcompl⟩ := hwf
    simp only [Index.findOwnRow, hr]
    exact hashFind_eq_some inv ((hcompl n).mpr hn) (matchesAt_true.mpr ⟨_, hr, rfl⟩)
  | tree cb lst =>
    obtain ⟨inv, hcompl⟩ := hwf
    simp only [Index.findOwnRow, hr]
    exact (treeFind_iff inv _ n).mpr ⟨(hcompl n).mpr hn, treeMatches_true.mpr ⟨_, hr, rfl⟩⟩

theorem Index_empty_hash_wf {T : Type} (cb : HashCb T) :
    Index.Wf ([] : List T) (Index.hash cb []) := by
  refine ⟨⟨?_, ?_, ?_, ?_⟩, ?_⟩
  · intro p m hp
    simp at hp
  · intro p q m m' hp
    simp at hp
  · intro p m hp
    simp at hp
  · simp [nOcc, nTomb]
  · intro m
    simp [hasRow]

theorem Index_empty_tree_wf {T : Type} (cb : TreeCb T) :
    Index.Wf ([] : List T) (Index.tree cb []) := by
  refine ⟨⟨?_, ?_⟩, ?_⟩
  · intro m hm
    simp at hm
  · exact List.Pairwise.nil
  · intro m
    simp

theorem Index_clear_wf {T : Type} (idx : Index T) :
    Index.Wf ([] : List T) (Index.clear idx) := by
  cases idx with
  | hash cb slots => exact Index_empty_hash_wf cb
  | tree cb lst => exact Index_empty_tree_wf cb

theorem Table_clear_wf {T : Type} (t : Table T) : (t.clear).Wf := by
  intro idx' h
  obtain ⟨i, _, rfl⟩ := List.mem_map.mp h
  exact Index_clear_wf i

theorem Table_insert_wf {T : Type} {t : Table T} (hwf : t.Wf) (r : T) :
    ((t.insert r).1).Wf := by
  cases h : t.insert r with
  | mk t' d =>
    cases d with
    | none => exact (Table_insert_ok hwf h).1
    | some m => exact (Table_insert_fail hwf h).1

theorem Table_upsert_wf {T : Type} {t : Table T} (hwf : t.Wf) (r : T) :
    ((t.upsert r).1).Wf := by
  cases h : t.insert r with
  | mk t' d =>
    have h1 : (t.upsert r).1 = t' := by
      unfold Table.upsert
      rw [h]
      cases d <;> rfl
    rw [h1]
    cases d with
    | none => exact (Table_insert_ok hwf h).1
    | some m => exact (Table_insert_fail hwf h).1

theorem Table_eraseMatch_wf {T : Type} {t : Table T} (hwf : t.Wf) (i : Fin t.idxs.length)
    (k : (t.idxs.get i).Key) : ((t.eraseMatch i k).1).Wf := by
  unfold Table.eraseMatch
  cases hf : (t.idxs.get i).findKey t.rows k with
  | none => exact hwf
  | some n => exact Table_erase_wf hwf n

theorem Table_findOrCreate_wf {T : Type} {t : Table T} (hwf : t.Wf) (i : Fin t.idxs.length)
    (k : (t.idxs.get i).Key) (ctor : Unit → T) : ((t.findOrCreate i k ctor).1).Wf := by
  unfold Table.findOrCreate
  cases hf : (t.idxs.get i).findKey t.rows k with
  | some n => exact hwf
  | none =>
    cases h : t.insert (ctor ()) with
    | mk t' d =>
      cases d with
      | none => exact (Table_insert_ok hwf h).1
      | some m => exact (Table_insert_fail hwf h).1

theorem Table_eraseAllLoop_wf {T : Type} (p : T → Bool) :
    ∀ (fuel : Nat) (t : Table T) (i cnt : Nat), t.Wf →
      ((Table.eraseAllLoop p fuel t i cnt).1).Wf := by
  intro fuel
  induction fuel with
  | zero =>
    intro t i cnt hwf
    exact hwf
  | succ fuel ih =>
    intro t i cnt hwf
    unfold Table.eraseAllLoop
    cases hr : t.rows[i]? with
    | none => exact hwf
    | some r =>
      show ((if p r = true then Table.eraseAllLoop p fuel (t.erase i) i (cnt + 1)
        else Table.eraseAllLoop p fuel t (i + 1) cnt).1).Wf
      cases hpr : p r with
      | true =>
        rw [if_pos rfl]
        exact ih _ _ _ (Table_erase_wf hwf i)
      | false =>
        rw [if_neg (by simp)]
        exact ih _ _ _ hwf

theorem Table_eraseAll_wf {T : Type} {t : Table T} (hwf : t.Wf) (p : T → Bool) :
    ((t.eraseAll p).1).Wf :=
  Table_eraseAllLoop_wf p _ t 0 0 hwf

end KjTable

namespace KjTable

theorem tEx_wf : tEx.Wf := by
  intro idx h
  simp only [tEx, List.mem_singleton] at h
  rw [h]
  exact Index_empty_hash_wf intHasher

end KjTable

/-- C4: after every mutation (insert, upsert, erase, eraseMatch, eraseAll,
findOrCreate, clear) on a well-formed table, the table stays well-formed
and every index resolves every live row's own key back to exactly that
row number: `I.find(keyForRow(row[n])) = n`. -/
theorem C4_find_own_key {T : Type} {t : KjTable.Table T} (hwf : t.Wf) (m : KjTable.Mutation t) :
    (m.apply).Wf ∧
      ∀ idx ∈ (m.apply).idxs, ∀ n : Nat, n < (m.apply).rows.length →
        KjTable.Index.findOwnRow (m.apply).rows n idx = some n := by
  have hwf' : (m.apply).Wf := by
    cases m with
    | ins r => exact KjTable.Table_insert_wf hwf r
    | ups r => exact KjTable.Table_upsert_wf hwf r
    | ers n => exact KjTable.Table_erase_wf hwf n
    | ersMatch i k => exact KjTable.Table_eraseMatch_wf hwf i k
    | ersAll p => exact KjTable.Table_eraseAll_wf hwf p
    | fOrC i k ctor => exact KjTable.Table_findOrCreate_wf hwf i k ctor
    | clr => exact KjTable.Table_clear_wf t
  exact ⟨hwf', fun idx h n hn => KjTable.Index_findOwn (hwf' idx h) hn⟩

/-- Witness: the invariant theorem applied to a concrete insertion into a
concrete one-index table. -/
theorem C4_find_own_key_witness :
    KjTable.tEx.Wf ∧
      ((KjTable.Mutation.ins 5 : KjTable.Mutation KjTable.tEx).apply).Wf ∧
        ∀ idx ∈ ((KjTable.Mutation.ins 5 : KjTable.Mutation KjTable.tEx).apply).idxs,
          ∀ n : Nat, n < ((KjTable.Mutation.ins 5 : KjTable.Mutation KjTable.tEx).apply).rows.length →
            KjTable.Index.findOwnRow ((KjTable.Mutation.ins 5 : KjTable.Mutation KjTable.tEx).apply).rows
              n idx = some n :=
  ⟨KjTable.tEx_wf, C4_find_own_key KjTable.tEx_wf (KjTable.Mutation.ins 5)⟩

/-- C6: `begin()/end()` iteration yields rows in row-number order (row
storage itself), and `erase` is swap-erase: the last row is relocated
into the erased slot.  Concretely: after inserting "foo", "bar", "baz"
iteration yields ["foo","bar","baz"]; after erasing "foo" via its key,
size is 2 and iteration yields ["baz","bar"]. -/
theorem C6_iteration_swap_erase :
    (∀ (T : Type) (t : KjTable.Table T), t.iter = t.rows) ∧
    (∀ (T : Type) (t : KjTable.Table T) (n : Nat) (lastRow : T), n < t.rows.length →
      t.rows[t.rows.length - 1]? = some lastRow →
      (t.erase n).iter = (t.rows.set n lastRow).dropLast) ∧
    KjTable.c6T.iter = ["foo", "bar", "baz"] ∧
    ((KjTable.c6T.eraseMatch ⟨0, by decide⟩ "foo").1).iter = ["baz", "bar"] ∧
    ((KjTable.c6T.eraseMatch ⟨0, by decide⟩ "foo").1).size = 2 := by
  refine ⟨fun T t => rfl, fun T t n lastRow hn hlast => ?_, by decide, by decide, by decide⟩
  exact KjTable.Table_erase_rows hn hlast

/-- Witness: the swap-erase row equation applied to the concrete
three-row table. -/
theorem C6_iteration_swap_erase_witness :
    0 < KjTable.c6T.rows.length ∧
      KjTable.c6T.rows[KjTable.c6T.rows.length - 1]? = some "baz" ∧
      (KjTable.c6T.erase 0).iter = (KjTable.c6T.rows.set 0 "baz").dropLast :=
  ⟨by decide, by decide,
    C6_iteration_swap_erase.2.1 String KjTable.c6T 0 "baz" (by decide) (by decide)⟩

namespace KjTable

theorem c2T0_wf : c2T0.Wf := by
  intro idx h
  simp only [c2T0, List.mem_cons, List.not_mem_nil, or_false] at h
  rcases h with rfl | rfl
  · exact Index_empty_hash_wf strHasher
  · exact Index_empty_hash_wf lenHasher

theorem c2T_wf : c2T.Wf :=
  Table_insert_wf (Table_insert_wf (Table_insert_wf c2T0_wf "a") "ab") "abc"

end KjTable

set_option maxHeartbeats 1600000 in
/-- C2: an insert (here surfaced through `upsert`) that would duplicate
an existing key on some index leaves the table fully unchanged: rows,
size and every index's contents are as before, including indexes that
had already accepted the row.  Concretely, with a full-string index and
a string-length index holding "a","ab","abc": `upsert "xyz"` reports the
existing row 2 = "abc" with param "xyz", size stays 3, the full-string
index does not contain "xyz", and after erasing "abc" the insert of
"xyz" succeeds. -/
theorem C2_duplicate_insert_rollback :
    (∀ (T : Type) (t t' : KjTable.Table T) (r : T) (m : Nat), t.Wf →
      t.upsert r = (t', .updated m r) →
      t'.rows = t.rows ∧ t'.size = t.size ∧ m < t.rows.length ∧
        List.Forall₂ (fun idx idx' => ∀ x : Nat,
          KjTable.Index.memRow idx' x = KjTable.Index.memRow idx x) t.idxs t'.idxs) ∧
    (KjTable.c2T.upsert "xyz").2 = .updated 2 "xyz" ∧
    KjTable.c2T.rows[2]? = some "abc" ∧
    (KjTable.c2T.upsert "xyz").1 = KjTable.c2TA ∧
    KjTable.c2TA.size = 3 ∧
    KjTable.Table.findAt KjTable.c2TA ⟨0, by decide⟩ "xyz" = none ∧
    (((KjTable.c2TA.eraseMatch ⟨0, by decide⟩ "abc").1).insert "xyz").2 = none := by
  refine ⟨?_, by decide, by decide, rfl, by decide, by decide, by decide⟩
  intro T t t' r m hwf h
  unfold KjTable.Table.upsert at h
  cases hins : t.insert r with
  | mk t'' d =>
    rw [hins] at h
    cases d with
    | none => simp at h
    | some m' =>
      simp only [Prod.mk.injEq, KjTable.UpsertResult.updated.injEq] at h
      obtain ⟨rfl, rfl, -⟩ := h
      obtain ⟨hwf', hrows, hm, hall⟩ := KjTable.Table_insert_fail hwf hins
      exact ⟨hrows, by simp [KjTable.Table.size, hrows], hm, hall⟩

/-- Witness: the rollback theorem applied to the concrete two-index
scenario. -/
theorem C2_duplicate_insert_rollback_witness :
    KjTable.c2T.Wf ∧
      ((KjTable.c2T.upsert "xyz").1).rows = KjTable.c2T.rows ∧
      ((KjTable.c2T.upsert "xyz").1).size = KjTable.c2T.size ∧
      2 < KjTable.c2T.rows.length ∧
      List.Forall₂ (fun idx idx' => ∀ x : Nat,
        KjTable.Index.memRow idx' x = KjTable.Index.memRow idx x)
        KjTable.c2T.idxs ((KjTable.c2T.upsert "xyz").1).idxs := by
  have h : KjTable.c2T.upsert "xyz" = ((KjTable.c2T.upsert "xyz").1, .updated 2 "xyz") := by
    have h2 : (KjTable.c2T.upsert "xyz").2 = .updated 2 "xyz" := by decide
    calc KjTable.c2T.upsert "xyz"
        = ((KjTable.c2T.upsert "xyz").1, (KjTable.c2T.upsert "xyz").2) := rfl
      _ = _ := by rw [h2]
  obtain ⟨h1, h2, h3, h4⟩ :=
    C2_duplicate_insert_rollback.1 String KjTable.c2T _ "xyz" 2 KjTable.c2T_wf h
  exact ⟨KjTable.c2T_wf, h1, h2, h3, h4⟩

set_option maxHeartbeats 1600000 in
/-- C7: `findOrCreate(probe, lazyCtor)`: on a hit the existing row is
returned, the table is unchanged and the constructor is never invoked
(the result does not depend on it, so a second call with the same key
invokes it at most once); on a miss whose constructed row duplicates an
existing key on another index, the duplicate error is raised and the
table state is unchanged.  Concretely over (string, uint) pairs with a
string index and a uint index: creating ("foo",123), re-probing "foo"
with a different constructor returns row 0 unchanged, and probing "bar"
with constructor ("bar",123) raises the duplicate against row 0. -/
theorem C7_findOrCreate :
    (∀ (T : Type) (t : KjTable.Table T) (i : Fin t.idxs.length) (k : (t.idxs.get i).Key)
      (n : Nat) (ctor : Unit → T), KjTable.Table.findAt t i k = some n →
        t.findOrCreate i k ctor = (t, .ok n)) ∧
    (∀ (T : Type) (t t' : KjTable.Table T) (i : Fin t.idxs.length) (k : (t.idxs.get i).Key)
      (ctor : Unit → T) (m : Nat), t.Wf → KjTable.Table.findAt t i k = none →
      t.insert (ctor ()) = (t', some m) →
      t.findOrCreate i k ctor = (t', .error m) ∧ t'.rows = t.rows ∧ t'.size = t.size ∧
        List.Forall₂ (fun idx idx' => ∀ x : Nat,
          KjTable.Index.memRow idx' x = KjTable.Index.memRow idx x) t.idxs t'.idxs) ∧
    KjTable.siT0.findOrCreate ⟨0, by decide⟩ "foo" (fun _ => ("foo", 123)) =
      (KjTable.siTA, .ok 0) ∧
    KjTable.siTA.findOrCreate ⟨0, by decide⟩ "foo" (fun _ => ("other", 999)) =
      (KjTable.siTA, .ok 0) ∧
    KjTable.siTA.findOrCreate ⟨0, by decide⟩ "bar" (fun _ => ("bar", 123)) =
      (KjTable.siTB, .error 0) ∧
    KjTable.siTB.rows = KjTable.siTA.rows ∧
    KjTable.Table.findAt KjTable.siTB ⟨0, by decide⟩ "bar" = none := by
  refine ⟨?_, ?_, rfl, rfl, rfl, rfl, by decide⟩
  · intro T t i k n ctor hfind
    unfold KjTable.Table.findAt at hfind
    unfold KjTable.Table.findOrCreate
    rw [hfind]
  · intro T t t' i k ctor m hwf hfind hins
    unfold KjTable.Table.findAt at hfind
    unfold KjTable.Table.findOrCreate
    rw [hfind, hins]
    obtain ⟨hwf', hrows, hm, hall⟩ := KjTable.Table_insert_fail hwf hins
    exact ⟨rfl, hrows, by simp [KjTable.Table.size, hrows], hall⟩

/-- Witness: the hit case of findOrCreate applied to the concrete pair
table. -/
theorem C7_findOrCreate_witness :
    KjTable.Table.findAt KjTable.siTA ⟨0, by decide⟩ "foo" = some 0 ∧
      KjTable.siTA.findOrCreate ⟨0, by decide⟩ "foo" (fun _ => ("z", 7)) =
        (KjTable.siTA, .ok 0) :=
  ⟨by decide,
    C7_findOrCreate.1 (String × Nat) KjTable.siTA ⟨0, by decide⟩ "foo" 0
      (fun _ => ("z", 7)) (by decide)⟩

namespace KjTable

theorem Table_insertAll_wf {T : Type} :
    ∀ (rs : List T) (t : Table T), t.Wf → (t.insertAll rs).Wf := by
  intro rs
  induction rs with
  | nil =>
    intro t hwf
    exact hwf
  | cons r rs ih =>
    intro t hwf
    exact ih _ (Table_insert_wf hwf r)

theorem c5T0_wf : c5T0.Wf := by
  intro idx h
  simp only [c5T0, List.mem_singleton] at h
  rw [h]
  exact Index_empty_tree_wf strTreeCb

theorem c5T_wf : c5T.Wf :=
  Table_insertAll_wf _ _ c5T0_wf

end KjTable

/-- C5: for a TreeIndex, `range(lower, upper)` yields, in ascending key
order, exactly the rows whose key is ≥ lower and < upper, and
`seek(probe)` yields the rows with key ≥ probe up to the maximum.
Concretely on the key set corge, garply, grault, qux:
range("foo","har") = [garply, grault], range("garply","grault") =
[garply], seek("gorply") = [grault, qux]. -/
theorem C5_tree_range_seek :
    (∀ (T : Type) (cb : KjTable.TreeCb T) (rows : List T) (lst : List Nat),
      KjTable.TreeInv cb rows lst → ∀ lo hi k : cb.Key,
        KjTable.treeRange cb rows lst lo hi =
          lst.filter (fun m =>
            KjTable.treeBefore cb rows m hi && !KjTable.treeBefore cb rows m lo) ∧
        KjTable.treeSeek cb rows lst k =
          lst.filter (fun m => !KjTable.treeBefore cb rows m k) ∧
        List.Pairwise (fun a b => ∀ ra rb, rows[a]? = some ra → rows[b]? = some rb →
          cb.ord.lt (cb.keyForRow ra) (cb.keyForRow rb))
          (KjTable.treeRange cb rows lst lo hi)) ∧
    KjTable.c5T = ⟨["qux", "corge", "grault", "garply"],
      [KjTable.Index.tree KjTable.strTreeCb [1, 3, 2, 0]]⟩ ∧
    (KjTable.treeRange KjTable.strTreeCb KjTable.c5T.rows [1, 3, 2, 0]
      "foo".data "har".data).filterMap (fun n => KjTable.c5T.rows[n]?) =
        ["garply", "grault"] ∧
    (KjTable.treeRange KjTable.strTreeCb KjTable.c5T.rows [1, 3, 2, 0]
      "garply".data "grault".data).filterMap (fun n => KjTable.c5T.rows[n]?) =
        ["garply"] ∧
    (KjTable.treeSeek KjTable.strTreeCb KjTable.c5T.rows [1, 3, 2, 0]
      "gorply".data).filterMap (fun n => KjTable.c5T.rows[n]?) =
        ["grault", "qux"] := by
  refine ⟨?_, rfl, by decide, by decide, by decide⟩
  intro T cb rows lst inv lo hi k
  refine ⟨KjTable.treeRange_eq_filter inv lo hi, KjTable.treeSeek_eq_filter inv k, ?_⟩
  rw [KjTable.treeRange_eq_filter inv lo hi]
  exact inv.sorted.filter _

/-- Witness: the range/seek characterization applied to the concrete
ordered table. -/
theorem C5_tree_range_seek_witness :
    KjTable.TreeInv KjTable.strTreeCb KjTable.c5T.rows [1, 3, 2, 0] ∧
      KjTable.treeSeek KjTable.strTreeCb KjTable.c5T.rows [1, 3, 2, 0] "gorply".data =
        [1, 3, 2, 0].filter
          (fun m => !KjTable.treeBefore KjTable.strTreeCb KjTable.c5T.rows m "gorply".data) := by
  have hmem : KjTable.Index.tree KjTable.strTreeCb [1, 3, 2, 0] ∈ KjTable.c5T.idxs := by
    show KjTable.Index.tree KjTable.strTreeCb [1, 3, 2, 0] ∈
      [KjTable.Index.tree KjTable.strTreeCb [1, 3, 2, 0]]
    exact List.mem_singleton_self _
  have hinv : KjTable.TreeInv KjTable.strTreeCb KjTable.c5T.rows [1, 3, 2, 0] :=
    (KjTable.c5T_wf _ hmem).1
  exact ⟨hinv,
    (C5_tree_range_seek.1 String KjTable.strTreeCb KjTable.c5T.rows [1, 3, 2, 0] hinv
      "gorply".data "gorply".data "gorply".data).2.1⟩

namespace KjTable

theorem take_set_dropLast {T : Type} {l : List T} {i : Nat} (v : T) (h : i < l.length - 1) :
    ((l.set i v).dropLast).take i = l.take i := by
  apply List.ext_getElem?
  intro m
  rw [List.getElem?_take, List.getElem?_take]
  by_cases hm : m < i
  · rw [if_pos hm, if_pos hm, getElem?_dropLast_lt (by rw [List.length_set]; omega),
      List.getElem?_set_ne (by omega)]
  · rw [if_neg hm, if_neg hm]

theorem drop_set_dropLast {T : Type} {l : List T} {i : Nat} (v : T) (h : i < l.length - 1) :
    ((l.set i v).dropLast).drop i = v :: (l.drop (i + 1)).dropLast := by
  apply List.ext_getElem?
  intro m
  rw [List.getElem?_drop]
  cases m with
  | zero =>
    rw [List.getElem?_cons_zero, Nat.add_zero,
      getElem?_dropLast_lt (by rw [List.length_set]; omega)]
    exact List.getElem?_set_self (by omega)
  | succ m' =>
    rw [List.getElem?_cons_succ]
    by_cases hm : m' < l.length - i - 2
    · rw [getElem?_dropLast_lt (by rw [List.length_set]; omega),
        getElem?_dropLast_lt (by rw [List.length_drop]; omega),
        List.getElem?_drop, List.getElem?_set_ne (by omega)]
      congr 1
      omega
    · rw [List.getElem?_eq_none, List.getElem?_eq_none]
      · rw [List.length_dropLast, List.length_drop]
        omega
      · rw [List.length_dropLast, List.length_set]
        omega

theorem drop_dropLast_concat {T : Type} {l : List T} {i : Nat} {v : T}
    (h : i + 1 < l.length) (hlast : l[l.length - 1]? = some v) :
    (l.drop (i + 1)).dropLast ++ [v] = l.drop (i + 1) := by
  have hne : l.drop (i + 1) ≠ [] := by
    intro hcon
    have hlen := congrArg List.length hcon
    rw [List.length_drop] at hlen
    simp at hlen
    omega
  have h1 := List.dropLast_append_getLast hne
  have h2 : (l.drop (i + 1)).getLast hne = v := by
    rw [List.getLast_eq_getElem]
    have h3 : (l.drop (i + 1)).length - 1 < (l.drop (i + 1)).length := by
      rw [List.length_drop]
      omega
    have h4 := List.getElem?_eq_getElem h3
    rw [List.getElem?_drop] at h4
    have h5 : i + 1 + ((l.drop (i + 1)).length - 1) = l.length - 1 := by
      rw [List.length_drop]
      omega
    rw [h5, hlast] at h4
    exact Option.some_inj.mp h4.symm
  rw [h2] at h1
  exact h1

theorem eraseAllLoop_spec {T : Type} (p : T → Bool) :
    ∀ (fuel : Nat) (t : Table T) (i cnt : Nat), t.Wf →
      (∀ j, j < i → ∀ r, t.rows[j]? = some r → p r = false) →
      t.rows.length - i < fuel →
      (Table.eraseAllLoop p fuel t i cnt).2 = cnt + (t.rows.drop i).countP p ∧
      ((Table.eraseAllLoop p fuel t i cnt).1).rows.Perm
        (t.rows.take i ++ (t.rows.drop i).filter (fun r => !p r)) ∧
      ((Table.eraseAllLoop p fuel t i cnt).1).Wf := by
  intro fuel
  induction fuel with
  | zero =>
    intro t i cnt hwf hpre hfuel
    omega
  | succ fuel ih =>
    intro t i cnt hwf hpre hfuel
    cases hr : t.rows[i]? with
    | none =>
      have hred : Table.eraseAllLoop p (fuel + 1) t i cnt = (t, cnt) := by
        conv_lhs => rw [Table.eraseAllLoop]
        rw [hr]
      rw [hred]
      have hile : t.rows.length ≤ i := by
        by_contra hcon
        rw [List.getElem?_eq_getElem (by omega)] at hr
        exact Option.noConfusion hr
      have hd : t.rows.drop i = [] := List.drop_eq_nil_of_le hile
      have ht : t.rows.take i = t.rows := List.take_of_length_le hile
      refine ⟨by rw [hd]; simp [List.countP_nil], ?_, hwf⟩
      rw [hd, ht]
      simp
    | some r =>
      have hn : i < t.rows.length := by
        by_contra hcon
        rw [List.getElem?_eq_none (by omega)] at hr
        exact Option.noConfusion hr
      have hdropc : t.rows.drop i = r :: t.rows.drop (i + 1) := by
        rw [List.drop_eq_getElem_cons hn]
        rw [List.getElem?_eq_getElem hn] at hr
        rw [Option.some_inj.mp hr]
      have hred : Table.eraseAllLoop p (fuel + 1) t i cnt =
          if p r = true then Table.eraseAllLoop p fuel (t.erase i) i (cnt + 1)
          else Table.eraseAllLoop p fuel t (i + 1) cnt := by
        conv_lhs => rw [Table.eraseAllLoop]
        rw [hr]
      rw [hred]
      cases hpr : p r with
      | false =>
        rw [if_neg (by simp)]
        have hpre' : ∀ j, j < i + 1 → ∀ r', t.rows[j]? = some r' → p r' = false := by
          intro j hj r' hr'
          by_cases hji : j < i
          · exact hpre j hji r' hr'
          · have hji' : j = i := by omega
            rw [hji', hr] at hr'
            rw [← Option.some_inj.mp hr']
            exact hpr
        obtain ⟨hc, hperm, hwf'⟩ := ih t (i + 1) cnt hwf hpre' (by omega)
        refine ⟨?_, ?_, hwf'⟩
        · rw [hc, hdropc, List.countP_cons, hpr]
          simp
        · refine hperm.trans ?_
          rw [List.take_succ, List.getElem?_eq_getElem hn]
          rw [List.getElem?_eq_getElem hn] at hr
          rw [Option.some_inj.mp hr]
          rw [hdropc, List.filter_cons, hpr]
          simp
      | true =>
        rw [if_pos rfl]
        have hwfE : (t.erase i).Wf := Table_erase_wf hwf i
        by_cases hlastc : i = t.rows.length - 1
        · have hlast : t.rows[t.rows.length - 1]? = some r := by
            rw [← hlastc]
            exact hr
          have hrowsE : (t.erase i).rows = t.rows.dropLast := by
            rw [Table_erase_rows hn hlast, hlastc, dropLast_set_last]
          have hlenE : (t.erase i).rows.length = i := by
            rw [hrowsE, List.length_dropLast]
            omega
          have hpreE : ∀ j, j < i → ∀ r', (t.erase i).rows[j]? = some r' → p r' = false := by
            intro j hj r' hr'
            rw [hrowsE, getElem?_dropLast_lt (by omega)] at hr'
            exact hpre j hj r' hr'
          obtain ⟨hc, hperm, hwf'⟩ := ih (t.erase i) i (cnt + 1) hwfE hpreE (by omega)
          have hdE : (t.erase i).rows.drop i = [] := List.drop_eq_nil_of_le (by omega)
          refine ⟨?_, ?_, hwf'⟩
          · rw [hc, hdE, hdropc]
            have hd1 : t.rows.drop (i + 1) = [] := List.drop_eq_nil_of_le (by omega)
            rw [hd1, List.countP_cons, hpr]
            simp [List.countP_nil]
          · refine hperm.trans ?_
            rw [hdE, hrowsE, List.dropLast_eq_take, ← hlastc, List.take_take, hdropc]
            have hd1 : t.rows.drop (i + 1) = [] := List.drop_eq_nil_of_le (by omega)
            rw [hd1, List.filter_cons, hpr]
            simp
        · have hlt : i < t.rows.length - 1 := by omega
          have hpos : t.rows.length - 1 < t.rows.length := by omega
          have hlast : t.rows[t.rows.length - 1]? =
              some (t.rows[t.rows.length - 1]) := List.getElem?_eq_getElem hpos
          have hrowsE : (t.erase i).rows =
              (t.rows.set i (t.rows[t.rows.length - 1])).dropLast :=
            Table_erase_rows hn hlast
          have hlenE : (t.erase i).rows.length = t.rows.length - 1 := by
            rw [hrowsE, List.length_dropLast, List.length_set]
          have hpreE : ∀ j, j < i → ∀ r', (t.erase i).rows[j]? = some r' → p r' = false := by
            intro j hj r' hr'
            rw [hrowsE, getElem?_dropLast_lt (by rw [List.length_set]; omega),
              List.getElem?_set_ne (by omega)] at hr'
            exact hpre j hj r' hr'
          obtain ⟨hc, hperm, hwf'⟩ := ih (t.erase i) i (cnt + 1) hwfE hpreE (by omega)
          have hdropE : (t.erase i).rows.drop i =
              (t.rows[t.rows.length - 1]) :: (t.rows.drop (i + 1)).dropLast := by
            rw [hrowsE]
            exact drop_set_dropLast _ hlt
          have htakeE : (t.erase i).rows.take i = t.rows.take i := by
            rw [hrowsE]
            exact take_set_dropLast _ hlt
          have hconcat : (t.rows.drop (i + 1)).dropLast ++ [t.rows[t.rows.length - 1]] =
              t.rows.drop (i + 1) := drop_dropLast_concat (by omega) hlast
          refine ⟨?_, ?_, hwf'⟩
          · rw [hc, hdropE, hdropc, List.countP_cons, List.countP_cons, hpr, if_pos rfl]
            have hcnt := congrArg (List.countP p) hconcat
            rw [List.countP_append, List.countP_cons, List.countP_nil] at hcnt
            omega
          · refine hperm.trans ?_
            rw [htakeE, hdropE, hdropc]
            have hr1 : List.filter (fun x => !p x) (r :: t.rows.drop (i + 1)) =
                List.filter (fun x => !p x) (t.rows.drop (i + 1)) := by
              rw [List.filter_cons]
              simp [hpr]
            rw [hr1]
            refine List.Perm.append_left _ ?_
            have hfil := congrArg (List.filter (fun x => !p x)) hconcat
            rw [List.filter_append] at hfil
            rw [← hfil, List.filter_cons]
            cases hpl : p (t.rows[t.rows.length - 1]) with
            | true => simp [List.filter_cons, hpl]
            | false =>
              have h1 : List.filter (fun x => !p x) [t.rows[t.rows.length - 1]] =
                  [t.rows[t.rows.length - 1]] := by
                simp [List.filter_cons, hpl]
              rw [h1]
              simp only [Bool.not_false, if_true]
              exact @List.perm_append_comm _ [_] _

end KjTable

namespace KjTable

theorem c6T0_wf : c6T0.Wf := by
  intro idx h
  simp only [c6T0, List.mem_singleton] at h
  rw [h]
  exact Index_empty_hash_wf strHasher

theorem c8T_wf : c8T.Wf :=
  Table_insertAll_wf _ _ c6T0_wf

theorem Table_eraseAll_spec {T : Type} {t : Table T} (hwf : t.Wf) (p : T → Bool) :
    (t.eraseAll p).2 = t.rows.countP p ∧
      ((t.eraseAll p).1).rows.Perm (t.rows.filter (fun r => !p r)) ∧
      ((t.eraseAll p).1).Wf := by
  obtain ⟨hc, hperm, hwf'⟩ :=
    eraseAllLoop_spec p (t.rows.length + 1) t 0 0 hwf (by omega) (by omega)
  refine ⟨?_, ?_, hwf'⟩
  · show (Table.eraseAllLoop p (t.rows.length + 1) t 0 0).2 = _
    rw [hc]
    simp
  · show ((Table.eraseAllLoop p (t.rows.length + 1) t 0 0).1).rows.Perm _
    refine hperm.trans ?_
    simp

end KjTable

/-- C8: for every table and predicate, `eraseAll(p)` removes exactly the
rows satisfying p (the relocated last row is re-examined after each
swap-erase), returns the number removed, and leaves no remaining row
satisfying p.  Concretely on the seven rows baz, bar, qux, corge,
grault, garply, baa with p = startsWith "ba": it returns 3 and size
drops from 7 to 4. -/
theorem C8_eraseAll_pred :
    (∀ (T : Type) (t : KjTable.Table T) (p : T → Bool), t.Wf →
      (t.eraseAll p).2 = t.rows.countP p ∧
      ((t.eraseAll p).1).rows.Perm (t.rows.filter (fun r => !p r)) ∧
      (∀ r ∈ ((t.eraseAll p).1).rows, p r = false) ∧
      ((t.eraseAll p).1).Wf) ∧
    KjTable.c8T.size = 7 ∧
    (KjTable.c8T.eraseAll KjTable.c8P).2 = 3 ∧
    ((KjTable.c8T.eraseAll KjTable.c8P).1).size = 4 ∧
    ((KjTable.c8T.eraseAll KjTable.c8P).1).rows =
      ["garply", "grault", "qux", "corge"] := by
  refine ⟨?_, by decide, by decide, by decide, by decide⟩
  intro T t p hwf
  obtain ⟨hc, hperm, hwf'⟩ := KjTable.Table_eraseAll_spec hwf p
  refine ⟨hc, hperm, ?_, hwf'⟩
  intro r hr
  have hmem : r ∈ t.rows.filter (fun r => !p r) := hperm.mem_iff.mp hr
  have := List.of_mem_filter hmem
  simpa using this

/-- Witness: the eraseAll characterization applied to the concrete
seven-row table. -/
theorem C8_eraseAll_pred_witness :
    KjTable.c8T.Wf ∧
      (KjTable.c8T.eraseAll KjTable.c8P).2 = KjTable.c8T.rows.countP KjTable.c8P ∧
      ((KjTable.c8T.eraseAll KjTable.c8P).1).rows.Perm
        (KjTable.c8T.rows.filter (fun r => !KjTable.c8P r)) ∧
      (∀ r ∈ ((KjTable.c8T.eraseAll KjTable.c8P).1).rows, KjTable.c8P r = false) ∧
      ((KjTable.c8T.eraseAll KjTable.c8P).1).Wf :=
  ⟨KjTable.c8T_wf, C8_eraseAll_pred.1 String KjTable.c8T KjTable.c8P KjTable.c8T_wf⟩

namespace KjTable

theorem mkLinks_length (n : Nat) : (mkLinks n).length = n + 1 := by
  unfold mkLinks
  by_cases h : n = 0
  · rw [if_pos h, h]
    rfl
  · rw [if_neg h]
    simp

theorem mkLinks_getElem?_zero {n : Nat} (h : n ≠ 0) : (mkLinks n)[0]? = some ⟨n, 1⟩ := by
  unfold mkLinks
  rw [if_neg h, List.getElem?_cons_zero]

theorem mkLinks_getElem?_succ {n i : Nat} (hn : n ≠ 0) (h : i < n) :
    (mkLinks n)[i + 1]? = some ⟨i, if i + 1 = n then 0 else i + 2⟩ := by
  unfold mkLinks
  rw [if_neg hn, List.getElem?_cons_succ, List.getElem?_map, List.getElem?_range h]
  rfl

theorem mkLinks_getElem?_none {n m : Nat} (h : n + 1 ≤ m) : (mkLinks n)[m]? = none :=
  List.getElem?_eq_none (by rw [mkLinks_length]; omega)

theorem ioInsert_mkLinks (n : Nat) : ioInsert (mkLinks n) n = mkLinks (n + 1) := by
  cases n with
  | zero => decide
  | succ n' =>
    have hn0 : n' + 1 ≠ 0 := Nat.succ_ne_zero n'
    have hlen : (mkLinks (n' + 1)).length = n' + 2 := mkLinks_length (n' + 1)
    have htailp : ((mkLinks (n' + 1)).getD 0 ⟨0, 0⟩).prev = n' + 1 := by
      rw [List.getD_eq_getElem?_getD, mkLinks_getElem?_zero hn0]
      rfl
    have hpadded : mkLinks (n' + 1) ++
        List.replicate (n' + 1 + 2 - (mkLinks (n' + 1)).length) (⟨0, 0⟩ : IoLink) =
        mkLinks (n' + 1) ++ [⟨0, 0⟩] := by
      rw [hlen]
      have h1 : n' + 1 + 2 - (n' + 2) = 1 := by omega
      rw [h1]
      rfl
    simp only [ioInsert]
    rw [htailp, hpadded]
    have hplen : (mkLinks (n' + 1) ++ [(⟨0, 0⟩ : IoLink)]).length = n' + 3 := by
      rw [List.length_append, hlen]
      rfl
    have heq2 : n' + 1 + 1 = n' + 2 := rfl
    rw [heq2]
    have hp1np : (((mkLinks (n' + 1) ++ [(⟨0, 0⟩ : IoLink)]).set (n' + 2)
        ⟨n' + 1, 0⟩).getD (n' + 1) ⟨0, 0⟩).prev = n' := by
      rw [List.getD_eq_getElem?_getD, List.getElem?_set_ne (by omega),
        getElem?_append_lt (by omega), mkLinks_getElem?_succ hn0 (by omega)]
      rfl
    rw [hp1np]
    have hp20n : ((((mkLinks (n' + 1) ++ [(⟨0, 0⟩ : IoLink)]).set (n' + 2)
        ⟨n' + 1, 0⟩).set (n' + 1) ⟨n', n' + 2⟩).getD 0 ⟨0, 0⟩).next = 1 := by
      rw [List.getD_eq_getElem?_getD, List.getElem?_set_ne (by omega),
        List.getElem?_set_ne (by omega), getElem?_append_lt (by omega),
        mkLinks_getElem?_zero hn0]
      rfl
    rw [hp20n]
    apply List.ext_getElem?
    intro m
    by_cases hm0 : m = 0
    · rw [hm0, List.getElem?_set_self (by simp [List.length_set, hplen]),
        mkLinks_getElem?_zero (Nat.succ_ne_zero (n' + 1))]
    · rw [List.getElem?_set_ne (by omega)]
      by_cases hm1 : m = n' + 1
      · rw [hm1, List.getElem?_set_self (by simp [List.length_set, hplen])]
        have hms := mkLinks_getElem?_succ (n := n' + 2) (i := n') (Nat.succ_ne_zero _)
          (by omega)
        rw [hms]
        have hne : ¬ n' + 1 = n' + 2 := by omega
        rw [if_neg hne]
      · rw [List.getElem?_set_ne (by omega)]
        by_cases hm2 : m = n' + 2
        · rw [hm2, List.getElem?_set_self (by rw [hplen]; omega)]
          have hms := mkLinks_getElem?_succ (n := n' + 2) (i := n' + 1) (Nat.succ_ne_zero _)
            (by omega)
          rw [hms, if_pos rfl]
        · rw [List.getElem?_set_ne (by omega)]
          by_cases hmlt : m < n' + 1
          · obtain ⟨i, rfl⟩ : ∃ i, m = i + 1 := ⟨m - 1, by omega⟩
            rw [getElem?_append_lt (by omega), mkLinks_getElem?_succ hn0 (by omega),
              mkLinks_getElem?_succ (Nat.succ_ne_zero _) (by omega)]
            have h1 : ¬ i + 1 = n' + 1 := by omega
            have h2 : ¬ i + 1 = n' + 2 := by omega
            rw [if_neg h1, if_neg h2]
          · rw [List.getElem?_eq_none (by rw [hplen]; omega),
              mkLinks_getElem?_none (by omega)]

theorem ioOfList_state {T : Type} :
    ∀ (rs : List T) (t : IoTable T), t.links = mkLinks t.rows.length →
      (rs.foldl IoTable.insert t).rows = t.rows ++ rs ∧
      (rs.foldl IoTable.insert t).links = mkLinks (t.rows.length + rs.length) := by
  intro rs
  induction rs with
  | nil =>
    intro t ht
    simp [ht]
  | cons r rs ih =>
    intro t ht
    have hins : (IoTable.insert t r).links = mkLinks (IoTable.insert t r).rows.length := by
      show (ioInsert t.links t.rows.length) = mkLinks (t.rows ++ [r]).length
      rw [ht, ioInsert_mkLinks, List.length_append]
      rfl
    obtain ⟨h1, h2⟩ := ih (IoTable.insert t r) hins
    constructor
    · rw [List.foldl_cons, h1]
      show (t.rows ++ [r]) ++ rs = t.rows ++ r :: rs
      simp
    · rw [List.foldl_cons, h2]
      congr 1
      show (t.rows ++ [r]).length + rs.length = t.rows.length + (r :: rs).length
      simp only [List.length_append, List.length_cons, List.length_nil]
      omega

theorem ioIterLoop_mkLinks (n : Nat) :
    ∀ (fuel pt : Nat), 1 ≤ pt → pt ≤ n → n - pt < fuel →
      ioIterLoop (mkLinks n) fuel pt = List.range' pt (n - pt) := by
  intro fuel
  induction fuel with
  | zero =>
    intro pt h1 h2 h3
    omega
  | succ fuel ih =>
    intro pt h1 h2 h3
    have hn0 : n ≠ 0 := by omega
    obtain ⟨i, rfl⟩ : ∃ i, pt = i + 1 := ⟨pt - 1, by omega⟩
    have hnext : ((mkLinks n).getD (i + 1) ⟨0, 0⟩).next = if i + 1 = n then 0 else i + 2 := by
      rw [List.getD_eq_getElem?_getD, mkLinks_getElem?_succ hn0 (by omega)]
      rfl
    unfold ioIterLoop
    rw [hnext]
    by_cases hend : i + 1 = n
    · rw [if_pos hend, if_pos rfl, hend]
      simp
    · rw [if_neg hend, if_neg (by omega)]
      rw [ih (i + 2) (by omega) (by omega) (by omega)]
      have hr : n - (i + 1) = (n - (i + 2)) + 1 := by omega
      rw [hr, List.range'_succ]
      have h1 : i + 2 - 1 = i + 1 := by omega
      have h2 : i + 1 + 1 = i + 2 := by omega
      rw [h1, h2]

theorem ioIter_mkLinks (n : Nat) : ioIter (mkLinks n) = List.range n := by
  cases n with
  | zero => decide
  | succ n' =>
    unfold ioIter
    rw [mkLinks_length]
    have hnext0 : ((mkLinks (n' + 1)).getD 0 ⟨0, 0⟩).next = 1 := by
      rw [List.getD_eq_getElem?_getD, mkLinks_getElem?_zero (Nat.succ_ne_zero n')]
      rfl
    show ioIterLoop (mkLinks (n' + 1)) (n' + 1 + 1) 0 = _
    unfold ioIterLoop
    rw [hnext0]
    rw [if_neg (by omega)]
    rw [ioIterLoop_mkLinks (n' + 1) (n' + 1) 1 (by omega) (by omega) (by omega)]
    show 0 :: List.range' 1 (n' + 1 - 1) = List.range (n' + 1)
    rw [List.range_eq_range']
    have h1 : n' + 1 - 1 = n' := by omega
    rw [h1, List.range'_succ]

theorem filterMap_getElem?_range {T : Type} (l : List T) :
    (List.range l.length).filterMap (fun n => l[n]?) = l := by
  induction l using List.reverseRecOn with
  | nil => simp
  | append_singleton l' a ih =>
    rw [List.length_append]
    show (List.range (l'.length + 1)).filterMap (fun n => (l' ++ [a])[n]?) = l' ++ [a]
    rw [List.range_succ, List.filterMap_append]
    have h1 : (List.range l'.length).filterMap (fun n => (l' ++ [a])[n]?) = l' := by
      have hcong : ∀ n ∈ List.range l'.length, (l' ++ [a])[n]? = l'[n]? := by
        intro n hn
        exact getElem?_append_lt (List.mem_range.mp hn)
      rw [List.filterMap_congr hcong, ih]
    rw [h1]
    have h2 : List.filterMap (fun n => (l' ++ [a])[n]?) [l'.length] = [a] := by
      rw [List.filterMap_cons]
      rw [List.getElem?_concat_length]
      rfl
    rw [h2]

theorem ioOfList_iter {T : Type} (rs : List T) : (ioOfList rs).iter = rs := by
  obtain ⟨hrows, hlinks⟩ := ioOfList_state rs (ioEmpty T) rfl
  show (ioIter (rs.foldl IoTable.insert (ioEmpty T)).links).filterMap
    (fun n => (rs.foldl IoTable.insert (ioEmpty T)).rows[n]?) = rs
  rw [hlinks, hrows, ioIter_mkLinks]
  have h1 : (ioEmpty T).rows.length + rs.length = rs.length := by
    simp [ioEmpty]
  rw [h1]
  have h2 : (ioEmpty T).rows ++ rs = rs := by
    simp [ioEmpty]
  rw [h2]
  exact filterMap_getElem?_range rs

end KjTable

/-- C9: moving a Table leaves the moved-from table empty (size 0, empty
iteration) and usable, and the moved-to table holds every row of the
source; with an InsertionOrderIndex (at least 13 rows inserted), the
moved-to table yields all rows in their original insertion order. -/
theorem C9_move_semantics :
    (∀ (T : Type) (rs : List T) (r : T), 13 ≤ rs.length →
      (((KjTable.ioOfList rs).move).1).iter = rs ∧
      (((KjTable.ioOfList rs).move).1).size = rs.length ∧
      (((KjTable.ioOfList rs).move).2).size = 0 ∧
      (((KjTable.ioOfList rs).move).2).iter = [] ∧
      ((((KjTable.ioOfList rs).move).2).insert r).iter = [r]) ∧
    (((KjTable.ioOfList (List.range 13)).move).1).iter = List.range 13 ∧
    (((KjTable.ioOfList (List.range 13)).move).2).iter = ([] : List Nat) := by
  refine ⟨?_, by decide, by decide⟩
  intro T rs r _
  have hrows : (KjTable.ioOfList rs).rows = rs := by
    obtain ⟨h1, _⟩ := KjTable.ioOfList_state rs (KjTable.ioEmpty T) rfl
    simpa [KjTable.ioOfList, KjTable.ioEmpty] using h1
  refine ⟨?_, ?_, rfl, rfl, rfl⟩
  · show (KjTable.ioOfList rs).iter = rs
    exact KjTable.ioOfList_iter rs
  · show (KjTable.ioOfList rs).rows.length = rs.length
    rw [hrows]

/-- Witness: the move theorem applied to a thirteen-row concrete
table. -/
theorem C9_move_semantics_witness :
    13 ≤ (List.range 13).length ∧
      (((KjTable.ioOfList (List.range 13)).move).1).iter = List.range 13 ∧
      (((KjTable.ioOfList (List.range 13)).move).1).size = (List.range 13).length ∧
      (((KjTable.ioOfList (List.range 13)).move).2).size = 0 ∧
      (((KjTable.ioOfList (List.range 13)).move).2).iter = [] ∧
      ((((KjTable.ioOfList (List.range 13)).move).2).insert 99).iter = [99] :=
  ⟨by decide, C9_move_semantics.1 Nat (List.range 13) 99 (by decide)⟩

namespace KjTable

theorem keyLookup_unique {T : Type} {cb : HashCb T} {rows : List T} {slots : List Slot}
    (hwf : Index.Wf rows (Index.hash cb slots)) {m m' : Nat} {k : cb.Key}
    (hm : m < rows.length) (hm' : m' < rows.length)
    (hmk : matchesAt cb.toKeyCb rows m k = true)
    (hmk' : matchesAt cb.toKeyCb rows m' k = true) : m = m' := by
  obtain ⟨inv, hcompl⟩ := hwf
  by_contra hne
  obtain ⟨p, hp⟩ := hasRow_iff.mp ((hcompl m).mpr hm)
  obtain ⟨q, hq⟩ := hasRow_iff.mp ((hcompl m').mpr hm')
  have hpq : p ≠ q := by
    intro hcon
    rw [hcon, hq] at hp
    exact hne (by injection (Option.some_inj.mp hp) with h; exact h.symm) |>.elim
  obtain ⟨r1, hr1, hk1⟩ := matchesAt_true.mp hmk
  obtain ⟨r2, hr2, hk2⟩ := matchesAt_true.mp hmk'
  exact inv.uniq p q m m' hp hq hpq r1 r2 hr1 hr2 (hk1.trans hk2.symm)

theorem hashFind_canonical {T : Type} {cb : HashCb T} {rows : List T} {slots : List Slot}
    (hwf : Index.Wf rows (Index.hash cb slots)) (k : cb.Key) :
    hashFind cb rows slots k = keyLookup cb.toKeyCb rows k := by
  obtain ⟨inv, hcompl⟩ := hwf
  cases hkl : keyLookup cb.toKeyCb rows k with
  | some m =>
    unfold keyLookup at hkl
    have hmk := List.find?_some hkl
    have hmlt := List.mem_range.mp (List.mem_of_find?_eq_some hkl)
    exact hashFind_eq_some inv ((hcompl m).mpr hmlt) hmk
  | none =>
    unfold keyLookup at hkl
    apply hashFind_eq_none
    intro m hmrow
    have hmlt := (hcompl m).mp hmrow
    simpa using List.find?_eq_none.mp hkl m (List.mem_range.mpr hmlt)

theorem Index_insertRow_hash_canonical {T : Type} {cb : HashCb T} {rows : List T}
    {slots : List Slot} (r : T) (hwf : Index.Wf rows (Index.hash cb slots)) :
    (Index.insertRow (rows ++ [r]) rows.length (Index.hash cb slots)).1 =
      keyLookup cb.toKeyCb rows (cb.keyForRow r) := by
  have hr2n : (rows ++ [r])[rows.length]? = some r := List.getElem?_concat_length _ _
  obtain ⟨inv, hcompl⟩ := hwf
  have inv' : HashInv cb (rows ++ [r]) slots := HashInv_append inv r
  have hred : Index.insertRow (rows ++ [r]) rows.length (Index.hash cb slots) =
      ((hashInsert cb (rows ++ [r]) slots rows.length (cb.keyForRow r)).1,
        Index.hash cb (hashInsert cb (rows ++ [r]) slots rows.length (cb.keyForRow r)).2) := by
    unfold Index.insertRow
    rw [hr2n]
  rw [hred]
  cases hkl : keyLookup cb.toKeyCb rows (cb.keyForRow r) with
  | some m =>
    unfold keyLookup at hkl
    have hmk := List.find?_some hkl
    have hmlt := List.mem_range.mp (List.mem_of_find?_eq_some hkl)
    have hmk' : matchesAt cb.toKeyCb (rows ++ [r]) m (cb.keyForRow r) = true := by
      rw [matchesAt_append hmlt]
      exact hmk
    obtain ⟨slots', hins, -, -⟩ := hashInsert_dup inv' ((hcompl m).mpr hmlt) hmk' rows.length
    rw [hins]
  | none =>
    unfold keyLookup at hkl
    have hnodup : ∀ m : Nat, hasRow slots m = true →
        matchesAt cb.toKeyCb (rows ++ [r]) m (cb.keyForRow r) = false := by
      intro m hmrow
      have hmlt := (hcompl m).mp hmrow
      rw [matchesAt_append hmlt]
      simpa using List.find?_eq_none.mp hkl m (List.mem_range.mpr hmlt)
    obtain ⟨slots', hins, -, -⟩ := hashInsert_fresh inv' hr2n rfl hnodup
    rw [hins]

theorem insertRow_hash_shape {T : Type} (cb : HashCb T) (rows : List T) (n : Nat)
    (slots : List Slot) :
    ∃ s', Index.insertRow rows n (Index.hash cb slots) =
      ((Index.insertRow rows n (Index.hash cb slots)).1, Index.hash cb s') := by
  unfold Index.insertRow
  cases rows[n]? with
  | none => exact ⟨slots, rfl⟩
  | some r => exact ⟨_, rfl⟩

theorem eraseRow_hash_shape {T : Type} (cb : HashCb T) (rows : List T) (n : Nat)
    (slots : List Slot) :
    ∃ s', Index.eraseRow rows n (Index.hash cb slots) = Index.hash cb s' := by
  unfold Index.eraseRow
  cases rows[n]? with
  | none => exact ⟨slots, rfl⟩
  | some r => exact ⟨_, rfl⟩

theorem moveRow_hash_shape {T : Type} (cb : HashCb T) (rowsNew : List T) (old nw : Nat)
    (slots : List Slot) :
    ∃ s', Index.moveRow rowsNew old nw (Index.hash cb slots) = Index.hash cb s' := by
  unfold Index.moveRow
  cases rowsNew[nw]? with
  | none => exact ⟨slots, rfl⟩
  | some r => exact ⟨_, rfl⟩

theorem single_insert_eq {T : Type} (cb : HashCb T) (st : List T × List Slot) (r : T) :
    (tOf cb st).insert r =
      match Index.insertRow (st.1 ++ [r]) st.1.length (Index.hash cb st.2) with
      | (some m, idx') => (⟨st.1, [idx']⟩, some m)
      | (none, idx') => (⟨st.1 ++ [r], [idx']⟩, none) := by
  show Table.insert ⟨st.1, [Index.hash cb st.2]⟩ r = _
  unfold Table.insert insertAllIdx
  cases h : Index.insertRow (st.1 ++ [r]) st.1.length (Index.hash cb st.2) with
  | mk d idx' =>
    cases d with
    | some m => rfl
    | none => rfl

end KjTable

namespace KjTable

theorem single_insert_eq_dup {T : Type} {cb : HashCb T} {st : List T × List Slot} {r : T}
    {m : Nat} {idx' : Index T}
    (h : Index.insertRow (st.1 ++ [r]) st.1.length (Index.hash cb st.2) = (some m, idx')) :
    (tOf cb st).insert r = (⟨st.1, [idx']⟩, some m) := by
  rw [single_insert_eq, h]

theorem single_insert_eq_fresh {T : Type} {cb : HashCb T} {st : List T × List Slot} {r : T}
    {idx' : Index T}
    (h : Index.insertRow (st.1 ++ [r]) st.1.length (Index.hash cb st.2) = (none, idx')) :
    (tOf cb st).insert r = (⟨st.1 ++ [r], [idx']⟩, none) := by
  rw [single_insert_eq, h]

theorem single_findAt_eq {T : Type} (cb : HashCb T) (st : List T × List Slot) (k : cb.Key) :
    Table.findAt (tOf cb st) ⟨0, Nat.zero_lt_one⟩ k = hashFind cb st.1 st.2 k := rfl

theorem single_eraseMatch_eq {T : Type} (cb : HashCb T) (st : List T × List Slot)
    (k : cb.Key) :
    (tOf cb st).eraseMatch ⟨0, Nat.zero_lt_one⟩ k =
      match hashFind cb st.1 st.2 k with
      | some n => ((tOf cb st).erase n, true)
      | none => (tOf cb st, false) := rfl

theorem slots0_eq {T : Type} {t : Table T} {cb : HashCb T} {s' : List Slot}
    (h : t.idxs = [Index.hash cb s']) : slots0 t = s' := by
  unfold slots0
  rw [h]

theorem tOf_wf {T : Type} {cb : HashCb T} {st : List T × List Slot}
    (h : Index.Wf st.1 (Index.hash cb st.2)) : (tOf cb st).Wf := by
  intro idx hidx
  rw [List.mem_singleton.mp hidx]
  exact h

theorem Table_erase_rows_only {T : Type} {t t' : Table T} (h : t.rows = t'.rows) (n : Nat) :
    (t.erase n).rows = (t'.erase n).rows := by
  unfold Table.erase
  rw [h]
  by_cases hn : n < t'.rows.length
  · rw [if_pos hn, if_pos hn]
    by_cases hl : n = t'.rows.length - 1
    · rw [if_pos hl, if_pos hl]
    · rw [if_neg hl, if_neg hl]
      cases hlast : t'.rows[t'.rows.length - 1]? with
      | some lastRow => rfl
      | none => exact h
  · rw [if_neg hn, if_neg hn]
    exact h

theorem erase_hash_shape {T : Type} (cb : HashCb T) (st : List T × List Slot) (n : Nat) :
    ∃ s', ((tOf cb st).erase n).idxs = [Index.hash cb s'] := by
  unfold Table.erase
  by_cases hn : n < (tOf cb st).rows.length
  · rw [if_pos hn]
    obtain ⟨s1, hs1⟩ := eraseRow_hash_shape cb (tOf cb st).rows n st.2
    by_cases hl : n = (tOf cb st).rows.length - 1
    · rw [if_pos hl]
      refine ⟨s1, ?_⟩
      show [Index.eraseRow (tOf cb st).rows n (Index.hash cb st.2)] = _
      rw [hs1]
    · rw [if_neg hl]
      cases hlast : (tOf cb st).rows[(tOf cb st).rows.length - 1]? with
      | none => exact ⟨st.2, rfl⟩
      | some lastRow =>
        obtain ⟨s2, hs2⟩ := moveRow_hash_shape cb (((tOf cb st).rows.set n lastRow).dropLast)
          ((tOf cb st).rows.length - 1) n s1
        refine ⟨s2, ?_⟩
        show [Index.moveRow (((tOf cb st).rows.set n lastRow).dropLast)
          ((tOf cb st).rows.length - 1) n
          (Index.eraseRow (tOf cb st).rows n (Index.hash cb st.2))] = _
        rw [hs1, hs2]
  · rw [if_neg hn]
    exact ⟨st.2, rfl⟩

end KjTable

namespace KjTable

theorem hRun1_sim {T : Type} (kb : KeyCb T) (h1 h2 : kb.Key → Nat)
    {st1 st2 : List T × List Slot}
    (hw1 : Index.Wf st1.1 (Index.hash ⟨kb, h1⟩ st1.2))
    (hw2 : Index.Wf st2.1 (Index.hash ⟨kb, h2⟩ st2.2))
    (hrows : st1.1 = st2.1) :
    ∀ op : HOp T kb.Key,
      (hRun1 ⟨kb, h1⟩ st1 op).2 = (hRun1 ⟨kb, h2⟩ st2 op).2 ∧
      (hRun1 ⟨kb, h1⟩ st1 op).1.1 = (hRun1 ⟨kb, h2⟩ st2 op).1.1 ∧
      Index.Wf (hRun1 ⟨kb, h1⟩ st1 op).1.1
        (Index.hash ⟨kb, h1⟩ (hRun1 ⟨kb, h1⟩ st1 op).1.2) ∧
      Index.Wf (hRun1 ⟨kb, h2⟩ st2 op).1.1
        (Index.hash ⟨kb, h2⟩ (hRun1 ⟨kb, h2⟩ st2 op).1.2) := by
  intro op
  cases op with
  | find k =>
    refine ⟨?_, hrows, hw1, hw2⟩
    show HOut.findRes (Table.findAt (tOf ⟨kb, h1⟩ st1) ⟨0, Nat.zero_lt_one⟩ k) =
      HOut.findRes (Table.findAt (tOf ⟨kb, h2⟩ st2) ⟨0, Nat.zero_lt_one⟩ k)
    rw [single_findAt_eq, single_findAt_eq, hashFind_canonical hw1 k,
      hashFind_canonical hw2 k, hrows]
  | ins r =>
    obtain ⟨s1', hs1⟩ := insertRow_hash_shape ⟨kb, h1⟩ (st1.1 ++ [r]) st1.1.length st1.2
    obtain ⟨s2', hs2⟩ := insertRow_hash_shape ⟨kb, h2⟩ (st2.1 ++ [r]) st2.1.length st2.2
    have hc1 : (Index.insertRow (st1.1 ++ [r]) st1.1.length
        (Index.hash ⟨kb, h1⟩ st1.2)).1 = keyLookup kb st1.1 (kb.keyForRow r) :=
      Index_insertRow_hash_canonical r hw1
    have hc2 : (Index.insertRow (st2.1 ++ [r]) st2.1.length
        (Index.hash ⟨kb, h2⟩ st2.2)).1 = keyLookup kb st2.1 (kb.keyForRow r) :=
      Index_insertRow_hash_canonical r hw2
    rw [hc1] at hs1
    rw [hc2] at hs2
    cases hkl : keyLookup kb st1.1 (kb.keyForRow r) with
    | some m =>
      have hkl2 : keyLookup kb st2.1 (kb.keyForRow r) = some m := by
        rw [← hrows]
        exact hkl
      rw [hkl] at hs1
      rw [hkl2] at hs2
      have ht1 := single_insert_eq_dup hs1
      have ht2 := single_insert_eq_dup hs2
      obtain ⟨hwA, -, -⟩ := Index_insertRow_some hw1 hs1
      obtain ⟨hwB, -, -⟩ := Index_insertRow_some hw2 hs2
      refine ⟨?_, ?_, ?_, ?_⟩
      · show HOut.insRes ((tOf ⟨kb, h1⟩ st1).insert r).2 =
          HOut.insRes ((tOf ⟨kb, h2⟩ st2).insert r).2
        rw [ht1, ht2]
      · show (stOf ((tOf ⟨kb, h1⟩ st1).insert r).1).1 =
          (stOf ((tOf ⟨kb, h2⟩ st2).insert r).1).1
        rw [ht1, ht2]
        exact hrows
      · show Index.Wf (stOf ((tOf ⟨kb, h1⟩ st1).insert r).1).1
          (Index.hash ⟨kb, h1⟩ (stOf ((tOf ⟨kb, h1⟩ st1).insert r).1).2)
        rw [ht1]
        exact hwA
      · show Index.Wf (stOf ((tOf ⟨kb, h2⟩ st2).insert r).1).1
          (Index.hash ⟨kb, h2⟩ (stOf ((tOf ⟨kb, h2⟩ st2).insert r).1).2)
        rw [ht2]
        exact hwB
    | none =>
      have hkl2 : keyLookup kb st2.1 (kb.keyForRow r) = none := by
        rw [← hrows]
        exact hkl
      rw [hkl] at hs1
      rw [hkl2] at hs2
      have ht1 := single_insert_eq_fresh hs1
      have ht2 := single_insert_eq_fresh hs2
      obtain ⟨hwA, -, -, -⟩ := Index_insertRow_none hw1 hs1
      obtain ⟨hwB, -, -, -⟩ := Index_insertRow_none hw2 hs2
      refine ⟨?_, ?_, ?_, ?_⟩
      · show HOut.insRes ((tOf ⟨kb, h1⟩ st1).insert r).2 =
          HOut.insRes ((tOf ⟨kb, h2⟩ st2).insert r).2
        rw [ht1, ht2]
      · show (stOf ((tOf ⟨kb, h1⟩ st1).insert r).1).1 =
          (stOf ((tOf ⟨kb, h2⟩ st2).insert r).1).1
        rw [ht1, ht2]
        show st1.1 ++ [r] = st2.1 ++ [r]
        rw [hrows]
      · show Index.Wf (stOf ((tOf ⟨kb, h1⟩ st1).insert r).1).1
          (Index.hash ⟨kb, h1⟩ (stOf ((tOf ⟨kb, h1⟩ st1).insert r).1).2)
        rw [ht1]
        exact hwA
      · show Index.Wf (stOf ((tOf ⟨kb, h2⟩ st2).insert r).1).1
          (Index.hash ⟨kb, h2⟩ (stOf ((tOf ⟨kb, h2⟩ st2).insert r).1).2)
        rw [ht2]
        exact hwB
  | ups r =>
    obtain ⟨s1', hs1⟩ := insertRow_hash_shape ⟨kb, h1⟩ (st1.1 ++ [r]) st1.1.length st1.2
    obtain ⟨s2', hs2⟩ := insertRow_hash_shape ⟨kb, h2⟩ (st2.1 ++ [r]) st2.1.length st2.2
    have hc1 : (Index.insertRow (st1.1 ++ [r]) st1.1.length
        (Index.hash ⟨kb, h1⟩ st1.2)).1 = keyLookup kb st1.1 (kb.keyForRow r) :=
      Index_insertRow_hash_canonical r hw1
    have hc2 : (Index.insertRow (st2.1 ++ [r]) st2.1.length
        (Index.hash ⟨kb, h2⟩ st2.2)).1 = keyLookup kb st2.1 (kb.keyForRow r) :=
      Index_insertRow_hash_canonical r hw2
    rw [hc1] at hs1
    rw [hc2] at hs2
    cases hkl : keyLookup kb st1.1 (kb.keyForRow r) with
    | some m =>
      have hkl2 : keyLookup kb st2.1 (kb.keyForRow r) = some m := by
        rw [← hrows]
        exact hkl
      rw [hkl] at hs1
      rw [hkl2] at hs2
      have ht1 := single_insert_eq_dup hs1
      have ht2 := single_insert_eq_dup hs2
      obtain ⟨hwA, -, -⟩ := Index_insertRow_some hw1 hs1
      obtain ⟨hwB, -, -⟩ := Index_insertRow_some hw2 hs2
      have hu1 : (tOf ⟨kb, h1⟩ st1).upsert r = (⟨st1.1, [Index.hash ⟨kb, h1⟩ s1']⟩,
          .updated m r) := by
        unfold Table.upsert
        rw [ht1]
      have hu2 : (tOf ⟨kb, h2⟩ st2).upsert r = (⟨st2.1, [Index.hash ⟨kb, h2⟩ s2']⟩,
          .updated m r) := by
        unfold Table.upsert
        rw [ht2]
      refine ⟨?_, ?_, ?_, ?_⟩
      · show HOut.upsRes ((tOf ⟨kb, h1⟩ st1).upsert r).2 =
          HOut.upsRes ((tOf ⟨kb, h2⟩ st2).upsert r).2
        rw [hu1, hu2]
      · show (stOf ((tOf ⟨kb, h1⟩ st1).upsert r).1).1 =
          (stOf ((tOf ⟨kb, h2⟩ st2).upsert r).1).1
        rw [hu1, hu2]
        exact hrows
      · show Index.Wf (stOf ((tOf ⟨kb, h1⟩ st1).upsert r).1).1
          (Index.hash ⟨kb, h1⟩ (stOf ((tOf ⟨kb, h1⟩ st1).upsert r).1).2)
        rw [hu1]
        exact hwA
      · show Index.Wf (stOf ((tOf ⟨kb, h2⟩ st2).upsert r).1).1
          (Index.hash ⟨kb, h2⟩ (stOf ((tOf ⟨kb, h2⟩ st2).upsert r).1).2)
        rw [hu2]
        exact hwB
    | none =>
      have hkl2 : keyLookup kb st2.1 (kb.keyForRow r) = none := by
        rw [← hrows]
        exact hkl
      rw [hkl] at hs1
      rw [hkl2] at hs2
      have ht1 := single_insert_eq_fresh hs1
      have ht2 := single_insert_eq_fresh hs2
      obtain ⟨hwA, -, -, -⟩ := Index_insertRow_none hw1 hs1
      obtain ⟨hwB, -, -, -⟩ := Index_insertRow_none hw2 hs2
      have hu1 : (tOf ⟨kb, h1⟩ st1).upsert r = (⟨st1.1 ++ [r], [Index.hash ⟨kb, h1⟩ s1']⟩,
          .inserted ((st1.1 ++ [r]).length - 1)) := by
        unfold Table.upsert
        rw [ht1]
      have hu2 : (tOf ⟨kb, h2⟩ st2).upsert r = (⟨st2.1 ++ [r], [Index.hash ⟨kb, h2⟩ s2']⟩,
          .inserted ((st2.1 ++ [r]).length - 1)) := by
        unfold Table.upsert
        rw [ht2]
      refine ⟨?_, ?_, ?_, ?_⟩
      · show HOut.upsRes ((tOf ⟨kb, h1⟩ st1).upsert r).2 =
          HOut.upsRes ((tOf ⟨kb, h2⟩ st2).upsert r).2
        rw [hu1, hu2, hrows]
      · show (stOf ((tOf ⟨kb, h1⟩ st1).upsert r).1).1 =
          (stOf ((tOf ⟨kb, h2⟩ st2).upsert r).1).1
        rw [hu1, hu2]
        show st1.1 ++ [r] = st2.1 ++ [r]
        rw [hrows]
      · show Index.Wf (stOf ((tOf ⟨kb, h1⟩ st1).upsert r).1).1
          (Index.hash ⟨kb, h1⟩ (stOf ((tOf ⟨kb, h1⟩ st1).upsert r).1).2)
        rw [hu1]
        exact hwA
      · show Index.Wf (stOf ((tOf ⟨kb, h2⟩ st2).upsert r).1).1
          (Index.hash ⟨kb, h2⟩ (stOf ((tOf ⟨kb, h2⟩ st2).upsert r).1).2)
        rw [hu2]
        exact hwB
  | ersM k =>
    have hf1 : hashFind ⟨kb, h1⟩ st1.1 st1.2 k = keyLookup kb st1.1 k :=
      hashFind_canonical hw1 k
    have hf2 : hashFind ⟨kb, h2⟩ st2.1 st2.2 k = keyLookup kb st1.1 k := by
      rw [hashFind_canonical hw2 k, hrows]
    have he1 := single_eraseMatch_eq ⟨kb, h1⟩ st1 k
    have he2 := single_eraseMatch_eq ⟨kb, h2⟩ st2 k
    rw [hf1] at he1
    rw [hf2] at he2
    cases hkl : keyLookup kb st1.1 k with
    | none =>
      rw [hkl] at he1 he2
      refine ⟨?_, ?_, ?_, ?_⟩
      · show HOut.ersRes ((tOf ⟨kb, h1⟩ st1).eraseMatch ⟨0, Nat.zero_lt_one⟩ k).2 =
          HOut.ersRes ((tOf ⟨kb, h2⟩ st2).eraseMatch ⟨0, Nat.zero_lt_one⟩ k).2
        rw [he1, he2]
      · show (stOf ((tOf ⟨kb, h1⟩ st1).eraseMatch ⟨0, Nat.zero_lt_one⟩ k).1).1 =
          (stOf ((tOf ⟨kb, h2⟩ st2).eraseMatch ⟨0, Nat.zero_lt_one⟩ k).1).1
        rw [he1, he2]
        exact hrows
      · show Index.Wf (stOf ((tOf ⟨kb, h1⟩ st1).eraseMatch ⟨0, Nat.zero_lt_one⟩ k).1).1
          (Index.hash ⟨kb, h1⟩
            (stOf ((tOf ⟨kb, h1⟩ st1).eraseMatch ⟨0, Nat.zero_lt_one⟩ k).1).2)
        rw [he1]
        exact hw1
      · show Index.Wf (stOf ((tOf ⟨kb, h2⟩ st2).eraseMatch ⟨0, Nat.zero_lt_one⟩ k).1).1
          (Index.hash ⟨kb, h2⟩
            (stOf ((tOf ⟨kb, h2⟩ st2).eraseMatch ⟨0, Nat.zero_lt_one⟩ k).1).2)
        rw [he2]
        exact hw2
    | some n =>
      rw [hkl] at he1 he2
      obtain ⟨sE1, hsE1⟩ := erase_hash_shape ⟨kb, h1⟩ st1 n
      obtain ⟨sE2, hsE2⟩ := erase_hash_shape ⟨kb, h2⟩ st2 n
      have hwE1 : Index.Wf ((tOf ⟨kb, h1⟩ st1).erase n).rows (Index.hash ⟨kb, h1⟩ sE1) := by
        have := Table_erase_wf (tOf_wf hw1) n
        have hmem : Index.hash ⟨kb, h1⟩ sE1 ∈ ((tOf ⟨kb, h1⟩ st1).erase n).idxs := by
          rw [hsE1]
          exact List.mem_singleton_self _
        exact this _ hmem
      have hwE2 : Index.Wf ((tOf ⟨kb, h2⟩ st2).erase n).rows (Index.hash ⟨kb, h2⟩ sE2) := by
        have := Table_erase_wf (tOf_wf hw2) n
        have hmem : Index.hash ⟨kb, h2⟩ sE2 ∈ ((tOf ⟨kb, h2⟩ st2).erase n).idxs := by
          rw [hsE2]
          exact List.mem_singleton_self _
        exact this _ hmem
      have hrowsE : ((tOf ⟨kb, h1⟩ st1).erase n).rows = ((tOf ⟨kb, h2⟩ st2).erase n).rows :=
        Table_erase_rows_only hrows n
      refine ⟨?_, ?_, ?_, ?_⟩
      · show HOut.ersRes ((tOf ⟨kb, h1⟩ st1).eraseMatch ⟨0, Nat.zero_lt_one⟩ k).2 =
          HOut.ersRes ((tOf ⟨kb, h2⟩ st2).eraseMatch ⟨0, Nat.zero_lt_one⟩ k).2
        rw [he1, he2]
      · show (stOf ((tOf ⟨kb, h1⟩ st1).eraseMatch ⟨0, Nat.zero_lt_one⟩ k).1).1 =
          (stOf ((tOf ⟨kb, h2⟩ st2).eraseMatch ⟨0, Nat.zero_lt_one⟩ k).1).1
        rw [he1, he2]
        exact hrowsE
      · show Index.Wf (stOf ((tOf ⟨kb, h1⟩ st1).eraseMatch ⟨0, Nat.zero_lt_one⟩ k).1).1
          (Index.hash ⟨kb, h1⟩
            (stOf ((tOf ⟨kb, h1⟩ st1).eraseMatch ⟨0, Nat.zero_lt_one⟩ k).1).2)
        rw [he1]
        show Index.Wf ((tOf ⟨kb, h1⟩ st1).erase n).rows
          (Index.hash ⟨kb, h1⟩ (slots0 ((tOf ⟨kb, h1⟩ st1).erase n)))
        rw [slots0_eq hsE1]
        exact hwE1
      · show Index.Wf (stOf ((tOf ⟨kb, h2⟩ st2).eraseMatch ⟨0, Nat.zero_lt_one⟩ k).1).1
          (Index.hash ⟨kb, h2⟩
            (stOf ((tOf ⟨kb, h2⟩ st2).eraseMatch ⟨0, Nat.zero_lt_one⟩ k).1).2)
        rw [he2]
        show Index.Wf ((tOf ⟨kb, h2⟩ st2).erase n).rows
          (Index.hash ⟨kb, h2⟩ (slots0 ((tOf ⟨kb, h2⟩ st2).erase n)))
        rw [slots0_eq hsE2]
        exact hwE2

end KjTable

namespace KjTable

theorem hRun_sim {T : Type} (kb : KeyCb T) (h1 h2 : kb.Key → Nat) :
    ∀ (ops : List (HOp T kb.Key)) (st1 st2 : List T × List Slot),
      Index.Wf st1.1 (Index.hash ⟨kb, h1⟩ st1.2) →
      Index.Wf st2.1 (Index.hash ⟨kb, h2⟩ st2.2) →
      st1.1 = st2.1 →
      (hRun ⟨kb, h1⟩ st1 ops).2 = (hRun ⟨kb, h2⟩ st2 ops).2 ∧
      (hRun ⟨kb, h1⟩ st1 ops).1.1 = (hRun ⟨kb, h2⟩ st2 ops).1.1 := by
  intro ops
  induction ops with
  | nil =>
    intro st1 st2 hw1 hw2 hrows
    exact ⟨rfl, hrows⟩
  | cons op ops ih =>
    intro st1 st2 hw1 hw2 hrows
    obtain ⟨hout, hrows', hwA, hwB⟩ := hRun1_sim kb h1 h2 hw1 hw2 hrows op
    obtain ⟨hts, hrs⟩ := ih (hRun1 ⟨kb, h1⟩ st1 op).1 (hRun1 ⟨kb, h2⟩ st2 op).1 hwA hwB hrows'
    refine ⟨?_, hrs⟩
    show (hRun1 ⟨kb, h1⟩ st1 op).2 :: (hRun ⟨kb, h1⟩ (hRun1 ⟨kb, h1⟩ st1 op).1 ops).2 =
      (hRun1 ⟨kb, h2⟩ st2 op).2 :: (hRun ⟨kb, h2⟩ (hRun1 ⟨kb, h2⟩ st2 op).1 ops).2
    rw [hout, hts]

end KjTable

/-- C10: the observable behavior of a HashIndex-backed table does not
depend on the hashCode callback: for every operation sequence (insert,
find, eraseMatch, upsert) and any two hash functions over the same key
callback, both runs from the empty table produce identical outputs
(return values, duplicate rejections, upsert outcomes) and identical
row storage (sizes and iteration).  Concretely, the identity hasher and
the constant-zero BadHasher agree on a nine-operation scenario. -/
theorem C10_hash_independence :
    (∀ (T : Type) (kb : KjTable.KeyCb T) (h1 h2 : kb.Key → Nat)
      (ops : List (KjTable.HOp T kb.Key)),
      (KjTable.hRun ⟨kb, h1⟩ ([], []) ops).2 = (KjTable.hRun ⟨kb, h2⟩ ([], []) ops).2 ∧
      (KjTable.hRun ⟨kb, h1⟩ ([], []) ops).1.1 =
        (KjTable.hRun ⟨kb, h2⟩ ([], []) ops).1.1) ∧
    (KjTable.hRun ⟨KjTable.natKeyCb, id⟩ ([], []) KjTable.c10ops).2 =
      (KjTable.hRun ⟨KjTable.natKeyCb, fun _ => 0⟩ ([], []) KjTable.c10ops).2 ∧
    (KjTable.hRun ⟨KjTable.natKeyCb, id⟩ ([], []) KjTable.c10ops).1.1 =
      (KjTable.hRun ⟨KjTable.natKeyCb, fun _ => 0⟩ ([], []) KjTable.c10ops).1.1 ∧
    (KjTable.hRun ⟨KjTable.natKeyCb, fun _ => 0⟩ ([], []) KjTable.c10ops).2 =
      [.insRes none, .findRes (some 0), .insRes (some 0), .insRes none,
        .ersRes true, .findRes none, .upsRes (.updated 0 34), .findRes (some 0),
        .upsRes (.inserted 1)] := by
  refine ⟨?_, by decide, by decide, by decide⟩
  intro T kb h1 h2 ops
  exact KjTable.hRun_sim kb h1 h2 ops ([], []) ([], [])
    (KjTable.Index_empty_hash_wf ⟨kb, h1⟩) (KjTable.Index_empty_hash_wf ⟨kb, h2⟩) rfl
